import Mathlib

/-!
Verification development for a dual-backend market-data store.

The system stores OHLCV bars for multiple tickers and answers four analytic
queries (range retrieval, average daily volume, top-N period returns, daily
first/last trade summary) against two backends:

* a relational (SQLite) backend: tables `tickers` and `prices`, queries
  expressed as SQL (joins / grouped aggregation), modelled here by
  deterministic list pipelines (`sqJoin`, `get_ticker_data`,
  `get_avg_daily_volume`, `get_top_tickers_by_return`,
  `get_daily_trade_summary`);
* a columnar (Parquet) backend: a ticker-partitioned bar list, queries
  expressed as pandas pipelines (`get_ticker_data_parquet`, ...).

Numeric modelling: SQL REAL / pandas float64 prices are modelled as `ℚ`,
volumes as `ℕ`, timestamps as pairs (calendar day, time of day) ordered
lexicographically (ISO-8601 text comparison in SQLite and datetime64
comparison in pandas both realise exactly this order).  `ROUND(x, 2)` in
SQLite rounds half away from zero (`round2_sqlite`); Python's `round(x, 2)`
rounds half to even (`round2_py`).

Determinization: SQL leaves the order of rows within equal sort keys open.
The embedding fixes the orders an actual run produces: `GROUP BY k` emits
groups in ascending key order (SQLite materialises groups through a sorted
temporary b-tree), `ORDER BY` is a stable sort, nested-loop joins enumerate
the outer table in storage order.  pandas `groupby(sort=True)` emits keys
ascending and its sorts are modelled as stable.  All sorts are modelled by
`List.insertionSort`, which is stable.
-/

set_option allowUnsafeReducibility true in
attribute [semireducible] Rat.add Rat.sub Rat.mul Rat.div Rat.inv Rat.neg

namespace MarketData

/-- Code-point-wise lexicographic comparison of symbol text: SQLite's
default BINARY collation on ASCII text and Python's string comparison
both order ticker symbols this way. -/
def charListCmp : List Char → List Char → Ordering
  | [], [] => Ordering.eq
  | [], _ :: _ => Ordering.lt
  | _ :: _, [] => Ordering.gt
  | a :: as, b :: bs =>
    if a < b then Ordering.lt else if b < a then Ordering.gt else charListCmp as bs

/-- Strict symbol order. -/
def strLt (a b : String) : Prop := charListCmp a.data b.data = Ordering.lt

/-- Reflexive symbol order. -/
def strLe (a b : String) : Prop := charListCmp a.data b.data ≠ Ordering.gt

instance : DecidableRel strLt := fun a b =>
  inferInstanceAs (Decidable (charListCmp a.data b.data = Ordering.lt))

instance : DecidableRel strLe := fun a b =>
  inferInstanceAs (Decidable (charListCmp a.data b.data ≠ Ordering.gt))

theorem charListCmp_eq_iff : ∀ {as bs : List Char}, charListCmp as bs = Ordering.eq ↔ as = bs := by
  intro as
  induction as with
  | nil =>
    intro bs
    cases bs <;> simp [charListCmp]
  | cons a as ih =>
    intro bs
    cases bs with
    | nil => simp [charListCmp]
    | cons b bs =>
      rw [charListCmp]
      rcases lt_trichotomy a b with h | h | h
      · rw [if_pos h]
        simp only [List.cons.injEq]
        constructor
        · intro hc
          exact Ordering.noConfusion hc
        · rintro ⟨rfl, -⟩
          exact absurd h (lt_irrefl a)
      · subst h
        rw [if_neg (lt_irrefl a), if_neg (lt_irrefl a), ih]
        simp
      · rw [if_neg (asymm h), if_pos h]
        simp only [List.cons.injEq]
        constructor
        · intro hc
          exact Ordering.noConfusion hc
        · rintro ⟨rfl, -⟩
          exact absurd h (lt_irrefl a)

theorem charListCmp_swap : ∀ (as bs : List Char),
    charListCmp bs as = (charListCmp as bs).swap := by
  intro as
  induction as with
  | nil =>
    intro bs
    cases bs <;> rfl
  | cons a as ih =>
    intro bs
    cases bs with
    | nil => rfl
    | cons b bs =>
      rw [charListCmp, charListCmp]
      rcases lt_trichotomy a b with h | h | h
      · rw [if_pos h, if_neg (asymm h), if_pos h]
        rfl
      · subst h
        rw [if_neg (lt_irrefl a), if_neg (lt_irrefl a), if_neg (lt_irrefl a),
          if_neg (lt_irrefl a), ih]
      · rw [if_pos h, if_neg (asymm h), if_pos h]
        rfl

theorem charListCmp_lt_trans : ∀ {as bs cs : List Char},
    charListCmp as bs = Ordering.lt → charListCmp bs cs = Ordering.lt →
      charListCmp as cs = Ordering.lt := by
  intro as
  induction as with
  | nil =>
    intro bs cs h1 h2
    cases cs with
    | nil =>
      cases bs with
      | nil => exact h1
      | cons b bs => simp [charListCmp] at h2
    | cons c cs => rfl
  | cons a as ih =>
    intro bs cs h1 h2
    cases bs with
    | nil => simp [charListCmp] at h1
    | cons b bs =>
      cases cs with
      | nil => simp [charListCmp] at h2
      | cons c cs =>
        rw [charListCmp] at h1 h2 ⊢
        rcases lt_trichotomy a b with hab | hab | hab
        · rcases lt_trichotomy b c with hbc | hbc | hbc
          · rw [if_pos (lt_trans hab hbc)]
          · subst hbc
            rw [if_pos hab]
          · rw [if_neg (asymm hbc), if_pos hbc] at h2
            exact Ordering.noConfusion h2
        · subst hab
          rcases lt_trichotomy a c with hac | hac | hac
          · rw [if_pos hac]
          · subst hac
            rw [if_neg (lt_irrefl a), if_neg (lt_irrefl a)] at h2 ⊢
            rw [if_neg (lt_irrefl a), if_neg (lt_irrefl a)] at h1
            exact ih h1 h2
          · rw [if_neg (asymm hac), if_pos hac] at h2
            exact Ordering.noConfusion h2
        · rw [if_neg (asymm hab), if_pos hab] at h1
          exact Ordering.noConfusion h1

theorem str_ext {a b : String} (h : a.data = b.data) : a = b := by
  cases a
  cases b
  exact congrArg String.mk h

theorem strLe_iff {a b : String} : strLe a b ↔ strLt a b ∨ a = b := by
  unfold strLe strLt
  cases hc : charListCmp a.data b.data with
  | lt => simp
  | eq =>
    have hab : a = b := str_ext (charListCmp_eq_iff.mp hc)
    simp [hab]
  | gt =>
    simp only [ne_eq, not_true_eq_false, false_iff, not_or]
    refine ⟨fun h => Ordering.noConfusion h, fun h => ?_⟩
    subst h
    rw [charListCmp_eq_iff.mpr rfl] at hc
    exact Ordering.noConfusion hc

theorem strLt_irrefl (a : String) : ¬ strLt a a := by
  unfold strLt
  rw [charListCmp_eq_iff.mpr rfl]
  exact Ordering.noConfusion

theorem strLt_trans {a b c : String} (h1 : strLt a b) (h2 : strLt b c) : strLt a c :=
  charListCmp_lt_trans h1 h2

theorem strLt_asymm {a b : String} (h : strLt a b) : ¬ strLt b a := by
  unfold strLt at h ⊢
  rw [charListCmp_swap, h]
  exact Ordering.noConfusion

theorem strLt_trichotomy (a b : String) : strLt a b ∨ a = b ∨ strLt b a := by
  unfold strLt
  cases hc : charListCmp a.data b.data with
  | lt => exact Or.inl rfl
  | eq =>
    exact Or.inr (Or.inl (str_ext (charListCmp_eq_iff.mp hc)))
  | gt =>
    refine Or.inr (Or.inr ?_)
    rw [charListCmp_swap, hc]
    rfl

theorem strLe_refl (a : String) : strLe a a := strLe_iff.mpr (Or.inr rfl)

theorem strLe_total (a b : String) : strLe a b ∨ strLe b a := by
  rcases strLt_trichotomy a b with h | h | h
  · exact Or.inl (strLe_iff.mpr (Or.inl h))
  · exact Or.inl (strLe_iff.mpr (Or.inr h))
  · exact Or.inr (strLe_iff.mpr (Or.inl h))

theorem strLe_trans {a b c : String} (h1 : strLe a b) (h2 : strLe b c) : strLe a c := by
  rcases strLe_iff.mp h1 with h1' | rfl
  · rcases strLe_iff.mp h2 with h2' | rfl
    · exact strLe_iff.mpr (Or.inl (strLt_trans h1' h2'))
    · exact strLe_iff.mpr (Or.inl h1')
  · exact h2

theorem strLe_antisymm {a b : String} (h1 : strLe a b) (h2 : strLe b a) : a = b := by
  rcases strLe_iff.mp h1 with h1' | rfl
  · rcases strLe_iff.mp h2 with h2' | rfl
    · exact absurd h2' (strLt_asymm h1')
    · rfl
  · rfl

theorem strLt_of_strLe_of_ne {a b : String} (h1 : strLe a b) (h2 : a ≠ b) : strLt a b := by
  rcases strLe_iff.mp h1 with h | h
  · exact h
  · exact absurd h h2

theorem strLe_of_strLt {a b : String} (h : strLt a b) : strLe a b := strLe_iff.mpr (Or.inl h)

/-- Timestamp: a calendar day index and a time-of-day index.  Both the
SQLite TEXT comparison of ISO timestamps and the pandas datetime64
comparison order timestamps lexicographically by (day, time of day). -/
structure Ts where
  day : ℕ
  tod : ℕ
deriving DecidableEq, Repr

/-- The lexicographic code of a timestamp. -/
def Ts.pair (t : Ts) : ℕ ×ₗ ℕ := toLex (t.day, t.tod)

theorem Ts.pair_injective : Function.Injective Ts.pair := by
  intro a b h
  cases a; cases b
  simpa [Ts.pair, Prod.ext_iff] using congrArg (fun x => ofLex x) h

instance : LinearOrder Ts := LinearOrder.lift' Ts.pair Ts.pair_injective

theorem Ts.le_def {a b : Ts} :
    a ≤ b ↔ a.day < b.day ∨ (a.day = b.day ∧ a.tod ≤ b.tod) := by
  change Ts.pair a ≤ Ts.pair b ↔ _
  constructor
  · intro h
    rcases (Prod.Lex.le_iff ..).mp h with h' | h'
    · exact Or.inl h'
    · exact Or.inr h'
  · intro h
    exact (Prod.Lex.le_iff ..).mpr (by tauto)

/-- A validated OHLCV bar as handed to both backends by the loader. -/
structure Bar where
  ticker : String
  ts : Ts
  open_ : ℚ
  high : ℚ
  low : ℚ
  close : ℚ
  volume : ℕ
deriving DecidableEq, Repr

/-- A row of the relational `tickers` table (`ticker_id`, `symbol`,
`name`, `exchange`). -/
structure TickerRow where
  tid : ℕ
  symbol : String
  name : String
  exchange : String
deriving DecidableEq, Repr

/-- A row of the relational `prices` table (the `id` primary key is the
list position and is never read by the queries). -/
structure PriceRow where
  ts : Ts
  tid : ℕ
  open_ : ℚ
  high : ℚ
  low : ℚ
  close : ℚ
  volume : ℕ
deriving DecidableEq, Repr

/-- A result row of the range query: both backends emit the ticker symbol
together with the full OHLCV payload, ordered by timestamp. -/
structure RangeRow where
  symbol : String
  ts : Ts
  open_ : ℚ
  high : ℚ
  low : ℚ
  close : ℚ
  volume : ℕ
deriving DecidableEq, Repr

/-- A result row of the daily trade summary: symbol, calendar day, first
trade's open, last trade's close. -/
structure DailyRow where
  symbol : String
  day : ℕ
  first_trade_price : ℚ
  last_trade_price : ℚ
deriving DecidableEq, Repr

/-! ### Rounding -/

/-- Round a rational to the nearest integer, halves away from zero
(SQLite's `ROUND`). -/
def roundHalfAwayZ (q : ℚ) : ℤ :=
  if 0 ≤ q then ⌊q + 1 / 2⌋ else -⌊-q + 1 / 2⌋

/-- `ROUND(x, 2)` of SQLite. -/
def round2_sqlite (q : ℚ) : ℚ := (roundHalfAwayZ (q * 100) : ℚ) / 100

/-- Round a rational to the nearest integer, halves to even (Python's and
numpy's `round`). -/
def roundHalfEvenZ (q : ℚ) : ℤ :=
  let f := ⌊q⌋
  let r := q - f
  if r < 1 / 2 then f
  else if 1 / 2 < r then f + 1
  else if f % 2 = 0 then f else f + 1

/-- `round(x, 2)` of Python / numpy. -/
def round2_py (q : ℚ) : ℚ := (roundHalfEvenZ (q * 100) : ℚ) / 100

/-! ### Small list helpers shared by both embeddings -/

/-- First-occurrence deduplication (pandas `Series.unique` keeps the order
of first appearance). -/
def uniqueFirstAux {α : Type} [DecidableEq α] (seen : List α) : List α → List α
  | [] => []
  | a :: l => if a ∈ seen then uniqueFirstAux seen l else a :: uniqueFirstAux (a :: seen) l

/-- The distinct values of a list in order of first appearance. -/
def uniqueFirst {α : Type} [DecidableEq α] (l : List α) : List α := uniqueFirstAux [] l

/-- The `MIN` aggregate over a column of timestamps. -/
def minTs? : List Ts → Option Ts
  | [] => none
  | t :: rest =>
    match minTs? rest with
    | none => some t
    | some m => some (min t m)

/-- The `MAX` aggregate over a column of timestamps. -/
def maxTs? : List Ts → Option Ts
  | [] => none
  | t :: rest =>
    match maxTs? rest with
    | none => some t
    | some m => some (max t m)

/-- The mean of a list of volumes truncated toward zero to an integer:
SQLite's `CAST(AVG(volume) AS INTEGER)` and pandas `mean().astype(int)`
agree on this value for non-negative volumes. -/
def truncMean (vs : List ℕ) : ℤ := ((vs.sum / vs.length : ℕ) : ℤ)

/-- Apply an optional row limit.  Both backends guard with `if limit:`,
so a limit of `0` (falsy in Python) means "no limit". -/
def applyLimit {α : Type} (lim : Option ℕ) (l : List α) : List α :=
  match lim with
  | none => l
  | some 0 => l
  | some k => l.take k

/-! ### Sort relations (all used through the stable `List.insertionSort`) -/

/-- Ascending timestamp order on range rows (`ORDER BY p.timestamp ASC`,
`sort_values('timestamp')`). -/
def rowTsLe (a b : RangeRow) : Prop := a.ts ≤ b.ts

instance : DecidableRel rowTsLe := fun a b => inferInstanceAs (Decidable (a.ts ≤ b.ts))

instance : IsTotal RangeRow rowTsLe := ⟨fun a b => le_total a.ts b.ts⟩

instance : IsTrans RangeRow rowTsLe := ⟨fun _ _ _ h h' => le_trans h h'⟩

/-- Ascending timestamp order on bars. -/
def barTsLe (a b : Bar) : Prop := a.ts ≤ b.ts

instance : DecidableRel barTsLe := fun a b => inferInstanceAs (Decidable (a.ts ≤ b.ts))

instance : IsTotal Bar barTsLe := ⟨fun a b => le_total a.ts b.ts⟩

instance : IsTrans Bar barTsLe := ⟨fun _ _ _ h h' => le_trans h h'⟩

/-- The columnar write path sorts bars by (ticker, timestamp)
(`sort_values(['ticker', 'timestamp'])`). -/
def barLoadLe (a b : Bar) : Prop :=
  strLt a.ticker b.ticker ∨ (a.ticker = b.ticker ∧ a.ts ≤ b.ts)

instance : DecidableRel barLoadLe := fun a b =>
  inferInstanceAs (Decidable (strLt a.ticker b.ticker ∨ (a.ticker = b.ticker ∧ a.ts ≤ b.ts)))

instance : IsTotal Bar barLoadLe where
  total a b := by
    rcases strLt_trichotomy a.ticker b.ticker with h | h | h
    · exact Or.inl (Or.inl h)
    · rcases le_total a.ts b.ts with h' | h'
      · exact Or.inl (Or.inr ⟨h, h'⟩)
      · exact Or.inr (Or.inr ⟨h.symm, h'⟩)
    · exact Or.inr (Or.inl h)

instance : IsTrans Bar barLoadLe where
  trans a b c h h' := by
    rcases h with h | ⟨he, ht⟩
    · rcases h' with h' | ⟨he', _⟩
      · exact Or.inl (strLt_trans h h')
      · exact Or.inl (he' ▸ h)
    · rcases h' with h' | ⟨he', ht'⟩
      · exact Or.inl (he ▸ h')
      · exact Or.inr ⟨he.trans he', ht.trans ht'⟩

/-- Descending value order on (symbol, integer volume) entries
(`ORDER BY avg_daily_volume DESC`, `sort_values(ascending=False)`). -/
def volDescLe (a b : String × ℤ) : Prop := b.2 ≤ a.2

instance : DecidableRel volDescLe := fun a b => inferInstanceAs (Decidable (b.2 ≤ a.2))

instance : IsTotal (String × ℤ) volDescLe := ⟨fun a b => (le_total b.2 a.2).imp id id⟩

instance : IsTrans (String × ℤ) volDescLe := ⟨fun _ _ _ h h' => le_trans h' h⟩

/-- The order the spec claims for the volume report: value descending,
ties broken by symbol ascending. -/
def volLexLe (a b : String × ℤ) : Prop := b.2 < a.2 ∨ (a.2 = b.2 ∧ strLe a.1 b.1)

instance : DecidableRel volLexLe := fun a b =>
  inferInstanceAs (Decidable (b.2 < a.2 ∨ (a.2 = b.2 ∧ strLe a.1 b.1)))

/-- Descending order on optional return percentages.  SQLite treats `NULL`
as smaller than every numeric value, so `ORDER BY return_pct DESC` puts
`NULL` rows last; the pandas pipeline never produces missing values, so on
its rows this coincides with plain descending order. -/
def optDescLe : Option ℚ → Option ℚ → Prop
  | some a, some b => b ≤ a
  | some _, none => True
  | none, some _ => False
  | none, none => True

instance : DecidableRel optDescLe := fun a b => by
  cases a <;> cases b <;> simp only [optDescLe] <;> infer_instance

/-- Descending return order on (symbol, optional return) rows. -/
def retDescLe (a b : String × Option ℚ) : Prop := optDescLe a.2 b.2

instance : DecidableRel retDescLe := fun a b =>
  inferInstanceAs (Decidable (optDescLe a.2 b.2))

instance : IsTotal (String × Option ℚ) retDescLe where
  total a b := by
    rcases a with ⟨_, _ | x⟩ <;> rcases b with ⟨_, _ | y⟩ <;>
      simp only [retDescLe, optDescLe] <;> try trivial
    exact (le_total y x).imp id id

instance : IsTrans (String × Option ℚ) retDescLe where
  trans a b c h h' := by
    rcases a with ⟨_, _ | x⟩ <;> rcases b with ⟨_, _ | y⟩ <;> rcases c with ⟨_, _ | z⟩ <;>
      simp only [retDescLe, optDescLe] at h h' ⊢
    all_goals first
      | trivial
      | exact le_trans h' h

/-- Daily-summary output order: date descending, then symbol ascending
(`ORDER BY db.trade_date DESC, t.symbol ASC`,
`sort_values(['timestamp', 'symbol'], ascending=[False, True])`). -/
def dailyLe (a b : DailyRow) : Prop :=
  b.day < a.day ∨ (a.day = b.day ∧ strLe a.symbol b.symbol)

instance : DecidableRel dailyLe := fun a b =>
  inferInstanceAs (Decidable (b.day < a.day ∨ (a.day = b.day ∧ strLe a.symbol b.symbol)))

instance : IsTotal DailyRow dailyLe where
  total a b := by
    rcases lt_trichotomy a.day b.day with h | h | h
    · exact Or.inr (Or.inl h)
    · rcases strLe_total a.symbol b.symbol with h' | h'
      · exact Or.inl (Or.inr ⟨h, h'⟩)
      · exact Or.inr (Or.inr ⟨h.symm, h'⟩)
    · exact Or.inl (Or.inl h)

instance : IsTrans DailyRow dailyLe where
  trans a b c h h' := by
    rcases h with h | ⟨he, ht⟩
    · rcases h' with h' | ⟨he', _⟩
      · exact Or.inl (h'.trans h)
      · exact Or.inl (he' ▸ h)
    · rcases h' with h' | ⟨he', ht'⟩
      · exact Or.inl (he ▸ h')
      · exact Or.inr ⟨he.trans he', strLe_trans ht ht'⟩

/-- Ascending order on pandas group keys (ticker, calendar day). -/
def keyLe (a b : String × ℕ) : Prop := strLt a.1 b.1 ∨ (a.1 = b.1 ∧ a.2 ≤ b.2)

instance : DecidableRel keyLe := fun a b =>
  inferInstanceAs (Decidable (strLt a.1 b.1 ∨ (a.1 = b.1 ∧ a.2 ≤ b.2)))

instance : IsTotal (String × ℕ) keyLe where
  total a b := by
    rcases strLt_trichotomy a.1 b.1 with h | h | h
    · exact Or.inl (Or.inl h)
    · rcases le_total a.2 b.2 with h' | h'
      · exact Or.inl (Or.inr ⟨h, h'⟩)
      · exact Or.inr (Or.inr ⟨h.symm, h'⟩)
    · exact Or.inr (Or.inl h)

instance : IsTrans (String × ℕ) keyLe where
  trans a b c h h' := by
    rcases h with h | ⟨he, ht⟩
    · rcases h' with h' | ⟨he', _⟩
      · exact Or.inl (strLt_trans h h')
      · exact Or.inl (he' ▸ h)
    · rcases h' with h' | ⟨he', ht'⟩
      · exact Or.inl (he ▸ h')
      · exact Or.inr ⟨he.trans he', ht.trans ht'⟩

/-- Ascending order on SQLite group keys (ticker_id, calendar day)
(`GROUP BY ticker_id, DATE(timestamp)`). -/
def idDayLe (a b : ℕ × ℕ) : Prop := a.1 < b.1 ∨ (a.1 = b.1 ∧ a.2 ≤ b.2)

instance : DecidableRel idDayLe := fun a b =>
  inferInstanceAs (Decidable (a.1 < b.1 ∨ (a.1 = b.1 ∧ a.2 ≤ b.2)))

instance : IsTotal (ℕ × ℕ) idDayLe where
  total a b := by
    rcases lt_trichotomy a.1 b.1 with h | h | h
    · exact Or.inl (Or.inl h)
    · rcases le_total a.2 b.2 with h' | h'
      · exact Or.inl (Or.inr ⟨h, h'⟩)
      · exact Or.inr (Or.inr ⟨h.symm, h'⟩)
    · exact Or.inr (Or.inl h)

instance : IsTrans (ℕ × ℕ) idDayLe where
  trans a b c h h' := by
    rcases h with h | ⟨he, ht⟩
    · rcases h' with h' | ⟨he', _⟩
      · exact Or.inl (h.trans h')
      · exact Or.inl (he' ▸ h)
    · rcases h' with h' | ⟨he', ht'⟩
      · exact Or.inl (he ▸ h')
      · exact Or.inr ⟨he.trans he', ht.trans ht'⟩

/-- Ascending order on symbols (`GROUP BY t.symbol`, pandas
`groupby('ticker')` key order). -/
def symLe (a b : String) : Prop := strLe a b

instance : DecidableRel symLe := fun a b => inferInstanceAs (Decidable (strLe a b))

instance : IsTotal String symLe := ⟨fun a b => strLe_total a b⟩

instance : IsTrans String symLe := ⟨fun _ _ _ h h' => strLe_trans h h'⟩

instance : IsAntisymm String symLe := ⟨fun _ _ h h' => strLe_antisymm h h'⟩

/-! ### Shared load-time validation (`data_loader.load_and_validate_data`)

The loader's file parsing, column normalisation and null checks concern raw
tabular input and are outside the bar model; what reaches the backends is a
typed bar sequence.  The one check that is visible at the bar level is the
reference-ticker check: the set difference
`expected_tickers - actual_tickers` must be empty, otherwise a `ValueError`
is raised.  There is no check in the opposite direction. -/

/-- Validate a bar sequence against the reference symbol list: fails iff
some reference symbol has no bar; on success every bar (orphans included)
is passed through unchanged. -/
def load_and_validate_data (bars : List Bar) (refSymbols : List String) :
    Except String (List Bar) :=
  if refSymbols.any (fun r => !(bars.any (fun b => b.ticker == r))) then
    Except.error "Data validation failed: reference tickers missing in the market data"
  else
    Except.ok bars

/-! ### Relational backend: write path (`sqlite_storage.init_db`,
`import_tickers`, `import_prices`) -/

/-- `get_symbol_map`: the dict built from `zip(symbol, ticker_id)`; for a
duplicated symbol the later row wins, hence the reversed search. -/
def symbolMap (tickers : List TickerRow) (sym : String) : Option ℕ :=
  (tickers.reverse.find? (fun t => t.symbol == sym)).map (fun t => t.tid)

/-- The price row written for a bar whose symbol mapped to `tid`. -/
def barToPrice (tid : ℕ) (b : Bar) : PriceRow :=
  ⟨b.ts, tid, b.open_, b.high, b.low, b.close, b.volume⟩

/-- The mapping/dropping stage of `import_prices`: map each bar's ticker
symbol to its `ticker_id`, drop the rows with no match, and report the
dropped-row count alongside the rows written to `prices`. -/
def import_prices_clean (tickers : List TickerRow) (bars : List Bar) :
    List PriceRow × ℕ :=
  let withId := bars.map (fun b => (b, symbolMap tickers b.ticker))
  ((withId.filterMap (fun p => p.2.map (fun i => barToPrice i p.1)),
    (withId.filter (fun p => p.2.isNone)).length))

/-- The whole of `import_prices`: an empty symbol map aborts before
validation (nothing is written, result `none`); otherwise the shared
validator runs, a validation failure propagates, and on success the
cleaned rows and the dropped count are written. -/
def import_prices (tickers : List TickerRow) (bars : List Bar)
    (refSymbols : List String) : Except String (Option (List PriceRow × ℕ)) :=
  if tickers.isEmpty then
    Except.ok none
  else do
    let clean ← load_and_validate_data bars refSymbols
    Except.ok (some (import_prices_clean tickers clean))

/-! ### Relational backend: connection/table state, for the foreign-key
behaviour of the load path.

`init_db` turns on `PRAGMA foreign_keys` for the connection and creates the
two tables (if absent) with the `FOREIGN KEY (ticker_id)` clause on
`prices`.  Both importers then write through pandas
`to_sql(..., if_exists='replace')`, which drops the existing table and
recreates it from the DataFrame dtypes — without any foreign-key clause.
An insert is rejected only when the pragma is on AND the current `prices`
schema declares the constraint AND the referenced `ticker_id` is absent. -/

/-- The `prices` table: whether its current schema declares the
foreign-key clause, and its rows. -/
structure PricesTable where
  declaresFK : Bool
  rows : List PriceRow
deriving DecidableEq, Repr

/-- A SQLite connection/database state: the pragma flag and the two
(possibly absent) tables. -/
structure SqliteDB where
  fkPragma : Bool
  tickersTab : Option (List TickerRow)
  pricesTab : Option PricesTable
deriving DecidableEq, Repr

/-- A fresh database file: no tables, pragma off. -/
def emptyDB : SqliteDB := ⟨false, none, none⟩

/-- `init_db`: enable the pragma; `CREATE TABLE IF NOT EXISTS` creates the
tables only when absent, and a freshly created `prices` declares the
foreign key. -/
def init_db (db : SqliteDB) : SqliteDB :=
  ⟨true,
    some (db.tickersTab.getD []),
    some (db.pricesTab.getD ⟨true, []⟩)⟩

/-- `import_tickers`: pandas `to_sql('tickers', if_exists='replace')` drops
the table and recreates it (constraint-free) holding the reference rows. -/
def import_tickers (db : SqliteDB) (refs : List TickerRow) : SqliteDB :=
  ⟨db.fkPragma, some refs, db.pricesTab⟩

/-- The table-state effect of `import_prices` on success: pandas
`to_sql('prices', if_exists='replace')` drops `prices` and recreates it
without the foreign-key clause, holding the cleaned rows. -/
def import_prices_db (db : SqliteDB) (bars : List Bar) : SqliteDB :=
  let tk := db.tickersTab.getD []
  if tk.isEmpty then db
  else ⟨db.fkPragma, db.tickersTab, some ⟨false, (import_prices_clean tk bars).1⟩⟩

/-- Outcome of a single `INSERT INTO prices`. -/
inductive InsertErr where
  | noTable
  | fkViolation
deriving DecidableEq, Repr

/-- A direct `INSERT INTO prices`: rejected iff foreign keys are enforced
(pragma on and the current schema declares the clause) and no `tickers` row
carries the referenced `ticker_id`. -/
def insert_price (db : SqliteDB) (row : PriceRow) : Except InsertErr SqliteDB :=
  match db.pricesTab with
  | none => Except.error InsertErr.noTable
  | some tab =>
    if db.fkPragma && tab.declaresFK
        && !((db.tickersTab.getD []).any (fun t => t.tid == row.tid)) then
      Except.error InsertErr.fkViolation
    else
      Except.ok ⟨db.fkPragma, db.tickersTab, some ⟨tab.declaresFK, tab.rows ++ [row]⟩⟩

/-! ### Relational backend: read path (`sqlite_storage` query functions) -/

/-- Tag a price row with a symbol, producing an output row. -/
def priceToRange (sym : String) (p : PriceRow) : RangeRow :=
  ⟨sym, p.ts, p.open_, p.high, p.low, p.close, p.volume⟩

/-- `FROM prices p JOIN tickers t ON p.ticker_id = t.ticker_id`, rows
enumerated in `prices` storage order. -/
def sqJoin (tickers : List TickerRow) (prices : List PriceRow) : List RangeRow :=
  prices.flatMap (fun p =>
    (tickers.filter (fun t => t.tid == p.tid)).map (fun t => priceToRange t.symbol p))

/-- `get_ticker_data`: the join restricted to the requested symbol and to
`timestamp BETWEEN start AND end` (inclusive), ordered by timestamp
ascending. -/
def get_ticker_data (tickers : List TickerRow) (prices : List PriceRow)
    (ticker : String) (s e : Ts) : List RangeRow :=
  List.insertionSort rowTsLe
    ((sqJoin tickers prices).filter
      (fun r => r.symbol == ticker && decide (s ≤ r.ts) && decide (r.ts ≤ e)))

/-- The `GROUP BY t.symbol` key list: distinct symbols in ascending
order. -/
def groupSyms (rows : List RangeRow) : List String :=
  List.insertionSort symLe (uniqueFirst (rows.map (fun r => r.symbol)))

/-- The (symbol, truncated mean volume) entries, one per group, in group
order. -/
def avgEntries (rows : List RangeRow) : List (String × ℤ) :=
  (groupSyms rows).map (fun s =>
    (s, truncMean ((rows.filter (fun r => r.symbol == s)).map (fun r => r.volume))))

/-- `get_avg_daily_volume`: per-symbol `CAST(AVG(volume) AS INTEGER)`
ordered by that value descending. -/
def get_avg_daily_volume (tickers : List TickerRow) (prices : List PriceRow) :
    List (String × ℤ) :=
  List.insertionSort volDescLe (avgEntries (sqJoin tickers prices))

/-- `timestamp BETWEEN ? AND ?` on a price row. -/
def inRangeP (s e : Ts) (p : PriceRow) : Bool := decide (s ≤ p.ts) && decide (p.ts ≤ e)

/-- The in-period price rows. -/
def periodPrices (prices : List PriceRow) (s e : Ts) : List PriceRow :=
  prices.filter (inRangeP s e)

/-- `period_boundaries.first_date` for one `ticker_id`: `MIN(timestamp)`
over that ticker's in-period rows (`none` when it has none). -/
def firstDate (prices : List PriceRow) (s e : Ts) (tid : ℕ) : Option Ts :=
  minTs? (((periodPrices prices s e).filter (fun p => p.tid == tid)).map (fun p => p.ts))

/-- `period_boundaries.last_date` for one `ticker_id`: `MAX(timestamp)`. -/
def lastDate (prices : List PriceRow) (s e : Ts) (tid : ℕ) : Option Ts :=
  maxTs? (((periodPrices prices s e).filter (fun p => p.tid == tid)).map (fun p => p.ts))

/-- The `start_prices` CTE: every `prices` row whose timestamp equals its
ticker's `first_date`, as (ticker_id, open). -/
def start_prices (prices : List PriceRow) (s e : Ts) : List (ℕ × ℚ) :=
  prices.filterMap (fun p =>
    if some p.ts = firstDate prices s e p.tid then some (p.tid, p.open_) else none)

/-- The `end_prices` CTE: every `prices` row whose timestamp equals its
ticker's `last_date`, as (ticker_id, close). -/
def end_prices (prices : List PriceRow) (s e : Ts) : List (ℕ × ℚ) :=
  prices.filterMap (fun p =>
    if some p.ts = lastDate prices s e p.tid then some (p.tid, p.close) else none)

/-- `ROUND(((end_price - start_price) / start_price) * 100, 2)` in SQLite:
division by zero yields `NULL`, so a zero start price produces a `NULL`
return percentage instead of excluding the row. -/
def sqliteRet (sp ep : ℚ) : Option ℚ :=
  if sp = 0 then none else some (round2_sqlite ((ep - sp) / sp * 100))

/-- `get_top_tickers_by_return`: the three-way join enumerated in
`tickers` storage order, ordered by return descending (`NULL` last) and
truncated by `LIMIT`. -/
def get_top_tickers_by_return (tickers : List TickerRow) (prices : List PriceRow)
    (s e : Ts) (n : ℕ) : List (String × Option ℚ) :=
  let rows := tickers.flatMap (fun t =>
    ((start_prices prices s e).filter (fun q => q.1 == t.tid)).flatMap (fun sp =>
      ((end_prices prices s e).filter (fun q => q.1 == t.tid)).map (fun ep =>
        (t.symbol, sqliteRet sp.2 ep.2))))
  (List.insertionSort retDescLe rows).take n

/-- The `GROUP BY ticker_id, DATE(timestamp)` key list: distinct
(ticker_id, day) pairs in ascending order. -/
def dbKeys (prices : List PriceRow) : List (ℕ × ℕ) :=
  List.insertionSort idDayLe (uniqueFirst (prices.map (fun p => (p.tid, p.ts.day))))

/-- `daily_boundaries.start_time` for one (ticker_id, day) group. -/
def dayStart (prices : List PriceRow) (tid day : ℕ) : Option Ts :=
  minTs? ((prices.filter (fun p => p.tid == tid && p.ts.day == day)).map (fun p => p.ts))

/-- `daily_boundaries.end_time` for one (ticker_id, day) group. -/
def dayEnd (prices : List PriceRow) (tid day : ℕ) : Option Ts :=
  maxTs? ((prices.filter (fun p => p.tid == tid && p.ts.day == day)).map (fun p => p.ts))

/-- `get_daily_trade_summary`: per (ticker, day) the open of the
earliest-timestamped row and the close of the latest-timestamped row,
ordered by day descending then symbol ascending, optionally limited. -/
def get_daily_trade_summary (tickers : List TickerRow) (prices : List PriceRow)
    (lim : Option ℕ) : List DailyRow :=
  let rows := (dbKeys prices).flatMap (fun k =>
    (tickers.filter (fun t => t.tid == k.1)).flatMap (fun t =>
      (prices.filter (fun p => p.tid == k.1 && some p.ts == dayStart prices k.1 k.2)).flatMap
        (fun ps =>
          (prices.filter (fun p => p.tid == k.1 && some p.ts == dayEnd prices k.1 k.2)).map
            (fun pe => DailyRow.mk t.symbol k.2 ps.open_ pe.close))))
  applyLimit lim (List.insertionSort dailyLe rows)

/-! ### Columnar backend (`parquet_storage`) -/

/-- The columnar store: `none` models an absent root directory, `some bs`
a root directory whose partitions jointly hold the bar list `bs`. -/
abbrev PStore := Option (List Bar)

/-- Failure of a columnar query. -/
inductive QueryErr where
  | notFound
deriving DecidableEq, Repr

/-- The bar list as physically laid out by `init_parquet`: sorted by
(ticker, timestamp), one partition per distinct ticker value. -/
def init_parquet_bars (bars : List Bar) : List Bar :=
  List.insertionSort barLoadLe bars

/-- `init_parquet`: a no-op when the root directory already exists;
otherwise validate, sort by (ticker, timestamp) and write the partitioned
dataset.  Note that every validated bar is written — bars whose ticker is
absent from the reference set are not dropped here. -/
def init_parquet (st : PStore) (bars : List Bar) (refSymbols : List String) :
    Except String PStore :=
  match st with
  | some bs => Except.ok (some bs)
  | none => do
    let clean ← load_and_validate_data bars refSymbols
    Except.ok (some (init_parquet_bars clean))

/-- `ticker=<SYMBOL>` partition-directory existence: `write_to_dataset`
creates one partition per distinct ticker value of the stored data. -/
def hasPartition (bs : List Bar) (t : String) : Bool :=
  bs.any (fun b => b.ticker == t)

/-- `load_parquet`: the full dataset, or `FileNotFoundError` when the root
directory is absent. -/
def load_parquet : PStore → Except QueryErr (List Bar)
  | none => Except.error QueryErr.notFound
  | some bs => Except.ok bs

/-- The timestamp mask `(timestamp >= start) & (timestamp <= end)`. -/
def barRange (s e : Ts) (b : Bar) : Bool := decide (s ≤ b.ts) && decide (b.ts ≤ e)

/-- A bar as an output row of the range query. -/
def barToRangeRow (b : Bar) : RangeRow :=
  ⟨b.ticker, b.ts, b.open_, b.high, b.low, b.close, b.volume⟩

/-- `get_ticker_data_parquet`: when the ticker's partition directory
exists, read only that partition; otherwise fall back to loading the full
dataset.  The fallback applies only the timestamp mask — there is no
ticker filter on that path.  Rows are then sorted by timestamp. -/
def get_ticker_data_parquet (st : PStore) (ticker : String) (s e : Ts) :
    Except QueryErr (List RangeRow) :=
  match st with
  | none => Except.error QueryErr.notFound
  | some bs =>
    let df := if hasPartition bs ticker then bs.filter (fun b => b.ticker == ticker) else bs
    Except.ok ((List.insertionSort barTsLe (df.filter (barRange s e))).map barToRangeRow)

/-- The (symbol, truncated mean volume) entries of the pandas pipeline:
`groupby('ticker')` emits keys ascending; `mean().astype(int)` truncates
toward zero. -/
def pqAvgEntries (bs : List Bar) : List (String × ℤ) :=
  (List.insertionSort symLe (uniqueFirst (bs.map (fun b => b.ticker)))).map (fun s =>
    (s, truncMean ((bs.filter (fun b => b.ticker == s)).map (fun b => b.volume))))

/-- `get_avg_daily_volume_parquet`: mean volume per ticker, truncated,
sorted descending. -/
def get_avg_daily_volume_parquet (st : PStore) : Except QueryErr (List (String × ℤ)) := do
  let bs ← load_parquet st
  return List.insertionSort volDescLe (pqAvgEntries bs)

/-- `get_top_tickers_by_return_parquet`: per ticker of the period slice
(in order of first appearance), sort its rows by timestamp, take the first
open and last close, keep the ticker only when the start price is
positive, round the percentage return, sort descending, truncate to
`top_n`.  The float return column never holds missing values; it is
embedded as `some _` so that both backends' results live in one type. -/
def get_top_tickers_by_return_parquet (st : PStore) (s e : Ts) (n : ℕ) :
    Except QueryErr (List (String × Option ℚ)) := do
  let bs ← load_parquet st
  let period := bs.filter (barRange s e)
  let rows := (uniqueFirst (period.map (fun b => b.ticker))).filterMap (fun t =>
    match List.insertionSort barTsLe (period.filter (fun b => b.ticker == t)) with
    | [] => none
    | h :: rest =>
      let sp := h.open_
      let ep := ((h :: rest).getLast (List.cons_ne_nil h rest)).close
      if 0 < sp then some (t, some (round2_py ((ep - sp) / sp * 100))) else none)
  return (List.insertionSort retDescLe rows).take n

/-- `get_daily_trade_summary_parquet`: group by (ticker, calendar day)
with keys ascending, take each group's first open and last close in
timestamp order, sort by day descending then symbol ascending, optionally
limit. -/
def get_daily_trade_summary_parquet (st : PStore) (lim : Option ℕ) :
    Except QueryErr (List DailyRow) := do
  let bs ← load_parquet st
  let keys := List.insertionSort keyLe (uniqueFirst (bs.map (fun b => (b.ticker, b.ts.day))))
  let rows := keys.filterMap (fun k =>
    match List.insertionSort barTsLe
        (bs.filter (fun b => b.ticker == k.1 && b.ts.day == k.2)) with
    | [] => none
    | h :: rest =>
      some (DailyRow.mk k.1 k.2 h.open_
        (((h :: rest).getLast (List.cons_ne_nil h rest)).close)))
  return applyLimit lim (List.insertionSort dailyLe rows)

/-! ### Rolling statistics engine (`task2_rolling_volatility`) -/

/-- One output row of the rolling-volatility transform.  `volatility_5d`
holds the trailing sample variance of the returns; the source applies
`sqrt` to this value to obtain the standard deviation, which is defined
(non-null) exactly when the variance is, so every null/non-null claim
transfers unchanged. -/
structure VolRow where
  ticker : String
  ts : Ts
  close : ℚ
  returns : Option ℚ
  volatility_5d : Option ℚ
deriving DecidableEq, Repr

/-- The tail of `pct_change`: each value relative to its predecessor. -/
def pctAux (prev : ℚ) : List ℚ → List (Option ℚ)
  | [] => []
  | c :: rest => some (c / prev - 1) :: pctAux c rest

/-- pandas `pct_change` within one group: the first position has no
predecessor and is missing (`None`). -/
def pct_change : List ℚ → List (Option ℚ)
  | [] => []
  | c :: rest => none :: pctAux c rest

/-- The trailing window of width `w` ending at position `i`. -/
def windowAt (xs : List (Option ℚ)) (w i : ℕ) : List (Option ℚ) :=
  (xs.take (i + 1)).drop (i + 1 - w)

/-- The sample variance (denominator `n - 1`) of the non-missing values,
undefined on fewer than two samples — pandas `rolling(w, min_periods=1).std`
is missing exactly when the window holds fewer than two non-missing
returns (one sample passes `min_periods` but has an undefined sample
standard deviation). -/
def sampleVar (vs : List ℚ) : Option ℚ :=
  if vs.length < 2 then none
  else
    some
      (((vs.map (fun v => (v - vs.sum / (vs.length : ℚ)) ^ 2)).sum) / ((vs.length : ℚ) - 1))

/-- The rolling statistic over one group's return column. -/
def rollingStd (xs : List (Option ℚ)) (w : ℕ) : List (Option ℚ) :=
  (List.range xs.length).map (fun i => sampleVar ((windowAt xs w i).filterMap id))

/-- The transform applied to one ticker group, rows already in timestamp
order. -/
def task2_group (bs : List Bar) (w : ℕ) : List VolRow :=
  let rets := pct_change (bs.map (fun b => b.close))
  (bs.zip (rets.zip (rollingStd rets w))).map (fun p =>
    VolRow.mk p.1.ticker p.1.ts p.1.close p.2.1 p.2.2)

/-- `task2_rolling_volatility`: sort the dataset by (ticker, timestamp),
then compute returns and rolling volatility per ticker group
(`groupby('ticker')`), so no value ever depends on another ticker's rows;
the per-group outputs appear in the sorted row order, i.e. concatenated in
ticker order. -/
def task2_rolling_volatility (st : PStore) (w : ℕ) : Except QueryErr (List VolRow) := do
  let bs ← load_parquet st
  let sorted := List.insertionSort barLoadLe bs
  return (uniqueFirst (sorted.map (fun b => b.ticker))).flatMap (fun t =>
    task2_group (sorted.filter (fun b => b.ticker == t)) w)

/-! ### Benchmark harness (`task3_benchmark_comparison`)

Only the comparison arithmetic is embedded; wall-clock timing and on-disk
byte counting are environment effects, so the measured durations and sizes
are the function's inputs.  Python raises `ZeroDivisionError` on float
division by zero, and `time.time()` deltas can be exactly zero. -/

/-- The reported time ratio: `float('inf')` is a distinguished value. -/
inductive TimeRatio where
  | fin (q : ℚ)
  | infinite
deriving DecidableEq, Repr

/-- The faster/slower label; the payload is the ratio the source formats
with two decimals into the label string. -/
inductive SpeedLabel where
  | na
  | faster (ratio : ℚ)
  | slower (ratio : ℚ)
deriving DecidableEq, Repr

/-- The percentage size difference label; the payload is the percentage
the source formats with one decimal. -/
inductive SizeLabel where
  | na
  | pct (q : ℚ)
deriving DecidableEq, Repr

/-- The comparison section of the benchmark results. -/
structure Comparison where
  time_ratio : TimeRatio
  size_ratio : ℚ
  speedup : SpeedLabel
  size_difference : SizeLabel
deriving DecidableEq, Repr

/-- A Python `ZeroDivisionError` escaping the benchmark. -/
inductive BenchErr where
  | zeroDivision
deriving DecidableEq, Repr

/-- The comparison block of `task3_benchmark_comparison`, over the measured
durations (rationals standing for the float seconds) and byte sizes.  When
the parquet duration is zero the ratio is infinity and the label "N/A";
when the parquet size is zero the size ratio is the sentinel `0` and the
percentage label "N/A"; when the sqlite duration is zero while the parquet
duration is positive, the `parquet_time / sqlite_time` slowdown label
divides by zero. -/
def task3_comparison (sqlite_time parquet_time : ℚ) (sqlite_size parquet_size : ℕ) :
    Except BenchErr Comparison :=
  let sizePart : ℚ × SizeLabel :=
    if 0 < parquet_size then
      ((sqlite_size : ℚ) / (parquet_size : ℚ),
        SizeLabel.pct (((sqlite_size : ℚ) - (parquet_size : ℚ)) / (parquet_size : ℚ) * 100))
    else
      (0, SizeLabel.na)
  if 0 < parquet_time then
    if parquet_time < sqlite_time then
      Except.ok
        (Comparison.mk (TimeRatio.fin (sqlite_time / parquet_time)) sizePart.1
          (SpeedLabel.faster (sqlite_time / parquet_time)) sizePart.2)
    else if sqlite_time = 0 then
      Except.error BenchErr.zeroDivision
    else
      Except.ok
        (Comparison.mk (TimeRatio.fin (sqlite_time / parquet_time)) sizePart.1
          (SpeedLabel.slower (parquet_time / sqlite_time)) sizePart.2)
  else
    Except.ok (Comparison.mk TimeRatio.infinite sizePart.1 SpeedLabel.na sizePart.2)

/-! ### Specification-side definitions

The following definitions restate the spec's language ("the earliest bar
in range", "the latest bar of the day", the return formula) independently
of either backend's pipeline; the claim theorems compare the embedded
backends against them. -/

/-- The bars of one ticker. -/
def barsOf (bs : List Bar) (t : String) : List Bar := bs.filter (fun b => b.ticker == t)

/-- The earliest bar of a list: minimal timestamp, ties broken by input
order. -/
def earliestBar (l : List Bar) : Option Bar :=
  l.find? (fun b => l.all (fun c => decide (b.ts ≤ c.ts)))

/-- The latest bar of a list: maximal timestamp, earliest such in input
order. -/
def latestBar (l : List Bar) : Option Bar :=
  l.find? (fun b => l.all (fun c => decide (c.ts ≤ b.ts)))

/-- The rows of one `ticker_id`. -/
def rowsOfTid (l : List PriceRow) (tid : ℕ) : List PriceRow :=
  l.filter (fun p => p.tid == tid)

/-- The rows of one (`ticker_id`, day) group. -/
def rowsOfTidDay (l : List PriceRow) (tid day : ℕ) : List PriceRow :=
  l.filter (fun p => p.tid == tid && p.ts.day == day)

/-- The earliest price row of a list: minimal timestamp, first in input
order. -/
def earliestP (l : List PriceRow) : Option PriceRow :=
  l.find? (fun p => l.all (fun c => decide (p.ts ≤ c.ts)))

/-- The latest price row of a list: maximal timestamp, first in input
order. -/
def latestP (l : List PriceRow) : Option PriceRow :=
  l.find? (fun p => l.all (fun c => decide (c.ts ≤ p.ts)))

/-- The period return: `(lastClose − firstOpen) / firstOpen × 100`. -/
def retValue (firstOpen lastClose : ℚ) : ℚ := (lastClose - firstOpen) / firstOpen * 100

/-- Spec-side description of the relational `topReturns` row set: one row
per `tickers` entry (in table order) that has at least one in-period
price row, carrying that ticker's return — `NULL` when the first open is
zero, the rounded formula value otherwise. -/
def sqliteTopSpecRows (tickers : List TickerRow) (period : List PriceRow) :
    List (String × Option ℚ) :=
  tickers.filterMap (fun t =>
    match earliestP (rowsOfTid period t.tid), latestP (rowsOfTid period t.tid) with
    | some fp, some lp => some (t.symbol, sqliteRet fp.open_ lp.close)
    | _, _ => none)

/-- Spec-side description of the columnar `topReturns` row set: one row
per ticker of the period slice (in order of first appearance) whose first
open is positive, carrying the rounded formula value. -/
def pqTopSpecRows (period : List Bar) : List (String × Option ℚ) :=
  (uniqueFirst (period.map (fun b => b.ticker))).filterMap (fun t =>
    match earliestBar (barsOf period t), latestBar (barsOf period t) with
    | some fb, some lb =>
      if 0 < fb.open_ then some (t, some (round2_py (retValue fb.open_ lb.close))) else none
    | _, _ => none)

/-- Spec-side description of the relational daily-summary row set: one
row per (ticker_id, day) group and per `tickers` entry carrying that id,
with the group's earliest open and latest close. -/
def sqliteDailySpecRows (tickers : List TickerRow) (prices : List PriceRow) :
    List DailyRow :=
  (dbKeys prices).flatMap (fun k =>
    (tickers.filter (fun t => t.tid == k.1)).filterMap (fun t =>
      match earliestP (rowsOfTidDay prices k.1 k.2), latestP (rowsOfTidDay prices k.1 k.2) with
      | some fp, some lp => some (DailyRow.mk t.symbol k.2 fp.open_ lp.close)
      | _, _ => none))

/-- Spec-side description of the columnar daily-summary row set: one row
per (ticker, day) group with the group's earliest open and latest
close. -/
def pqDailySpecRows (bs : List Bar) : List DailyRow :=
  (List.insertionSort keyLe (uniqueFirst (bs.map (fun b => (b.ticker, b.ts.day))))).filterMap
    (fun k =>
      match earliestBar (bs.filter (fun b => b.ticker == k.1 && b.ts.day == k.2)),
          latestBar (bs.filter (fun b => b.ticker == k.1 && b.ts.day == k.2)) with
      | some fb, some lb => some (DailyRow.mk k.1 k.2 fb.open_ lb.close)
      | _, _ => none)

/-! ## Helper lemmas -/

theorem uniqueFirstAux_mem {α : Type} [DecidableEq α] {x : α} :
    ∀ {seen l : List α}, x ∈ uniqueFirstAux seen l ↔ x ∈ l ∧ x ∉ seen := by
  intro seen l
  induction l generalizing seen with
  | nil => simp [uniqueFirstAux]
  | cons a l ih =>
    by_cases h : a ∈ seen
    · rw [uniqueFirstAux, if_pos h, ih]
      constructor
      · rintro ⟨hx, hs⟩
        exact ⟨List.mem_cons_of_mem a hx, hs⟩
      · rintro ⟨hx, hs⟩
        rcases List.mem_cons.mp hx with rfl | hx'
        · exact absurd h hs
        · exact ⟨hx', hs⟩
    · rw [uniqueFirstAux, if_neg h]
      constructor
      · intro hmem
        rcases List.mem_cons.mp hmem with rfl | hmem'
        · exact ⟨List.mem_cons_self x l, h⟩
        · obtain ⟨hx, hs⟩ := ih.mp hmem'
          exact ⟨List.mem_cons_of_mem a hx, fun hc => hs (List.mem_cons_of_mem a hc)⟩
      · rintro ⟨hx, hs⟩
        rcases List.mem_cons.mp hx with rfl | hx'
        · exact List.mem_cons_self x _
        · by_cases hxa : x = a
          · subst hxa
            exact List.mem_cons_self x _
          · refine List.mem_cons_of_mem a (ih.mpr ⟨hx', fun hc => ?_⟩)
            rcases List.mem_cons.mp hc with h' | h'
            · exact hxa h'
            · exact hs h'

theorem uniqueFirst_mem {α : Type} [DecidableEq α] {x : α} {l : List α} :
    x ∈ uniqueFirst l ↔ x ∈ l := by
  simp [uniqueFirst, uniqueFirstAux_mem]

theorem uniqueFirstAux_nodup {α : Type} [DecidableEq α] :
    ∀ (seen l : List α), (uniqueFirstAux seen l).Nodup := by
  intro seen l
  induction l generalizing seen with
  | nil => simp [uniqueFirstAux]
  | cons a l ih =>
    by_cases h : a ∈ seen
    · simpa [uniqueFirstAux, if_pos h] using ih seen
    · simp only [uniqueFirstAux, if_neg h, List.nodup_cons]
      refine ⟨fun hc => ?_, ih (a :: seen)⟩
      exact (uniqueFirstAux_mem.mp hc).2 (List.mem_cons_self a seen)

theorem uniqueFirst_nodup {α : Type} [DecidableEq α] (l : List α) :
    (uniqueFirst l).Nodup := uniqueFirstAux_nodup [] l

theorem minTs?_eq_none_iff {l : List Ts} : minTs? l = none ↔ l = [] := by
  cases l with
  | nil => simp [minTs?]
  | cons t rest =>
    simp only [minTs?]
    cases minTs? rest <;> simp

theorem minTs?_spec : ∀ {l : List Ts} {m : Ts}, minTs? l = some m →
    m ∈ l ∧ ∀ x ∈ l, m ≤ x := by
  intro l
  induction l with
  | nil => intro m h; simp [minTs?] at h
  | cons t rest ih =>
    intro m h
    simp only [minTs?] at h
    cases hr : minTs? rest with
    | none =>
      rw [hr] at h
      obtain rfl : t = m := by simpa using h
      have : rest = [] := minTs?_eq_none_iff.mp hr
      subst this
      simp
    | some m' =>
      rw [hr] at h
      obtain rfl : min t m' = m := by simpa using h
      obtain ⟨hm', hall⟩ := ih hr
      constructor
      · rcases le_total t m' with hle | hle
        · simp [min_eq_left hle]
        · rw [min_eq_right hle]; exact List.mem_cons_of_mem _ hm'
      · intro x hx
        rcases List.mem_cons.mp hx with rfl | hx
        · exact min_le_left _ _
        · exact le_trans (min_le_right _ _) (hall x hx)

theorem maxTs?_eq_none_iff {l : List Ts} : maxTs? l = none ↔ l = [] := by
  cases l with
  | nil => simp [maxTs?]
  | cons t rest =>
    simp only [maxTs?]
    cases maxTs? rest <;> simp

theorem maxTs?_spec : ∀ {l : List Ts} {m : Ts}, maxTs? l = some m →
    m ∈ l ∧ ∀ x ∈ l, x ≤ m := by
  intro l
  induction l with
  | nil => intro m h; simp [maxTs?] at h
  | cons t rest ih =>
    intro m h
    simp only [maxTs?] at h
    cases hr : maxTs? rest with
    | none =>
      rw [hr] at h
      obtain rfl : t = m := by simpa using h
      have : rest = [] := maxTs?_eq_none_iff.mp hr
      subst this
      simp
    | some m' =>
      rw [hr] at h
      obtain rfl : max t m' = m := by simpa using h
      obtain ⟨hm', hall⟩ := ih hr
      constructor
      · rcases le_total t m' with hle | hle
        · rw [max_eq_right hle]; exact List.mem_cons_of_mem _ hm'
        · simp [max_eq_left hle]
      · intro x hx
        rcases List.mem_cons.mp hx with rfl | hx
        · exact le_max_left _ _
        · exact le_trans (hall x hx) (le_max_right _ _)

/-- Two sorted lists that are permutations of each other are equal,
provided the order is antisymmetric on the elements involved. -/
theorem eq_of_perm_of_sorted_antisymmOn {α : Type} {r : α → α → Prop} :
    ∀ {l₁ l₂ : List α}, (∀ a ∈ l₁, ∀ b ∈ l₁, r a b → r b a → a = b) →
      List.Perm l₁ l₂ → List.Sorted r l₁ → List.Sorted r l₂ → l₁ = l₂ := by
  intro l₁
  induction l₁ with
  | nil => intro l₂ _ hp _ _; simpa using hp.symm.eq_nil
  | cons a t₁ ih =>
    intro l₂ hanti hp hs₁ hs₂
    cases l₂ with
    | nil => exact absurd hp.eq_nil (by simp)
    | cons b t₂ =>
      have hab : a = b := by
        by_contra hne
        have hat₂ : a ∈ t₂ := by
          have := hp.mem_iff.mp (List.mem_cons_self a t₁)
          rcases List.mem_cons.mp this with h | h
          · exact absurd h hne
          · exact h
        have hbt₁ : b ∈ t₁ := by
          have := hp.symm.mem_iff.mp (List.mem_cons_self b t₂)
          rcases List.mem_cons.mp this with h | h
          · exact absurd h.symm hne
          · exact h
        have hba : r b a := (List.sorted_cons.mp hs₂).1 a hat₂
        have hab' : r a b := (List.sorted_cons.mp hs₁).1 b hbt₁
        exact hne (hanti a (List.mem_cons_self a t₁) b (List.mem_cons_of_mem a hbt₁) hab' hba)
      subst hab
      have hp' : List.Perm t₁ t₂ := hp.cons_inv
      have : t₁ = t₂ := by
        refine ih (fun x hx y hy => ?_) hp' (List.sorted_cons.mp hs₁).2 (List.sorted_cons.mp hs₂).2
        exact hanti x (List.mem_cons_of_mem a hx) y (List.mem_cons_of_mem a hy)
      rw [this]

theorem insertionSort_head_min {α : Type} (r : α → α → Prop) [DecidableRel r]
    [IsTotal α r] [IsTrans α r] {l : List α} {a : α} {t : List α}
    (h : List.insertionSort r l = a :: t) : a ∈ l ∧ ∀ x ∈ l, r a x := by
  have hperm : List.Perm (List.insertionSort r l) l := List.perm_insertionSort r l
  have hsorted : List.Sorted r (List.insertionSort r l) := List.sorted_insertionSort r l
  rw [h] at hperm hsorted
  refine ⟨hperm.mem_iff.mp (List.mem_cons_self a t), fun x hx => ?_⟩
  rcases List.mem_cons.mp (hperm.symm.mem_iff.mp hx) with rfl | hxt
  · rcases IsTotal.total (r := r) x x with h' | h' <;> exact h'
  · exact (List.sorted_cons.mp hsorted).1 x hxt

theorem sorted_getLast_max {α : Type} {r : α → α → Prop} [IsTotal α r] :
    ∀ {l : List α}, List.Sorted r l → ∀ (hne : l ≠ []) (x : α), x ∈ l → r x (l.getLast hne) := by
  intro l
  induction l with
  | nil => intro _ hne; exact absurd rfl hne
  | cons a t ih =>
    intro hs _ x hx
    cases t with
    | nil =>
      obtain rfl : x = a := by simpa using hx
      simp only [List.getLast_singleton]
      rcases IsTotal.total (r := r) x x with h' | h' <;> exact h'
    | cons b t' =>
      have hgl : (a :: b :: t').getLast (by simp) = (b :: t').getLast (by simp) := by
        simp [List.getLast_cons]
      rw [hgl]
      rcases List.mem_cons.mp hx with rfl | hx'
      · have hlast_mem : (b :: t').getLast (by simp) ∈ b :: t' := List.getLast_mem _
        exact (List.sorted_cons.mp hs).1 _ hlast_mem
      · exact ih (List.sorted_cons.mp hs).2 (by simp) x hx'

theorem insertionSort_getLast_max {α : Type} (r : α → α → Prop) [DecidableRel r]
    [IsTotal α r] [IsTrans α r] {l : List α} (hne : List.insertionSort r l ≠ []) :
    (List.insertionSort r l).getLast hne ∈ l ∧
      ∀ x ∈ l, r x ((List.insertionSort r l).getLast hne) := by
  have hperm : List.Perm (List.insertionSort r l) l := List.perm_insertionSort r l
  have hsorted : List.Sorted r (List.insertionSort r l) := List.sorted_insertionSort r l
  constructor
  · exact hperm.mem_iff.mp (List.getLast_mem hne)
  · intro x hx
    exact sorted_getLast_max hsorted hne x (hperm.symm.mem_iff.mp hx)

theorem earliestP_spec {l : List PriceRow} {fp : PriceRow} (h : earliestP l = some fp) :
    fp ∈ l ∧ ∀ x ∈ l, fp.ts ≤ x.ts := by
  refine ⟨List.mem_of_find?_eq_some h, fun x hx => ?_⟩
  have hp := List.find?_some h
  have := List.all_eq_true.mp hp x hx
  simpa using this

theorem latestP_spec {l : List PriceRow} {lp : PriceRow} (h : latestP l = some lp) :
    lp ∈ l ∧ ∀ x ∈ l, x.ts ≤ lp.ts := by
  refine ⟨List.mem_of_find?_eq_some h, fun x hx => ?_⟩
  have hp := List.find?_some h
  have := List.all_eq_true.mp hp x hx
  simpa using this

theorem earliestBar_spec {l : List Bar} {fb : Bar} (h : earliestBar l = some fb) :
    fb ∈ l ∧ ∀ x ∈ l, fb.ts ≤ x.ts := by
  refine ⟨List.mem_of_find?_eq_some h, fun x hx => ?_⟩
  have hp := List.find?_some h
  have := List.all_eq_true.mp hp x hx
  simpa using this

theorem latestBar_spec {l : List Bar} {lb : Bar} (h : latestBar l = some lb) :
    lb ∈ l ∧ ∀ x ∈ l, x.ts ≤ lb.ts := by
  refine ⟨List.mem_of_find?_eq_some h, fun x hx => ?_⟩
  have hp := List.find?_some h
  have := List.all_eq_true.mp hp x hx
  simpa using this

theorem earliestP_eq_none_iff {l : List PriceRow} : earliestP l = none ↔ l = [] := by
  constructor
  · intro h
    by_contra hne
    obtain ⟨m, hm⟩ : ∃ m, minTs? (l.map (fun p => p.ts)) = some m := by
      cases hmin : minTs? (l.map (fun p => p.ts)) with
      | none => exact absurd (by simpa using minTs?_eq_none_iff.mp hmin) hne
      | some m => exact ⟨m, rfl⟩
    obtain ⟨hmem, hlb⟩ := minTs?_spec hm
    obtain ⟨q, hq, hqts⟩ := List.mem_map.mp hmem
    have : ∀ x ∈ l, q.ts ≤ x.ts := fun x hx =>
      hqts ▸ hlb x.ts (List.mem_map.mpr ⟨x, hx, rfl⟩)
    have hfind := List.find?_eq_none.mp h q hq
    exact hfind (by simpa using this)
  · rintro rfl; rfl

theorem latestP_eq_none_iff {l : List PriceRow} : latestP l = none ↔ l = [] := by
  constructor
  · intro h
    by_contra hne
    obtain ⟨m, hm⟩ : ∃ m, maxTs? (l.map (fun p => p.ts)) = some m := by
      cases hmax : maxTs? (l.map (fun p => p.ts)) with
      | none => exact absurd (by simpa using maxTs?_eq_none_iff.mp hmax) hne
      | some m => exact ⟨m, rfl⟩
    obtain ⟨hmem, hub⟩ := maxTs?_spec hm
    obtain ⟨q, hq, hqts⟩ := List.mem_map.mp hmem
    have : ∀ x ∈ l, x.ts ≤ q.ts := fun x hx =>
      hqts ▸ hub x.ts (List.mem_map.mpr ⟨x, hx, rfl⟩)
    have hfind := List.find?_eq_none.mp h q hq
    exact hfind (by simpa using this)
  · rintro rfl; rfl

theorem earliestBar_eq_none_iff {l : List Bar} : earliestBar l = none ↔ l = [] := by
  constructor
  · intro h
    by_contra hne
    obtain ⟨m, hm⟩ : ∃ m, minTs? (l.map (fun b => b.ts)) = some m := by
      cases hmin : minTs? (l.map (fun b => b.ts)) with
      | none => exact absurd (by simpa using minTs?_eq_none_iff.mp hmin) hne
      | some m => exact ⟨m, rfl⟩
    obtain ⟨hmem, hlb⟩ := minTs?_spec hm
    obtain ⟨q, hq, hqts⟩ := List.mem_map.mp hmem
    have : ∀ x ∈ l, q.ts ≤ x.ts := fun x hx =>
      hqts ▸ hlb x.ts (List.mem_map.mpr ⟨x, hx, rfl⟩)
    have hfind := List.find?_eq_none.mp h q hq
    exact hfind (by simpa using this)
  · rintro rfl; rfl

theorem latestBar_eq_none_iff {l : List Bar} : latestBar l = none ↔ l = [] := by
  constructor
  · intro h
    by_contra hne
    obtain ⟨m, hm⟩ : ∃ m, maxTs? (l.map (fun b => b.ts)) = some m := by
      cases hmax : maxTs? (l.map (fun b => b.ts)) with
      | none => exact absurd (by simpa using maxTs?_eq_none_iff.mp hmax) hne
      | some m => exact ⟨m, rfl⟩
    obtain ⟨hmem, hub⟩ := maxTs?_spec hm
    obtain ⟨q, hq, hqts⟩ := List.mem_map.mp hmem
    have : ∀ x ∈ l, x.ts ≤ q.ts := fun x hx =>
      hqts ▸ hub x.ts (List.mem_map.mpr ⟨x, hx, rfl⟩)
    have hfind := List.find?_eq_none.mp h q hq
    exact hfind (by simpa using this)
  · rintro rfl; rfl

theorem flatMap_eq_filterMap {α β : Type} (f : α → List β) (g : α → Option β) :
    ∀ (l : List α), (∀ a ∈ l, f a = (g a).toList) → l.flatMap f = l.filterMap g := by
  intro l
  induction l with
  | nil => intro _; rfl
  | cons a t ih =>
    intro h
    rw [List.flatMap_cons, List.filterMap_cons, h a (List.mem_cons_self a t),
      ih (fun x hx => h x (List.mem_cons_of_mem a hx))]
    cases g a <;> rfl

theorem filterMap_eq_singleton_of_unique {α β : Type} [DecidableEq α]
    {l : List α} {g : α → Option β} {a : α} {v : β}
    (hcount : l.count a = 1)
    (hg : ∀ x ∈ l, g x = if x = a then some v else none) :
    l.filterMap g = [v] := by
  induction l with
  | nil => simp at hcount
  | cons x t ih =>
    by_cases hxa : x = a
    · subst hxa
      have hta : t.count x = 0 := by
        have := hcount
        rw [List.count_cons_self] at this
        omega
      rw [List.filterMap_cons, hg x (List.mem_cons_self x t), if_pos rfl]
      have : t.filterMap g = [] := by
        rw [List.filterMap_eq_nil_iff]
        intro b hb
        rw [hg b (List.mem_cons_of_mem x hb)]
        have hba : b ≠ x := by
          intro hbx
          subst hbx
          rw [List.count_eq_zero] at hta
          exact hta hb
        simp [hba]
      rw [this]
    · rw [List.filterMap_cons, hg x (List.mem_cons_self x t), if_neg hxa]
      refine ih ?_ (fun y hy => hg y (List.mem_cons_of_mem x hy))
      rwa [List.count_cons_of_ne (by simpa using Ne.symm hxa)] at hcount

theorem map_ts_nodup_of_const_ticker {l : List Bar} {t : String}
    (hN : (l.map (fun b => (b.ticker, b.ts))).Nodup)
    (ht : ∀ b ∈ l, b.ticker = t) : (l.map (fun b => b.ts)).Nodup := by
  have heq : l.map (fun b => (b.ticker, b.ts)) =
      (l.map (fun b => b.ts)).map (fun x => (t, x)) := by
    rw [List.map_map]
    exact List.map_congr_left (fun b hb => by simp [ht b hb])
  rw [heq] at hN
  exact List.Nodup.of_map _ hN

theorem map_ts_nodup_of_const_tid {l : List PriceRow} {tid : ℕ}
    (hN : (l.map (fun p => (p.tid, p.ts))).Nodup)
    (ht : ∀ p ∈ l, p.tid = tid) : (l.map (fun p => p.ts)).Nodup := by
  have heq : l.map (fun p => (p.tid, p.ts)) =
      (l.map (fun p => p.ts)).map (fun x => (tid, x)) := by
    rw [List.map_map]
    exact List.map_congr_left (fun p hp => by simp [ht p hp])
  rw [heq] at hN
  exact List.Nodup.of_map _ hN

theorem earliestBar_eq_sort_head? {l : List Bar}
    (hts : (l.map (fun b => b.ts)).Nodup) :
    earliestBar l = (List.insertionSort barTsLe l).head? := by
  cases hs : List.insertionSort barTsLe l with
  | nil =>
    have hperm := List.perm_insertionSort barTsLe l
    rw [hs] at hperm
    rw [hperm.symm.eq_nil]
    rfl
  | cons h rest =>
    obtain ⟨hmem, hmin⟩ := insertionSort_head_min barTsLe hs
    cases he : earliestBar l with
    | none =>
      have : l = [] := earliestBar_eq_none_iff.mp he
      subst this
      simp at hmem
    | some fb =>
      obtain ⟨hfb, hfmin⟩ := earliestBar_spec he
      have hts_eq : fb.ts = h.ts := le_antisymm (hfmin h hmem) (hmin fb hfb)
      have : fb = h := List.inj_on_of_nodup_map hts hfb hmem hts_eq
      simp [this]

theorem latestBar_eq_sort_getLast? {l : List Bar}
    (hts : (l.map (fun b => b.ts)).Nodup) :
    latestBar l = (List.insertionSort barTsLe l).getLast? := by
  cases hs : List.insertionSort barTsLe l with
  | nil =>
    have hperm := List.perm_insertionSort barTsLe l
    rw [hs] at hperm
    rw [hperm.symm.eq_nil]
    rfl
  | cons h rest =>
    have hne : List.insertionSort barTsLe l ≠ [] := by rw [hs]; simp
    obtain ⟨hmem, hmax⟩ := insertionSort_getLast_max barTsLe hne
    cases he : latestBar l with
    | none =>
      have : l = [] := latestBar_eq_none_iff.mp he
      subst this
      simp at hs
    | some lb =>
      obtain ⟨hlb, hfmax⟩ := latestBar_spec he
      have hts_eq : lb.ts = ((List.insertionSort barTsLe l).getLast hne).ts :=
        le_antisymm (hmax lb hlb) (hfmax _ hmem)
      have heq : lb = (List.insertionSort barTsLe l).getLast hne :=
        List.inj_on_of_nodup_map hts hlb hmem hts_eq
      rw [heq, ← hs, List.getLast?_eq_getLast _ hne]

theorem start_prices_filter_eq (prices : List PriceRow) (s e : Ts) (tid : ℕ)
    (hN : ((periodPrices prices s e).map (fun p => (p.tid, p.ts))).Nodup) :
    (start_prices prices s e).filter (fun q => q.1 == tid) =
      match earliestP (rowsOfTid (periodPrices prices s e) tid) with
      | some fp => [(tid, fp.open_)]
      | none => [] := by
  rw [start_prices, List.filter_filterMap]
  cases he : earliestP (rowsOfTid (periodPrices prices s e) tid) with
  | none =>
    have hgrp : rowsOfTid (periodPrices prices s e) tid = [] := earliestP_eq_none_iff.mp he
    rw [List.filterMap_eq_nil_iff]
    intro p hp
    by_cases hcond : some p.ts = firstDate prices s e p.tid
    · by_cases htid : p.tid = tid
      · exfalso
        rw [htid] at hcond
        have hfd : firstDate prices s e tid = none := by
          show minTs? ((rowsOfTid (periodPrices prices s e) tid).map (fun p => p.ts)) = none
          rw [hgrp]
          rfl
        rw [hfd] at hcond
        exact Option.noConfusion hcond
      · rw [if_pos hcond, Option.filter_some, if_neg (by simpa using htid)]
    · rw [if_neg hcond, Option.filter_none]
  | some fp =>
    obtain ⟨hfp_grp, hfp_min⟩ := earliestP_spec he
    have hfp_mem_period : fp ∈ periodPrices prices s e := (List.mem_filter.mp hfp_grp).1
    have hfp_tid : fp.tid = tid := by
      have := (List.mem_filter.mp hfp_grp).2
      simpa using this
    have hfd : firstDate prices s e tid = some fp.ts := by
      show minTs? ((rowsOfTid (periodPrices prices s e) tid).map (fun p => p.ts)) = some fp.ts
      cases hmin : minTs? ((rowsOfTid (periodPrices prices s e) tid).map (fun p => p.ts)) with
      | none =>
        have hnil := minTs?_eq_none_iff.mp hmin
        rw [List.map_eq_nil_iff] at hnil
        rw [hnil] at hfp_grp
        exact absurd hfp_grp (List.not_mem_nil fp)
      | some m =>
        obtain ⟨hm_mem, hm_lb⟩ := minTs?_spec hmin
        obtain ⟨q, hq, hqts⟩ := List.mem_map.mp hm_mem
        have h1 : fp.ts ≤ m := hqts ▸ hfp_min q hq
        have h2 : m ≤ fp.ts := hm_lb fp.ts (List.mem_map.mpr ⟨fp, hfp_grp, rfl⟩)
        rw [le_antisymm h1 h2]
    have hin : inRangeP s e fp = true := (List.mem_filter.mp hfp_mem_period).2
    have hperiod_nodup : (periodPrices prices s e).Nodup := List.Nodup.of_map _ hN
    have hcount : prices.count fp = 1 := by
      have h1 : (periodPrices prices s e).count fp = 1 :=
        List.count_eq_one_of_mem hperiod_nodup hfp_mem_period
      have h2 : (prices.filter (inRangeP s e)).count fp = prices.count fp :=
        List.count_filter hin
      rw [show periodPrices prices s e = prices.filter (inRangeP s e) from rfl] at h1
      omega
    refine filterMap_eq_singleton_of_unique hcount (fun p hp => ?_)
    by_cases hpeq : p = fp
    · subst hpeq
      rw [if_pos rfl]
      have hcondp : some p.ts = firstDate prices s e p.tid := by rw [hfp_tid, hfd]
      rw [if_pos hcondp, Option.filter_some, if_pos (by simpa using hfp_tid), hfp_tid]
    · rw [if_neg hpeq]
      by_cases hcond : some p.ts = firstDate prices s e p.tid
      · by_cases htid : p.tid = tid
        · exfalso
          rw [htid, hfd] at hcond
          have hp_ts : p.ts = fp.ts := by
            injection hcond
          have hp_in : inRangeP s e p = true := by
            simp only [inRangeP] at hin ⊢
            rw [hp_ts]
            exact hin
          have hp_period : p ∈ periodPrices prices s e := List.mem_filter.mpr ⟨hp, hp_in⟩
          exact hpeq (List.inj_on_of_nodup_map hN hp_period hfp_mem_period
            (by rw [htid, hfp_tid, hp_ts]))
        · rw [if_pos hcond, Option.filter_some, if_neg (by simpa using htid)]
      · rw [if_neg hcond, Option.filter_none]

theorem end_prices_filter_eq (prices : List PriceRow) (s e : Ts) (tid : ℕ)
    (hN : ((periodPrices prices s e).map (fun p => (p.tid, p.ts))).Nodup) :
    (end_prices prices s e).filter (fun q => q.1 == tid) =
      match latestP (rowsOfTid (periodPrices prices s e) tid) with
      | some lp => [(tid, lp.close)]
      | none => [] := by
  rw [end_prices, List.filter_filterMap]
  cases he : latestP (rowsOfTid (periodPrices prices s e) tid) with
  | none =>
    have hgrp : rowsOfTid (periodPrices prices s e) tid = [] := latestP_eq_none_iff.mp he
    rw [List.filterMap_eq_nil_iff]
    intro p hp
    by_cases hcond : some p.ts = lastDate prices s e p.tid
    · by_cases htid : p.tid = tid
      · exfalso
        rw [htid] at hcond
        have hfd : lastDate prices s e tid = none := by
          show maxTs? ((rowsOfTid (periodPrices prices s e) tid).map (fun p => p.ts)) = none
          rw [hgrp]
          rfl
        rw [hfd] at hcond
        exact Option.noConfusion hcond
      · rw [if_pos hcond, Option.filter_some, if_neg (by simpa using htid)]
    · rw [if_neg hcond, Option.filter_none]
  | some lp =>
    obtain ⟨hlp_grp, hlp_max⟩ := latestP_spec he
    have hlp_mem_period : lp ∈ periodPrices prices s e := (List.mem_filter.mp hlp_grp).1
    have hlp_tid : lp.tid = tid := by
      have := (List.mem_filter.mp hlp_grp).2
      simpa using this
    have hfd : lastDate prices s e tid = some lp.ts := by
      show maxTs? ((rowsOfTid (periodPrices prices s e) tid).map (fun p => p.ts)) = some lp.ts
      cases hmax : maxTs? ((rowsOfTid (periodPrices prices s e) tid).map (fun p => p.ts)) with
      | none =>
        have hnil := maxTs?_eq_none_iff.mp hmax
        rw [List.map_eq_nil_iff] at hnil
        rw [hnil] at hlp_grp
        exact absurd hlp_grp (List.not_mem_nil lp)
      | some m =>
        obtain ⟨hm_mem, hm_ub⟩ := maxTs?_spec hmax
        obtain ⟨q, hq, hqts⟩ := List.mem_map.mp hm_mem
        have h1 : m ≤ lp.ts := hqts ▸ hlp_max q hq
        have h2 : lp.ts ≤ m := hm_ub lp.ts (List.mem_map.mpr ⟨lp, hlp_grp, rfl⟩)
        rw [le_antisymm h2 h1]
    have hin : inRangeP s e lp = true := (List.mem_filter.mp hlp_mem_period).2
    have hperiod_nodup : (periodPrices prices s e).Nodup := List.Nodup.of_map _ hN
    have hcount : prices.count lp = 1 := by
      have h1 : (periodPrices prices s e).count lp = 1 :=
        List.count_eq_one_of_mem hperiod_nodup hlp_mem_period
      have h2 : (prices.filter (inRangeP s e)).count lp = prices.count lp :=
        List.count_filter hin
      rw [show periodPrices prices s e = prices.filter (inRangeP s e) from rfl] at h1
      omega
    refine filterMap_eq_singleton_of_unique hcount (fun p hp => ?_)
    by_cases hpeq : p = lp
    · subst hpeq
      rw [if_pos rfl]
      have hcondp : some p.ts = lastDate prices s e p.tid := by rw [hlp_tid, hfd]
      rw [if_pos hcondp, Option.filter_some, if_pos (by simpa using hlp_tid), hlp_tid]
    · rw [if_neg hpeq]
      by_cases hcond : some p.ts = lastDate prices s e p.tid
      · by_cases htid : p.tid = tid
        · exfalso
          rw [htid, hfd] at hcond
          have hp_ts : p.ts = lp.ts := by
            injection hcond
          have hp_in : inRangeP s e p = true := by
            simp only [inRangeP] at hin ⊢
            rw [hp_ts]
            exact hin
          have hp_period : p ∈ periodPrices prices s e := List.mem_filter.mpr ⟨hp, hp_in⟩
          exact hpeq (List.inj_on_of_nodup_map hN hp_period hlp_mem_period
            (by rw [htid, hlp_tid, hp_ts]))
        · rw [if_pos hcond, Option.filter_some, if_neg (by simpa using htid)]
      · rw [if_neg hcond, Option.filter_none]

theorem dayStart_filter_eq (prices : List PriceRow) (tid day : ℕ)
    (hN : (prices.map (fun p => (p.tid, p.ts))).Nodup) :
    prices.filter (fun p => p.tid == tid && some p.ts == dayStart prices tid day) =
      match earliestP (rowsOfTidDay prices tid day) with
      | some fp => [fp]
      | none => [] := by
  cases he : earliestP (rowsOfTidDay prices tid day) with
  | none =>
    have hgrp : rowsOfTidDay prices tid day = [] := earliestP_eq_none_iff.mp he
    have hds : dayStart prices tid day = none := by
      show minTs? ((rowsOfTidDay prices tid day).map (fun p => p.ts)) = none
      rw [hgrp]
      rfl
    rw [hds]
    rw [List.filter_eq_nil_iff]
    intro p _
    simp
  | some fp =>
    obtain ⟨hfp_grp, hfp_min⟩ := earliestP_spec he
    have hfp_mem : fp ∈ prices := (List.mem_filter.mp hfp_grp).1
    have hfp_key := (List.mem_filter.mp hfp_grp).2
    have hfp_tid : fp.tid = tid := by
      have := hfp_key
      simp only [Bool.and_eq_true, beq_iff_eq] at this
      exact this.1
    have hfp_day : fp.ts.day = day := by
      have := hfp_key
      simp only [Bool.and_eq_true, beq_iff_eq] at this
      exact this.2
    have hds : dayStart prices tid day = some fp.ts := by
      show minTs? ((rowsOfTidDay prices tid day).map (fun p => p.ts)) = some fp.ts
      cases hmin : minTs? ((rowsOfTidDay prices tid day).map (fun p => p.ts)) with
      | none =>
        have hnil := minTs?_eq_none_iff.mp hmin
        rw [List.map_eq_nil_iff] at hnil
        rw [hnil] at hfp_grp
        exact absurd hfp_grp (List.not_mem_nil fp)
      | some m =>
        obtain ⟨hm_mem, hm_lb⟩ := minTs?_spec hmin
        obtain ⟨q, hq, hqts⟩ := List.mem_map.mp hm_mem
        have h1 : fp.ts ≤ m := hqts ▸ hfp_min q hq
        have h2 : m ≤ fp.ts := hm_lb fp.ts (List.mem_map.mpr ⟨fp, hfp_grp, rfl⟩)
        rw [le_antisymm h1 h2]
    rw [hds]
    have hcong : prices.filter (fun p => p.tid == tid && some p.ts == some fp.ts) =
        prices.filter (fun p => p == fp) := by
      refine List.filter_congr (fun p hp => ?_)
      by_cases hpeq : p = fp
      · subst hpeq
        simp [hfp_tid]
      · have : ¬(p.tid = tid ∧ p.ts = fp.ts) := by
          rintro ⟨h1, h2⟩
          have hp_grp : p ∈ rowsOfTidDay prices tid day := by
            refine List.mem_filter.mpr ⟨hp, ?_⟩
            simp only [Bool.and_eq_true, beq_iff_eq]
            exact ⟨h1, by rw [h2, hfp_day]⟩
          exact hpeq (List.inj_on_of_nodup_map hN hp hfp_mem (by rw [h1, hfp_tid, h2]))
        rw [Bool.eq_iff_iff]
        simp only [Bool.and_eq_true, beq_iff_eq, Option.some.injEq]
        constructor
        · intro hc
          exact absurd hc this
        · intro hc
          exact absurd hc hpeq
    rw [hcong, List.filter_beq,
      List.count_eq_one_of_mem (List.Nodup.of_map _ hN) hfp_mem]
    rfl

theorem dayEnd_filter_eq (prices : List PriceRow) (tid day : ℕ)
    (hN : (prices.map (fun p => (p.tid, p.ts))).Nodup) :
    prices.filter (fun p => p.tid == tid && some p.ts == dayEnd prices tid day) =
      match latestP (rowsOfTidDay prices tid day) with
      | some lp => [lp]
      | none => [] := by
  cases he : latestP (rowsOfTidDay prices tid day) with
  | none =>
    have hgrp : rowsOfTidDay prices tid day = [] := latestP_eq_none_iff.mp he
    have hds : dayEnd prices tid day = none := by
      show maxTs? ((rowsOfTidDay prices tid day).map (fun p => p.ts)) = none
      rw [hgrp]
      rfl
    rw [hds]
    rw [List.filter_eq_nil_iff]
    intro p _
    simp
  | some lp =>
    obtain ⟨hlp_grp, hlp_max⟩ := latestP_spec he
    have hlp_mem : lp ∈ prices := (List.mem_filter.mp hlp_grp).1
    have hlp_key := (List.mem_filter.mp hlp_grp).2
    have hlp_tid : lp.tid = tid := by
      have := hlp_key
      simp only [Bool.and_eq_true, beq_iff_eq] at this
      exact this.1
    have hlp_day : lp.ts.day = day := by
      have := hlp_key
      simp only [Bool.and_eq_true, beq_iff_eq] at this
      exact this.2
    have hds : dayEnd prices tid day = some lp.ts := by
      show maxTs? ((rowsOfTidDay prices tid day).map (fun p => p.ts)) = some lp.ts
      cases hmax : maxTs? ((rowsOfTidDay prices tid day).map (fun p => p.ts)) with
      | none =>
        have hnil := maxTs?_eq_none_iff.mp hmax
        rw [List.map_eq_nil_iff] at hnil
        rw [hnil] at hlp_grp
        exact absurd hlp_grp (List.not_mem_nil lp)
      | some m =>
        obtain ⟨hm_mem, hm_ub⟩ := maxTs?_spec hmax
        obtain ⟨q, hq, hqts⟩ := List.mem_map.mp hm_mem
        have h1 : m ≤ lp.ts := hqts ▸ hlp_max q hq
        have h2 : lp.ts ≤ m := hm_ub lp.ts (List.mem_map.mpr ⟨lp, hlp_grp, rfl⟩)
        rw [le_antisymm h2 h1]
    rw [hds]
    have hcong : prices.filter (fun p => p.tid == tid && some p.ts == some lp.ts) =
        prices.filter (fun p => p == lp) := by
      refine List.filter_congr (fun p hp => ?_)
      by_cases hpeq : p = lp
      · subst hpeq
        simp [hlp_tid]
      · have : ¬(p.tid = tid ∧ p.ts = lp.ts) := by
          rintro ⟨h1, h2⟩
          exact hpeq (List.inj_on_of_nodup_map hN hp hlp_mem (by rw [h1, hlp_tid, h2]))
        rw [Bool.eq_iff_iff]
        simp only [Bool.and_eq_true, beq_iff_eq, Option.some.injEq]
        constructor
        · intro hc
          exact absurd hc this
        · intro hc
          exact absurd hc hpeq
    rw [hcong, List.filter_beq,
      List.count_eq_one_of_mem (List.Nodup.of_map _ hN) hlp_mem]
    rfl

/-- The columnar `topReturns` pipeline computes exactly the spec-side row
set, sorted descending and truncated, whenever no two bars of one ticker
share a timestamp in the period slice. -/
theorem get_top_parquet_spec (bs : List Bar) (s e : Ts) (n : ℕ)
    (hN : ((bs.filter (barRange s e)).map (fun b => (b.ticker, b.ts))).Nodup) :
    get_top_tickers_by_return_parquet (some bs) s e n =
      Except.ok
        ((List.insertionSort retDescLe (pqTopSpecRows (bs.filter (barRange s e)))).take n) := by
  show Except.ok _ = _
  congr 1
  unfold pqTopSpecRows
  congr 1
  congr 1
  apply List.filterMap_congr
  intro t _
  have hgN : ((barsOf (bs.filter (barRange s e)) t).map (fun b => (b.ticker, b.ts))).Nodup :=
    List.Nodup.sublist (List.Sublist.map _ (List.filter_sublist _)) hN
  have hts : ((barsOf (bs.filter (barRange s e)) t).map (fun b => b.ts)).Nodup := by
    refine @map_ts_nodup_of_const_ticker _ t hgN (fun b hb => ?_)
    have := (List.mem_filter.mp hb).2
    simpa using this
  have hearly := earliestBar_eq_sort_head? hts
  have hlate := latestBar_eq_sort_getLast? hts
  cases hs : List.insertionSort barTsLe (barsOf (bs.filter (barRange s e)) t) with
  | nil =>
    rw [hs] at hearly
    rw [show (bs.filter (barRange s e)).filter (fun b => b.ticker == t) =
      barsOf (bs.filter (barRange s e)) t from rfl, hs, hearly]
    cases latestBar (barsOf (bs.filter (barRange s e)) t) <;> rfl
  | cons h rest =>
    rw [hs] at hearly hlate
    rw [show (bs.filter (barRange s e)).filter (fun b => b.ticker == t) =
      barsOf (bs.filter (barRange s e)) t from rfl, hs, hearly,
      hlate, List.getLast?_eq_getLast _ (List.cons_ne_nil h rest)]
    rfl

/-- The columnar `dailySummary` pipeline computes exactly the spec-side
row set (first open, last close per (ticker, day) group), sorted by day
descending then symbol ascending, then limited — whenever no two bars of
one ticker share a timestamp. -/
theorem get_daily_parquet_spec (bs : List Bar) (lim : Option ℕ)
    (hN : (bs.map (fun b => (b.ticker, b.ts))).Nodup) :
    get_daily_trade_summary_parquet (some bs) lim =
      Except.ok (applyLimit lim (List.insertionSort dailyLe (pqDailySpecRows bs))) := by
  show Except.ok _ = _
  congr 1
  congr 1
  congr 1
  unfold pqDailySpecRows
  apply List.filterMap_congr
  intro k _
  have hgN : ((bs.filter (fun b => b.ticker == k.1 && b.ts.day == k.2)).map
      (fun b => (b.ticker, b.ts))).Nodup :=
    List.Nodup.sublist (List.Sublist.map _ (List.filter_sublist _)) hN
  have hts : ((bs.filter (fun b => b.ticker == k.1 && b.ts.day == k.2)).map
      (fun b => b.ts)).Nodup := by
    refine @map_ts_nodup_of_const_ticker _ k.1 hgN (fun b hb => ?_)
    have := (List.mem_filter.mp hb).2
    simp only [Bool.and_eq_true, beq_iff_eq] at this
    exact this.1
  have hearly := earliestBar_eq_sort_head? hts
  have hlate := latestBar_eq_sort_getLast? hts
  cases hs : List.insertionSort barTsLe
      (bs.filter (fun b => b.ticker == k.1 && b.ts.day == k.2)) with
  | nil =>
    rw [hs] at hearly
    rw [hearly]
    cases latestBar (bs.filter (fun b => b.ticker == k.1 && b.ts.day == k.2)) <;> rfl
  | cons h rest =>
    rw [hs] at hearly hlate
    rw [hearly, hlate, List.getLast?_eq_getLast _ (List.cons_ne_nil h rest)]
    rfl

/-- The relational `topReturns` query computes exactly the spec-side row
set (one row per `tickers` entry with in-period rows, `NULL` return on a
zero first open), sorted descending with `NULL` last and truncated by
`LIMIT` — whenever no two in-period rows of one ticker share a
timestamp. -/
theorem get_top_sqlite_spec (tickers : List TickerRow) (prices : List PriceRow)
    (s e : Ts) (n : ℕ)
    (hN : ((periodPrices prices s e).map (fun p => (p.tid, p.ts))).Nodup) :
    get_top_tickers_by_return tickers prices s e n =
      (List.insertionSort retDescLe
        (sqliteTopSpecRows tickers (periodPrices prices s e))).take n := by
  show (List.insertionSort retDescLe
    (tickers.flatMap (fun t =>
      ((start_prices prices s e).filter (fun q => q.1 == t.tid)).flatMap (fun sp =>
        ((end_prices prices s e).filter (fun q => q.1 == t.tid)).map (fun ep =>
          (t.symbol, sqliteRet sp.2 ep.2)))))).take n = _
  congr 2
  unfold sqliteTopSpecRows
  apply flatMap_eq_filterMap
  intro t _
  rw [start_prices_filter_eq prices s e t.tid hN, end_prices_filter_eq prices s e t.tid hN]
  cases he : earliestP (rowsOfTid (periodPrices prices s e) t.tid) with
  | none =>
    have : latestP (rowsOfTid (periodPrices prices s e) t.tid) = none := by
      rw [latestP_eq_none_iff]
      exact earliestP_eq_none_iff.mp he
    rw [this]
    rfl
  | some fp =>
    cases hl : latestP (rowsOfTid (periodPrices prices s e) t.tid) with
    | none =>
      exfalso
      have := latestP_eq_none_iff.mp hl
      rw [this] at he
      exact Option.noConfusion ((earliestP_eq_none_iff.mpr rfl).symm.trans he)
    | some lp =>
      rfl

/-- The relational `dailySummary` query computes exactly the spec-side
row set, sorted by day descending then symbol ascending and limited —
whenever no two rows of one ticker share a timestamp. -/
theorem get_daily_sqlite_spec (tickers : List TickerRow) (prices : List PriceRow)
    (lim : Option ℕ)
    (hN : (prices.map (fun p => (p.tid, p.ts))).Nodup) :
    get_daily_trade_summary tickers prices lim =
      applyLimit lim
        (List.insertionSort dailyLe (sqliteDailySpecRows tickers prices)) := by
  show applyLimit lim (List.insertionSort dailyLe
    ((dbKeys prices).flatMap (fun k =>
      (tickers.filter (fun t => t.tid == k.1)).flatMap (fun t =>
        (prices.filter (fun p => p.tid == k.1 && some p.ts == dayStart prices k.1 k.2)).flatMap
          (fun ps =>
            (prices.filter (fun p => p.tid == k.1 && some p.ts == dayEnd prices k.1 k.2)).map
              (fun pe => DailyRow.mk t.symbol k.2 ps.open_ pe.close)))))) = _
  congr 2
  unfold sqliteDailySpecRows
  apply List.flatMap_congr
  intro k _
  apply flatMap_eq_filterMap
  intro t _
  rw [dayStart_filter_eq prices k.1 k.2 hN, dayEnd_filter_eq prices k.1 k.2 hN]
  cases he : earliestP (rowsOfTidDay prices k.1 k.2) with
  | none =>
    have : latestP (rowsOfTidDay prices k.1 k.2) = none := by
      rw [latestP_eq_none_iff]
      exact earliestP_eq_none_iff.mp he
    rw [this]
    rfl
  | some fp =>
    cases hl : latestP (rowsOfTidDay prices k.1 k.2) with
    | none =>
      exfalso
      have := latestP_eq_none_iff.mp hl
      rw [this] at he
      exact Option.noConfusion ((earliestP_eq_none_iff.mpr rfl).symm.trans he)
    | some lp =>
      rfl

/-- Under distinct ticker ids, filtering the `tickers` table by one of its
rows' ids yields exactly that row. -/
theorem filter_tid_singleton {tickers : List TickerRow}
    (hTid : (tickers.map (fun t => t.tid)).Nodup)
    {t : TickerRow} (ht : t ∈ tickers) :
    tickers.filter (fun x => x.tid == t.tid) = [t] := by
  have hcong : tickers.filter (fun x => x.tid == t.tid) = tickers.filter (fun x => x == t) := by
    refine List.filter_congr (fun x hx => ?_)
    rw [Bool.eq_iff_iff]
    simp only [beq_iff_eq]
    constructor
    · intro hc
      exact List.inj_on_of_nodup_map hTid hx ht hc
    · intro hc
      rw [hc]
  rw [hcong, List.filter_beq,
    List.count_eq_one_of_mem (List.Nodup.of_map _ hTid) ht]
  rfl

/-- The symbol map resolves a symbol present in the table to the id of a
row carrying that symbol. -/
theorem symbolMap_spec {tickers : List TickerRow} {sym : String}
    (h : ∃ t ∈ tickers, t.symbol = sym) :
    ∃ t' ∈ tickers, t'.symbol = sym ∧ symbolMap tickers sym = some t'.tid := by
  obtain ⟨t, ht, hts⟩ := h
  unfold symbolMap
  cases hf : tickers.reverse.find? (fun x => x.symbol == sym) with
  | none =>
    exfalso
    have := List.find?_eq_none.mp hf t (List.mem_reverse.mpr ht)
    simp [hts] at this
  | some t' =>
    refine ⟨t', List.mem_reverse.mp (List.mem_of_find?_eq_some hf), ?_, rfl⟩
    have := List.find?_some hf
    simpa using this

/-- When every bar's ticker is present in the `tickers` table (with
distinct ids), the prices⋈tickers join recovers exactly the loaded bar
sequence, with each row tagged by its original symbol. -/
theorem sqJoin_import (tickers : List TickerRow) (bars : List Bar)
    (hTid : (tickers.map (fun t => t.tid)).Nodup)
    (hOrph : ∀ b ∈ bars, ∃ t ∈ tickers, t.symbol = b.ticker) :
    sqJoin tickers (import_prices_clean tickers bars).1 = bars.map barToRangeRow := by
  induction bars with
  | nil => rfl
  | cons b bs ih =>
    obtain ⟨t', ht'_mem, ht'_sym, ht'_map⟩ := symbolMap_spec (hOrph b (List.mem_cons_self b bs))
    have hrows : (import_prices_clean tickers (b :: bs)).1 =
        barToPrice t'.tid b :: (import_prices_clean tickers bs).1 := by
      show List.filterMap (fun p => Option.map (fun i => barToPrice i p.1) p.2)
          ((b, symbolMap tickers b.ticker) ::
            bs.map (fun x => (x, symbolMap tickers x.ticker))) =
        barToPrice t'.tid b ::
          List.filterMap (fun p => Option.map (fun i => barToPrice i p.1) p.2)
            (bs.map (fun x => (x, symbolMap tickers x.ticker)))
      rw [List.filterMap_cons, ht'_map]
      rfl
    rw [hrows]
    show ((tickers.filter (fun x => x.tid == (barToPrice t'.tid b).tid)).map
        (fun t => priceToRange t.symbol (barToPrice t'.tid b))) ++
      sqJoin tickers (import_prices_clean tickers bs).1 = _
    rw [show (barToPrice t'.tid b).tid = t'.tid from rfl, filter_tid_singleton hTid ht'_mem,
      ih (fun x hx => hOrph x (List.mem_cons_of_mem b hx))]
    rw [List.map_cons]
    show priceToRange t'.symbol (barToPrice t'.tid b) :: _ = barToRangeRow b :: _
    rw [show priceToRange t'.symbol (barToPrice t'.tid b) =
      RangeRow.mk t'.symbol b.ts b.open_ b.high b.low b.close b.volume from rfl, ht'_sym]
    rfl

theorem symbolMap_eq_none_iff {tickers : List TickerRow} {sym : String} :
    symbolMap tickers sym = none ↔ ∀ t ∈ tickers, t.symbol ≠ sym := by
  unfold symbolMap
  cases hf : tickers.reverse.find? (fun x => x.symbol == sym) with
  | none =>
    constructor
    · intro _ t ht hsym
      have := List.find?_eq_none.mp hf t (List.mem_reverse.mpr ht)
      simp [hsym] at this
    · intro _
      rfl
  | some t' =>
    constructor
    · intro h
      exact Option.noConfusion h
    · intro h
      exfalso
      have hmem := List.mem_reverse.mp (List.mem_of_find?_eq_some hf)
      have hsym := List.find?_some hf
      exact h t' hmem (by simpa using hsym)

theorem symbolMap_eq_some_spec {tickers : List TickerRow} {sym : String} {i : ℕ}
    (h : symbolMap tickers sym = some i) :
    ∃ t' ∈ tickers, t'.symbol = sym ∧ t'.tid = i := by
  unfold symbolMap at h
  cases hf : tickers.reverse.find? (fun x => x.symbol == sym) with
  | none =>
    rw [hf] at h
    exact Option.noConfusion h
  | some t' =>
    rw [hf] at h
    have htid : t'.tid = i := by simpa using h
    exact ⟨t', List.mem_reverse.mp (List.mem_of_find?_eq_some hf),
      by simpa using List.find?_some hf, htid⟩

theorem length_filterMap_add_filter_none {α β γ : Type} (f : α → Option β)
    (g : α → β → γ) (l : List α) :
    (l.filterMap (fun a => (f a).map (g a))).length +
      (l.filter (fun a => (f a).isNone)).length = l.length := by
  induction l with
  | nil => rfl
  | cons a l ih =>
    cases hf : f a with
    | none =>
      simp only [List.filterMap_cons, List.filter_cons, hf, Option.map_none',
        Option.isNone_none, if_true, List.length_cons]
      omega
    | some b =>
      simp only [List.filterMap_cons, List.filter_cons, hf, Option.map_some',
        Option.isNone_some, Bool.false_eq_true, if_false, List.length_cons]
      omega

theorem import_clean_length (tickers : List TickerRow) (bars : List Bar) :
    (import_prices_clean tickers bars).1.length + (import_prices_clean tickers bars).2 =
      bars.length := by
  show (List.filterMap (fun p => Option.map (fun i => barToPrice i p.1) p.2)
      (bars.map (fun x => (x, symbolMap tickers x.ticker)))).length +
    (List.filter (fun p => p.2.isNone)
      (bars.map (fun x => (x, symbolMap tickers x.ticker)))).length = bars.length
  rw [List.filterMap_map, List.filter_map]
  simp only [List.length_map]
  exact length_filterMap_add_filter_none (fun b => symbolMap tickers b.ticker)
    (fun b i => barToPrice i b) bars

theorem orderedInsert_volDesc_lex {a : String × ℤ} :
    ∀ {s : List (String × ℤ)}, List.Sorted volLexLe s → (∀ b ∈ s, strLt a.1 b.1) →
      List.Sorted volLexLe (List.orderedInsert volDescLe a s) := by
  intro s
  induction s with
  | nil =>
    intro _ _
    simp [List.orderedInsert]
  | cons b s' ih =>
    intro hs hfst
    by_cases hle : volDescLe a b
    · rw [List.orderedInsert, if_pos hle]
      refine List.sorted_cons.mpr ⟨fun x hx => ?_, hs⟩
      have hxb : x.2 ≤ b.2 := by
        rcases List.mem_cons.mp hx with rfl | hx'
        · exact le_refl _
        · rcases (List.sorted_cons.mp hs).1 x hx' with h | h
          · exact le_of_lt h
          · exact le_of_eq h.1.symm
      have hba : b.2 ≤ a.2 := hle
      rcases lt_or_eq_of_le (le_trans hxb hba) with h | h
      · exact Or.inl h
      · exact Or.inr ⟨h.symm, strLe_of_strLt (hfst x hx)⟩
    · rw [List.orderedInsert, if_neg hle]
      have hab : a.2 < b.2 := by
        simp only [volDescLe] at hle
        exact lt_of_not_le hle
      refine List.sorted_cons.mpr ⟨fun x hx => ?_, ?_⟩
      · rcases (List.mem_orderedInsert volDescLe).mp hx with rfl | hx'
        · exact Or.inl hab
        · exact (List.sorted_cons.mp hs).1 x hx'
      · exact ih (List.sorted_cons.mp hs).2 (fun x hx => hfst x (List.mem_cons_of_mem b hx))

theorem insertionSort_volDesc_lex :
    ∀ {l : List (String × ℤ)}, l.Pairwise (fun a b => strLt a.1 b.1) →
      List.Sorted volLexLe (List.insertionSort volDescLe l) := by
  intro l
  induction l with
  | nil =>
    intro _
    simp
  | cons a t ih =>
    intro hp
    rw [List.insertionSort]
    refine orderedInsert_volDesc_lex (ih (List.pairwise_cons.mp hp).2) (fun b hb => ?_)
    exact (List.pairwise_cons.mp hp).1 b
      ((List.perm_insertionSort volDescLe t).mem_iff.mp hb)

theorem pctAux_length (prev : ℚ) : ∀ (l : List ℚ), (pctAux prev l).length = l.length := by
  intro l
  induction l generalizing prev with
  | nil => rfl
  | cons c rest ih =>
    rw [pctAux, List.length_cons, List.length_cons, ih]

theorem pct_change_length (l : List ℚ) : (pct_change l).length = l.length := by
  cases l with
  | nil => rfl
  | cons c rest =>
    rw [pct_change, List.length_cons, List.length_cons, pctAux_length]

theorem rollingStd_length (xs : List (Option ℚ)) (w : ℕ) :
    (rollingStd xs w).length = xs.length := by
  rw [rollingStd, List.length_map, List.length_range]

theorem windowAt_zero_cons (x : Option ℚ) (R : List (Option ℚ)) (w : ℕ) :
    windowAt (x :: R) w 0 = if w = 0 then [] else [x] := by
  rw [windowAt]
  cases w with
  | zero => rfl
  | succ w' =>
    rw [if_neg (Nat.succ_ne_zero w')]
    have hz : 0 + 1 - (w' + 1) = 0 := by omega
    rw [hz, List.drop_zero]
    simp

theorem task2_group_head (b : Bar) (rest : List Bar) (w : ℕ) :
    (task2_group (b :: rest) w).head? =
      some (VolRow.mk b.ticker b.ts b.close none none) := by
  have h0 : sampleVar
      ((windowAt (none :: pctAux b.close (rest.map (fun x => x.close))) w 0).filterMap id) =
        none := by
    rw [windowAt_zero_cons]
    by_cases hw : w = 0
    · rw [if_pos hw]
      rfl
    · rw [if_neg hw]
      rfl
  show ((((b :: rest).zip
      ((none :: pctAux b.close (rest.map (fun x => x.close))).zip
        (rollingStd (none :: pctAux b.close (rest.map (fun x => x.close))) w))).map
      (fun p => VolRow.mk p.1.ticker p.1.ts p.1.close p.2.1 p.2.2)).head?) = _
  rw [rollingStd,
    show ((none :: pctAux b.close (rest.map (fun x => x.close))) : List (Option ℚ)).length =
      (pctAux b.close (rest.map (fun x => x.close))).length + 1 from rfl,
    List.range_succ_eq_map, List.map_cons, List.zip_cons_cons, List.zip_cons_cons,
    List.map_cons, List.head?_cons, h0]

theorem sampleVar_eq_none (vs : List ℚ) : sampleVar vs = none ↔ vs.length < 2 := by
  rw [sampleVar]
  by_cases h : vs.length < 2
  · simp [h]
  · simp [h]

theorem rollingStd_getElem (xs : List (Option ℚ)) (w i : ℕ) (v : Option ℚ)
    (h : (rollingStd xs w)[i]? = some v) :
    v = sampleVar ((windowAt xs w i).filterMap id) := by
  rw [rollingStd, List.getElem?_map] at h
  by_cases hi : i < xs.length
  · rw [List.getElem?_range hi] at h
    simp only [Option.map_some', Option.some.injEq] at h
    exact h.symm
  · rw [List.getElem?_eq_none (by simpa using Nat.le_of_not_lt hi)] at h
    simp at h

theorem task2_group_vol (bs : List Bar) (w i : ℕ) (row : VolRow)
    (h : (task2_group bs w)[i]? = some row) :
    row.volatility_5d =
      sampleVar ((windowAt (pct_change (bs.map (fun b => b.close))) w i).filterMap id) := by
  simp only [task2_group, List.getElem?_map] at h
  rcases hp : (bs.zip ((pct_change (bs.map fun b => b.close)).zip
      (rollingStd (pct_change (bs.map fun b => b.close)) w)))[i]? with _ | p
  · rw [hp] at h
    simp at h
  · rw [hp] at h
    simp only [Option.map_some', Option.some.injEq] at h
    have hzip := (List.getElem?_zip_eq_some.mp hp).2
    have hv := (List.getElem?_zip_eq_some.mp hzip).2
    have := rollingStd_getElem (pct_change (bs.map fun b => b.close)) w i p.2.2 hv
    rw [← h, ← this]

theorem task2_group_ticker (bs : List Bar) (w : ℕ) (r : VolRow)
    (hr : r ∈ task2_group bs w) : ∃ b ∈ bs, r.ticker = b.ticker := by
  simp only [task2_group, List.mem_map] at hr
  obtain ⟨p, hp, hmk⟩ := hr
  obtain ⟨a, q⟩ := p
  exact ⟨a, (List.of_mem_zip hp).1, by rw [← hmk]⟩

theorem filter_flatMap_key (f : String → List VolRow) (t : String) :
    ∀ (keys : List String), keys.Nodup →
      (∀ k ∈ keys, ∀ r ∈ f k, r.ticker = k) →
      (keys.flatMap f).filter (fun r => r.ticker == t) =
        if t ∈ keys then f t else [] := by
  intro keys
  induction keys with
  | nil => intro _ _; simp
  | cons k ks ih =>
    intro hnd hf
    rw [List.flatMap_cons, List.filter_append,
      ih (List.nodup_cons.mp hnd).2 (fun k' hk' => hf k' (List.mem_cons_of_mem k hk'))]
    by_cases hkt : k = t
    · subst hkt
      have h1 : (f k).filter (fun r => r.ticker == k) = f k := by
        rw [List.filter_eq_self]
        intro r hr
        simp [hf k (List.mem_cons_self k ks) r hr]
      have h2 : k ∉ ks := (List.nodup_cons.mp hnd).1
      rw [h1, if_neg h2, if_pos (List.mem_cons_self k ks), List.append_nil]
    · have h1 : (f k).filter (fun r => r.ticker == t) = [] := by
        rw [List.filter_eq_nil_iff]
        intro r hr
        simp [hf k (List.mem_cons_self k ks) r hr, hkt]
      rw [h1, List.nil_append]
      by_cases ht : t ∈ ks
      · rw [if_pos ht, if_pos (List.mem_cons_of_mem k ht)]
      · rw [if_neg ht, if_neg (by
          simp only [List.mem_cons, not_or]
          exact ⟨fun h => hkt h.symm, ht⟩)]

theorem load_validate_ok (bars : List Bar) (refSymbols : List String)
    (h : ∀ r ∈ refSymbols, ∃ b ∈ bars, b.ticker = r) :
    load_and_validate_data bars refSymbols = Except.ok bars := by
  have hc : refSymbols.any (fun r => !(bars.any (fun b => b.ticker == r))) = false := by
    rw [List.any_eq_false]
    intro r hr
    rw [Bool.not_eq_true', List.any_eq_false]
    push_neg
    obtain ⟨b, hb, hbe⟩ := h r hr
    exact ⟨b, hb, by simpa using hbe⟩
  unfold load_and_validate_data
  rw [if_neg (by simp [hc])]

/-! ## Claim theorems -/

/-- C10: the shared load-time validator succeeds exactly when every
reference ticker has at least one bar in the market data; on success it
passes every bar through unchanged (so bars whose ticker is absent from
the reference set are NOT filtered — there is no check in the opposite
direction); when some reference ticker has no bars it raises, and both
backends' load paths abort: the relational import writes a `prices` table
only if validation passed, and the columnar initialisation of a fresh
directory succeeds only if validation passed. -/
theorem C10_validator_reference_cover (bars : List Bar) (refSymbols : List String) :
    (load_and_validate_data bars refSymbols = Except.ok bars ↔
      ∀ r ∈ refSymbols, ∃ b ∈ bars, b.ticker = r) ∧
    (∀ out, load_and_validate_data bars refSymbols = Except.ok out → out = bars) ∧
    ((∃ msg, load_and_validate_data bars refSymbols = Except.error msg) ↔
      ∃ r ∈ refSymbols, ∀ b ∈ bars, b.ticker ≠ r) ∧
    (∀ tickers rows cnt,
      import_prices tickers bars refSymbols = Except.ok (some (rows, cnt)) →
      ∀ r ∈ refSymbols, ∃ b ∈ bars, b.ticker = r) ∧
    (∀ st, init_parquet none bars refSymbols = Except.ok st →
      ∀ r ∈ refSymbols, ∃ b ∈ bars, b.ticker = r) := by
  have hkey : refSymbols.any (fun r => !(bars.any (fun b => b.ticker == r))) = false ↔
      ∀ r ∈ refSymbols, ∃ b ∈ bars, b.ticker = r := by
    rw [List.any_eq_false]
    constructor
    · intro h r hr
      have := h r hr
      rw [Bool.not_eq_true', List.any_eq_false] at this
      push_neg at this
      obtain ⟨b, hb, hbe⟩ := this
      exact ⟨b, hb, by simpa using hbe⟩
    · intro h r hr
      rw [Bool.not_eq_true', List.any_eq_false]
      push_neg
      obtain ⟨b, hb, hbe⟩ := h r hr
      exact ⟨b, hb, by simpa using hbe⟩
  by_cases hc : refSymbols.any (fun r => !(bars.any (fun b => b.ticker == r))) = true
  · have hcover : ¬ ∀ r ∈ refSymbols, ∃ b ∈ bars, b.ticker = r := by
      intro hcov
      rw [← hkey] at hcov
      rw [hcov] at hc
      exact Bool.noConfusion hc
    have hload : load_and_validate_data bars refSymbols =
        Except.error "Data validation failed: reference tickers missing in the market data" := by
      unfold load_and_validate_data
      rw [if_pos hc]
    refine ⟨?_, ?_, ?_, ?_, ?_⟩
    · rw [hload]
      constructor
      · intro h
        exact Except.noConfusion h
      · intro h
        exact absurd h hcover
    · intro out h
      rw [hload] at h
      exact Except.noConfusion h
    · constructor
      · intro _
        obtain ⟨r, hr, hfail⟩ := List.any_eq_true.mp hc
        refine ⟨r, hr, fun b hb hbe => ?_⟩
        rw [Bool.not_eq_true', List.any_eq_false] at hfail
        exact hfail b hb (by simpa using hbe)
      · intro _
        exact ⟨_, hload⟩
    · intro tickers rows cnt h
      by_cases hemp : tickers.isEmpty
      · unfold import_prices at h
        rw [if_pos hemp] at h
        exact Option.noConfusion (Except.ok.inj h)
      · unfold import_prices at h
        rw [if_neg hemp, hload] at h
        exact Except.noConfusion h
    · intro st h
      unfold init_parquet at h
      rw [hload] at h
      exact Except.noConfusion h
  · rw [Bool.not_eq_true] at hc
    have hcover := hkey.mp hc
    have hload : load_and_validate_data bars refSymbols = Except.ok bars := by
      unfold load_and_validate_data
      rw [if_neg (by rw [hc]; exact Bool.noConfusion)]
    refine ⟨?_, ?_, ?_, ?_, ?_⟩
    · exact ⟨fun _ => hcover, fun _ => hload⟩
    · intro out h
      rw [hload] at h
      exact (Except.ok.inj h).symm
    · constructor
      · rintro ⟨msg, hmsg⟩
        rw [hload] at hmsg
        exact Except.noConfusion hmsg
      · rintro ⟨r, hr, hnone⟩
        obtain ⟨b, hb, hbe⟩ := hcover r hr
        exact absurd hbe (hnone b hb)
    · intro _ _ _ _ r hr
      exact hcover r hr
    · intro _ _ r hr
      exact hcover r hr

/-- C10 witness: a reference set containing MSFT while the bars only cover
AAPL makes the validator (and both load paths) fail, and a covered
reference set passes orphan bars through unchanged. -/
theorem C10_validator_reference_cover_witness :
    ((∃ msg, load_and_validate_data
        [⟨"AAPL", ⟨17, 30⟩, 271, 272, 270, 271, 1416⟩] ["AAPL", "MSFT"] =
      Except.error msg) ∧
    (load_and_validate_data
        [⟨"AAPL", ⟨17, 30⟩, 271, 272, 270, 271, 1416⟩, ⟨"XXX", ⟨17, 31⟩, 1, 2, 1, 2, 5⟩]
        ["AAPL"] =
      Except.ok
        [⟨"AAPL", ⟨17, 30⟩, 271, 272, 270, 271, 1416⟩, ⟨"XXX", ⟨17, 31⟩, 1, 2, 1, 2, 5⟩])) :=
  ⟨(C10_validator_reference_cover
      [⟨"AAPL", ⟨17, 30⟩, 271, 272, 270, 271, 1416⟩] ["AAPL", "MSFT"]).2.2.1.mpr
    ⟨"MSFT", by decide, by decide⟩,
  (C10_validator_reference_cover
      [⟨"AAPL", ⟨17, 30⟩, 271, 272, 270, 271, 1416⟩, ⟨"XXX", ⟨17, 31⟩, 1, 2, 1, 2, 5⟩]
      ["AAPL"]).1.mpr (by decide)⟩

/-- C4: the columnar range query prunes to the ticker's partition when
the partition directory exists, but its fallback path (absent partition)
loads the full dataset and applies only the timestamp mask — the result
then contains other tickers' bars, contradicting the function's own
docstring ("Retrieve all data for a ticker") and the spec.  Here the
store holds a single AAPL bar; querying MSFT returns that AAPL bar. -/
theorem C4_parquet_fallback_reads_other_tickers :
    get_ticker_data_parquet
        (some (init_parquet_bars [⟨"AAPL", ⟨17, 30⟩, 271, 272, 270, 271, 1416⟩]))
        "MSFT" ⟨17, 0⟩ ⟨18, 0⟩ =
      Except.ok [⟨"AAPL", ⟨17, 30⟩, 271, 272, 270, 271, 1416⟩] ∧
    ("AAPL" : String) ≠ "MSFT" := by
  constructor
  · rfl
  · decide

/-- C6: the relational load path destroys the foreign-key constraint:
`init_db` creates `prices` with the FK clause and enables the pragma, but
`import_prices` writes through pandas `to_sql(if_exists='replace')`, which
drops and recreates the table without the clause — after the load an
insert referencing the non-existent `ticker_id` 999 succeeds.  The same
insert against the table as `init_db` declared it is rejected, showing
the declared schema (and the repo's own test) intends the rejection. -/
theorem C6_fk_not_enforced_after_load :
    ((import_prices_db
        (import_tickers (init_db emptyDB) [⟨1, "AAPL", "Apple", "NASDAQ"⟩])
        [⟨"AAPL", ⟨17, 30⟩, 271, 272, 270, 271, 1416⟩]).pricesTab.map
      (fun tab => tab.declaresFK)) = some false ∧
    (insert_price
        (import_prices_db
          (import_tickers (init_db emptyDB) [⟨1, "AAPL", "Apple", "NASDAQ"⟩])
          [⟨"AAPL", ⟨17, 30⟩, 271, 272, 270, 271, 1416⟩])
        ⟨⟨17, 30⟩, 999, 100, 101, 99, 100, 1000⟩).isOk = true ∧
    insert_price
        (import_tickers (init_db emptyDB) [⟨1, "AAPL", "Apple", "NASDAQ"⟩])
        ⟨⟨17, 30⟩, 999, 100, 101, 99, 100, 1000⟩ =
      Except.error InsertErr.fkViolation := by
  refine ⟨rfl, rfl, rfl⟩

/-- C9: the benchmark's guards are partial.  A zero columnar duration
yields the label "N/A" but a time ratio of infinity (not "N/A"); a zero
columnar footprint yields the percentage label "N/A" but a size ratio of
the sentinel `0` (not "N/A"); and the comparison DOES raise a
`ZeroDivisionError` in exactly one case: a zero relational duration with
a positive columnar duration, where the slowdown label computes
`parquet_time / sqlite_time`. -/
theorem C9_benchmark_guards (st pt : ℚ) (ss ps : ℕ) (hst : 0 ≤ st) (hpt : 0 ≤ pt) :
    (pt = 0 → ∃ c, task3_comparison st pt ss ps = Except.ok c ∧
      c.time_ratio = TimeRatio.infinite ∧ c.speedup = SpeedLabel.na) ∧
    (ps = 0 → ∀ c, task3_comparison st pt ss ps = Except.ok c →
      c.size_ratio = 0 ∧ c.size_difference = SizeLabel.na) ∧
    (task3_comparison st pt ss ps = Except.error BenchErr.zeroDivision ↔
      st = 0 ∧ 0 < pt) := by
  refine ⟨?_, ?_, ?_⟩
  · intro hpt0
    subst hpt0
    unfold task3_comparison
    rw [if_neg (lt_irrefl 0)]
    exact ⟨_, rfl, rfl, rfl⟩
  · intro hps0 c hc
    subst hps0
    unfold task3_comparison at hc
    rw [if_neg (lt_irrefl 0)] at hc
    by_cases h1 : 0 < pt
    · rw [if_pos h1] at hc
      by_cases h2 : pt < st
      · rw [if_pos h2] at hc
        obtain rfl := Except.ok.inj hc
        exact ⟨rfl, rfl⟩
      · rw [if_neg h2] at hc
        by_cases h3 : st = 0
        · rw [if_pos h3] at hc
          exact Except.noConfusion hc
        · rw [if_neg h3] at hc
          obtain rfl := Except.ok.inj hc
          exact ⟨rfl, rfl⟩
    · rw [if_neg h1] at hc
      obtain rfl := Except.ok.inj hc
      exact ⟨rfl, rfl⟩
  · unfold task3_comparison
    by_cases h1 : 0 < pt
    · rw [if_pos h1]
      by_cases h2 : pt < st
      · rw [if_pos h2]
        constructor
        · intro h
          exact Except.noConfusion h
        · rintro ⟨rfl, -⟩
          exact absurd (lt_trans h1 h2) (lt_irrefl 0)
      · rw [if_neg h2]
        by_cases h3 : st = 0
        · rw [if_pos h3]
          exact ⟨fun _ => ⟨h3, h1⟩, fun _ => rfl⟩
        · rw [if_neg h3]
          constructor
          · intro h
            exact Except.noConfusion h
          · rintro ⟨rfl, -⟩
            exact absurd rfl h3
    · rw [if_neg h1]
      constructor
      · intro h
        exact Except.noConfusion h
      · rintro ⟨-, hpt'⟩
        exact absurd hpt' h1

/-- C9 witness: at a zero columnar duration the guards report infinity
plus "N/A", and at a zero columnar footprint the size ratio is `0`. -/
theorem C9_benchmark_guards_witness :
    (0 : ℚ) ≤ 1 ∧ (0 : ℚ) ≤ 0 ∧
    (∃ c, task3_comparison 1 0 5 0 = Except.ok c ∧
      c.time_ratio = TimeRatio.infinite ∧ c.speedup = SpeedLabel.na) :=
  ⟨by decide, by decide, (C9_benchmark_guards 1 0 5 0 (by decide) (by decide)).1 rfl⟩

/-- C9 counterexample: the claim "in no case does the benchmark raise a
division error" fails — a zero relational duration with a positive
columnar duration raises `ZeroDivisionError` while formatting the
slowdown label. -/
theorem C9_counterexample_division_error :
    task3_comparison 0 1 100 50 = Except.error BenchErr.zeroDivision := by
  rfl

/-- C3 counterexample: the claim "no orphan bar appears in the stored
data of either backend" fails for the columnar backend.  With reference
set {AAPL}, a bar for the unknown ticker XXX passes validation (the
validator only checks the opposite direction) and `init_parquet` writes
it into the partitioned dataset. -/
theorem C3_counterexample_columnar_stores_orphan :
    init_parquet none
        [⟨"AAPL", ⟨17, 30⟩, 271, 272, 270, 271, 1416⟩, ⟨"XXX", ⟨17, 31⟩, 1, 2, 1, 2, 5⟩]
        ["AAPL"] =
      Except.ok (some [⟨"AAPL", ⟨17, 30⟩, 271, 272, 270, 271, 1416⟩,
        ⟨"XXX", ⟨17, 31⟩, 1, 2, 1, 2, 5⟩]) ∧
    (⟨"XXX", ⟨17, 31⟩, 1, 2, 1, 2, 5⟩ : Bar) ∈ init_parquet_bars
        [⟨"AAPL", ⟨17, 30⟩, 271, 272, 270, 271, 1416⟩, ⟨"XXX", ⟨17, 31⟩, 1, 2, 1, 2, 5⟩] ∧
    ∀ r ∈ (["AAPL"] : List String), r ≠ "XXX" := by
  refine ⟨rfl, by decide, by decide⟩

/-- C3 (amended): orphan bars — bars whose ticker is absent from the
reference ticker table — are dropped with an exact count by the
RELATIONAL load path only, and the rest of the batch still loads (kept
rows + dropped count = batch size; every stored row references a real
`tickers` row).  The COLUMNAR load path stores every validated bar,
orphans included. -/
theorem C3_load_integrity_amended (tickers : List TickerRow) (bars : List Bar)
    (refSymbols : List String)
    (hval : ∀ r ∈ refSymbols, ∃ b ∈ bars, b.ticker = r)
    (hne : tickers ≠ []) :
    import_prices tickers bars refSymbols =
      Except.ok (some (import_prices_clean tickers bars)) ∧
    (import_prices_clean tickers bars).2 =
      (bars.filter (fun b => !(tickers.any (fun t => t.symbol == b.ticker)))).length ∧
    (import_prices_clean tickers bars).1.length + (import_prices_clean tickers bars).2 =
      bars.length ∧
    (∀ p ∈ (import_prices_clean tickers bars).1, ∃ t ∈ tickers, t.tid = p.tid) ∧
    init_parquet none bars refSymbols = Except.ok (some (init_parquet_bars bars)) ∧
    (∀ b ∈ bars, b ∈ init_parquet_bars bars) := by
  have hload : load_and_validate_data bars refSymbols = Except.ok bars :=
    load_validate_ok bars refSymbols hval
  refine ⟨?_, ?_, import_clean_length tickers bars, ?_, ?_, ?_⟩
  · unfold import_prices
    rw [if_neg (by simpa using hne), hload]
    rfl
  · show (List.filter (fun p => p.2.isNone)
      (bars.map (fun x => (x, symbolMap tickers x.ticker)))).length = _
    rw [List.filter_map]
    simp only [List.length_map]
    congr 1
    refine List.filter_congr (fun b _ => ?_)
    rw [Bool.eq_iff_iff]
    simp only [Function.comp_apply, Option.isNone_iff_eq_none, Bool.not_eq_true',
      List.any_eq_false, symbolMap_eq_none_iff]
    constructor
    · intro h t ht
      simpa using h t ht
    · intro h t ht
      simpa using h t ht
  · intro p hp
    have hp' : p ∈ List.filterMap (fun q => Option.map (fun i => barToPrice i q.1) q.2)
        (bars.map (fun x => (x, symbolMap tickers x.ticker))) := hp
    rw [List.filterMap_map] at hp'
    obtain ⟨b, _, hb⟩ := List.mem_filterMap.mp hp'
    simp only [Function.comp_apply] at hb
    cases hm : symbolMap tickers b.ticker with
    | none =>
      rw [hm] at hb
      exact Option.noConfusion hb
    | some i =>
      rw [hm] at hb
      obtain ⟨t', ht'_mem, _, ht'_tid⟩ := symbolMap_eq_some_spec hm
      refine ⟨t', ht'_mem, ?_⟩
      have : barToPrice i b = p := by simpa using hb
      rw [← this, ht'_tid]
      rfl
  · unfold init_parquet
    rw [hload]
    rfl
  · intro b hb
    exact (List.perm_insertionSort barLoadLe bars).symm.mem_iff.mp hb

/-- C3 witness: one AAPL ticker row, a batch of one AAPL bar plus one
orphan XXX bar — the relational path drops exactly the orphan and keeps
the rest, the columnar path stores both. -/
theorem C3_load_integrity_amended_witness :
    ((∀ r ∈ (["AAPL"] : List String),
        ∃ b ∈ [(⟨"AAPL", ⟨17, 30⟩, 271, 272, 270, 271, 1416⟩ : Bar),
          ⟨"XXX", ⟨17, 31⟩, 1, 2, 1, 2, 5⟩], b.ticker = r) ∧
      ([(⟨1, "AAPL", "Apple", "NASDAQ"⟩ : TickerRow)] ≠ [])) ∧
    import_prices [⟨1, "AAPL", "Apple", "NASDAQ"⟩]
        [⟨"AAPL", ⟨17, 30⟩, 271, 272, 270, 271, 1416⟩, ⟨"XXX", ⟨17, 31⟩, 1, 2, 1, 2, 5⟩]
        ["AAPL"] =
      Except.ok (some (import_prices_clean [⟨1, "AAPL", "Apple", "NASDAQ"⟩]
        [⟨"AAPL", ⟨17, 30⟩, 271, 272, 270, 271, 1416⟩, ⟨"XXX", ⟨17, 31⟩, 1, 2, 1, 2, 5⟩])) :=
  ⟨⟨by decide, by decide⟩,
    (C3_load_integrity_amended [⟨1, "AAPL", "Apple", "NASDAQ"⟩]
      [⟨"AAPL", ⟨17, 30⟩, 271, 272, 270, 271, 1416⟩, ⟨"XXX", ⟨17, 31⟩, 1, 2, 1, 2, 5⟩]
      ["AAPL"] (by decide) (by decide)).1⟩

/-- C8: the rolling-volatility transform operates per ticker group on the
(ticker, timestamp)-sorted data.  (a) The output rows carrying ticker `t`
are exactly the transform of `t`'s own sorted bars, so no return and no
rolling window ever spans a ticker boundary; (b) the first row of every
ticker group carries a null return and a null volatility; (c) a row's
volatility is null exactly when the trailing window over its own group's
returns holds fewer than two non-missing samples. -/
theorem C8_rolling_volatility_boundaries (bs : List Bar) (w : ℕ) (rows : List VolRow)
    (hrun : task2_rolling_volatility (some bs) w = Except.ok rows) :
    (∀ t : String,
        rows.filter (fun r => r.ticker == t) =
          task2_group ((List.insertionSort barLoadLe bs).filter
            (fun b => b.ticker == t)) w) ∧
    (∀ (t : String) (b : Bar) (rest : List Bar),
        (List.insertionSort barLoadLe bs).filter (fun x => x.ticker == t) = b :: rest →
          (rows.filter (fun r => r.ticker == t)).head? =
            some (VolRow.mk b.ticker b.ts b.close none none)) ∧
    (∀ (t : String) (i : ℕ) (row : VolRow),
        (rows.filter (fun r => r.ticker == t))[i]? = some row →
          (row.volatility_5d = none ↔
            ((windowAt
                (pct_change (((List.insertionSort barLoadLe bs).filter
                  (fun x => x.ticker == t)).map (fun b => b.close))) w i).filterMap
              id).length < 2)) := by
  have hrows : rows =
      (uniqueFirst ((List.insertionSort barLoadLe bs).map (fun b => b.ticker))).flatMap
        (fun t => task2_group ((List.insertionSort barLoadLe bs).filter
          (fun b => b.ticker == t)) w) :=
    Except.ok.inj (hrun.symm.trans rfl)
  have hmain : ∀ t : String,
      rows.filter (fun r => r.ticker == t) =
        task2_group ((List.insertionSort barLoadLe bs).filter (fun b => b.ticker == t)) w := by
    intro t
    have hsplit := filter_flatMap_key
      (fun k => task2_group ((List.insertionSort barLoadLe bs).filter
        (fun b => b.ticker == k)) w) t
      (uniqueFirst ((List.insertionSort barLoadLe bs).map (fun b => b.ticker)))
      (uniqueFirst_nodup _)
      (fun k _ r hr => by
        obtain ⟨b, hb, hrb⟩ := task2_group_ticker _ w r hr
        rw [hrb]
        simpa using (List.mem_filter.mp hb).2)
    rw [hrows, hsplit]
    by_cases ht : t ∈ uniqueFirst ((List.insertionSort barLoadLe bs).map (fun b => b.ticker))
    · rw [if_pos ht]
    · rw [if_neg ht]
      have hfe : (List.insertionSort barLoadLe bs).filter (fun b => b.ticker == t) = [] := by
        rw [List.filter_eq_nil_iff]
        intro b hb hbt
        exact ht (uniqueFirst_mem.mpr
          (List.mem_map.mpr ⟨b, hb, by simpa using hbt⟩))
      rw [hfe]
      rfl
  refine ⟨hmain, ?_, ?_⟩
  · intro t b rest hfil
    rw [hmain t, hfil]
    exact task2_group_head b rest w
  · intro t i row hrow
    rw [hmain t] at hrow
    rw [task2_group_vol _ w i row hrow]
    exact sampleVar_eq_none _

/-- C8 witness: on a three-bar A group followed by a single-bar B group
at window 5, the transform runs and the single-bar B group's only row
carries a null return and a null volatility — the A rows just before it
do not leak across the boundary. -/
theorem C8_rolling_volatility_boundaries_witness :
    (List.filter (fun r => r.ticker == "B")
        [VolRow.mk "A" ⟨1, 1⟩ 100 none none,
         VolRow.mk "A" ⟨1, 2⟩ 110 (some (1 / 10)) none,
         VolRow.mk "A" ⟨1, 3⟩ 99 (some (-1 / 10)) (some (1 / 50)),
         VolRow.mk "B" ⟨1, 1⟩ 50 none none]).head? =
      some (VolRow.mk "B" ⟨1, 1⟩ 50 none none) :=
  (C8_rolling_volatility_boundaries
    [⟨"A", ⟨1, 1⟩, 100, 100, 100, 100, 10⟩, ⟨"A", ⟨1, 2⟩, 100, 100, 100, 110, 10⟩,
     ⟨"A", ⟨1, 3⟩, 100, 100, 100, 99, 10⟩, ⟨"B", ⟨1, 1⟩, 50, 50, 50, 50, 5⟩]
    5
    [VolRow.mk "A" ⟨1, 1⟩ 100 none none,
     VolRow.mk "A" ⟨1, 2⟩ 110 (some (1 / 10)) none,
     VolRow.mk "A" ⟨1, 3⟩ 99 (some (-1 / 10)) (some (1 / 50)),
     VolRow.mk "B" ⟨1, 1⟩ 50 none none]
    (by rfl)).2.1 "B" ⟨"B", ⟨1, 1⟩, 50, 50, 50, 50, 5⟩ [] (by decide)

/-- C5 counterexample: neither backend fails with `NotFound` on an
unknown ticker.  The relational query is total and returns the empty
row set; the columnar query, whose only `NotFound` arises from a missing
dataset root, falls back to a full scan and even returns another
ticker's bar. -/
theorem C5_counterexample_unknown_ticker_not_error :
    get_ticker_data [⟨1, "AAPL", "Apple", "NASDAQ"⟩]
        [⟨⟨17, 30⟩, 1, 271, 272, 270, 271, 1416⟩] "ZZZ" ⟨17, 0⟩ ⟨18, 0⟩ = [] ∧
    get_ticker_data_parquet (some [⟨"AAPL", ⟨17, 30⟩, 271, 272, 270, 271, 1416⟩])
        "ZZZ" ⟨17, 0⟩ ⟨18, 0⟩ =
      Except.ok [⟨"AAPL", ⟨17, 30⟩, 271, 272, 270, 271, 1416⟩] :=
  ⟨by decide, by rfl⟩

/-- C5 (amended): the relational range query is total — it returns rows
of the requested symbol inside the inclusive window, sorted ascending by
timestamp, and an unknown ticker yields the empty row set rather than an
error.  The columnar query fails with `NotFound` exactly when the dataset
root is absent; when the ticker's partition exists it returns that
partition time-filtered and sorted; when the partition is absent it falls
back to a time-filtered full scan with no ticker restriction. -/
theorem C5_range_errors_amended (tickers : List TickerRow) (prices : List PriceRow)
    (bs : List Bar) (t : String) (s e : Ts) :
    List.Sorted rowTsLe (get_ticker_data tickers prices t s e) ∧
    (∀ r : RangeRow, r ∈ get_ticker_data tickers prices t s e ↔
      (r ∈ sqJoin tickers prices ∧ r.symbol = t ∧ s ≤ r.ts ∧ r.ts ≤ e)) ∧
    ((∀ r ∈ sqJoin tickers prices, r.symbol ≠ t) →
      get_ticker_data tickers prices t s e = []) ∧
    (get_ticker_data_parquet none t s e = Except.error QueryErr.notFound) ∧
    (hasPartition bs t = true →
      get_ticker_data_parquet (some bs) t s e =
        Except.ok ((List.insertionSort barTsLe
          ((bs.filter (fun b => b.ticker == t)).filter (barRange s e))).map
            barToRangeRow)) ∧
    (hasPartition bs t = false →
      get_ticker_data_parquet (some bs) t s e =
        Except.ok ((List.insertionSort barTsLe
          (bs.filter (barRange s e))).map barToRangeRow)) := by
  have hmem : ∀ r : RangeRow, r ∈ get_ticker_data tickers prices t s e ↔
      (r ∈ sqJoin tickers prices ∧ r.symbol = t ∧ s ≤ r.ts ∧ r.ts ≤ e) := by
    intro r
    rw [get_ticker_data, (List.perm_insertionSort rowTsLe _).mem_iff, List.mem_filter]
    simp only [Bool.and_eq_true, beq_iff_eq, decide_eq_true_eq, and_assoc]
  refine ⟨?_, hmem, ?_, rfl, ?_, ?_⟩
  · rw [get_ticker_data]
    exact List.sorted_insertionSort rowTsLe _
  · intro h
    rw [List.eq_nil_iff_forall_not_mem]
    intro r hr
    obtain ⟨hj, hs, _⟩ := (hmem r).mp hr
    exact h r hj hs
  · intro h
    show Except.ok ((List.insertionSort barTsLe
        ((if hasPartition bs t then bs.filter (fun b => b.ticker == t) else bs).filter
          (barRange s e))).map barToRangeRow) = _
    rw [if_pos h]
  · intro h
    show Except.ok ((List.insertionSort barTsLe
        ((if hasPartition bs t then bs.filter (fun b => b.ticker == t) else bs).filter
          (barRange s e))).map barToRangeRow) = _
    rw [if_neg (by simp [h])]

/-- C5 witness: on a store holding one AAPL row, querying the unknown
ticker MSFT returns the empty row set through the relational backend. -/
theorem C5_range_errors_amended_witness :
    get_ticker_data [⟨1, "AAPL", "Apple", "NASDAQ"⟩]
        [⟨⟨17, 30⟩, 1, 271, 272, 270, 271, 1416⟩] "MSFT" ⟨17, 0⟩ ⟨18, 0⟩ = [] :=
  (C5_range_errors_amended [⟨1, "AAPL", "Apple", "NASDAQ"⟩]
      [⟨⟨17, 30⟩, 1, 271, 272, 270, 271, 1416⟩] [] "MSFT" ⟨17, 0⟩ ⟨18, 0⟩).2.2.1
    (by decide)

theorem sortedSyms_pairwise (l : List String) :
    (List.insertionSort symLe (uniqueFirst l)).Pairwise strLt := by
  have hs : List.Sorted symLe (List.insertionSort symLe (uniqueFirst l)) :=
    List.sorted_insertionSort _ _
  have hn : (List.insertionSort symLe (uniqueFirst l)).Nodup :=
    ((List.perm_insertionSort symLe _).nodup_iff).mpr (uniqueFirst_nodup l)
  exact (hs.and hn).imp (fun h => strLt_of_strLe_of_ne h.1 h.2)

theorem avgEntries_mem (rows : List RangeRow) (s : String) (v : ℤ) :
    (s, v) ∈ avgEntries rows ↔
      ((∃ r ∈ rows, r.symbol = s) ∧
        v = truncMean ((rows.filter (fun r => r.symbol == s)).map
          (fun r => r.volume))) := by
  rw [avgEntries, List.mem_map]
  constructor
  · rintro ⟨s', hs', heq⟩
    simp only [Prod.mk.injEq] at heq
    obtain ⟨rfl, hv⟩ := heq
    rw [groupSyms, (List.perm_insertionSort symLe _).mem_iff, uniqueFirst_mem] at hs'
    obtain ⟨r, hr, hrs⟩ := List.mem_map.mp hs'
    exact ⟨⟨r, hr, hrs⟩, hv.symm⟩
  · rintro ⟨⟨r, hr, hrs⟩, hv⟩
    refine ⟨s, ?_, by rw [← hv]⟩
    rw [groupSyms, (List.perm_insertionSort symLe _).mem_iff, uniqueFirst_mem]
    exact List.mem_map.mpr ⟨r, hr, hrs⟩

theorem pqAvgEntries_mem (bs : List Bar) (s : String) (v : ℤ) :
    (s, v) ∈ pqAvgEntries bs ↔
      ((∃ b ∈ bs, b.ticker = s) ∧
        v = truncMean ((bs.filter (fun b => b.ticker == s)).map
          (fun b => b.volume))) := by
  rw [pqAvgEntries, List.mem_map]
  constructor
  · rintro ⟨s', hs', heq⟩
    simp only [Prod.mk.injEq] at heq
    obtain ⟨rfl, hv⟩ := heq
    rw [(List.perm_insertionSort symLe _).mem_iff, uniqueFirst_mem] at hs'
    obtain ⟨b, hb, hbs⟩ := List.mem_map.mp hs'
    exact ⟨⟨b, hb, hbs⟩, hv.symm⟩
  · rintro ⟨⟨b, hb, hbs⟩, hv⟩
    refine ⟨s, ?_, by rw [← hv]⟩
    rw [(List.perm_insertionSort symLe _).mem_iff, uniqueFirst_mem]
    exact List.mem_map.mpr ⟨b, hb, hbs⟩

theorem avgEntries_pairwise_fst (rows : List RangeRow) :
    (avgEntries rows).Pairwise (fun a b => strLt a.1 b.1) := by
  rw [avgEntries, groupSyms]
  exact List.pairwise_map.mpr
    ((sortedSyms_pairwise (rows.map (fun r => r.symbol))).imp (fun h => h))

theorem pqAvgEntries_pairwise_fst (bs : List Bar) :
    (pqAvgEntries bs).Pairwise (fun a b => strLt a.1 b.1) := by
  rw [pqAvgEntries]
  exact List.pairwise_map.mpr
    ((sortedSyms_pairwise (bs.map (fun b => b.ticker))).imp (fun h => h))

theorem avgEntries_fst_nodup (rows : List RangeRow) :
    ((avgEntries rows).map Prod.fst).Nodup := by
  refine (avgEntries_pairwise_fst rows).map Prod.fst ?_
  intro a b h he
  rw [he] at h
  exact strLt_irrefl _ h

theorem pqAvgEntries_fst_nodup (bs : List Bar) :
    ((pqAvgEntries bs).map Prod.fst).Nodup := by
  refine (pqAvgEntries_pairwise_fst bs).map Prod.fst ?_
  intro a b h he
  rw [he] at h
  exact strLt_irrefl _ h

/-- C7: on both backends, `averageDailyVolume` yields one entry per
stored ticker — the symbols are pairwise distinct and a pair (s, v)
appears exactly when some stored row carries symbol s and v is the mean
of s's stored volumes truncated to an integer — and the entries are
sorted by volume descending with ties broken by symbol ascending (the
descending sort is stable and the groups arrive in ascending symbol
order, so ties stay in ascending symbol order). -/
theorem C7_avg_daily_volume (tickers : List TickerRow) (prices : List PriceRow)
    (bs : List Bar) :
    List.Sorted volLexLe (get_avg_daily_volume tickers prices) ∧
    ((get_avg_daily_volume tickers prices).map Prod.fst).Nodup ∧
    (∀ s v, (s, v) ∈ get_avg_daily_volume tickers prices ↔
      ((∃ r ∈ sqJoin tickers prices, r.symbol = s) ∧
        v = truncMean (((sqJoin tickers prices).filter
          (fun r => r.symbol == s)).map (fun r => r.volume)))) ∧
    (∃ out, get_avg_daily_volume_parquet (some bs) = Except.ok out ∧
      List.Sorted volLexLe out ∧
      (out.map Prod.fst).Nodup ∧
      (∀ s v, (s, v) ∈ out ↔
        ((∃ b ∈ bs, b.ticker = s) ∧
          v = truncMean ((bs.filter (fun b => b.ticker == s)).map
            (fun b => b.volume))))) := by
  refine ⟨?_, ?_, ?_, List.insertionSort volDescLe (pqAvgEntries bs), rfl, ?_, ?_, ?_⟩
  · rw [get_avg_daily_volume]
    exact insertionSort_volDesc_lex (avgEntries_pairwise_fst _)
  · rw [get_avg_daily_volume]
    exact (((List.perm_insertionSort volDescLe _).map Prod.fst).nodup_iff).mpr
      (avgEntries_fst_nodup _)
  · intro s v
    rw [get_avg_daily_volume, (List.perm_insertionSort volDescLe _).mem_iff]
    exact avgEntries_mem _ s v
  · exact insertionSort_volDesc_lex (pqAvgEntries_pairwise_fst bs)
  · exact (((List.perm_insertionSort volDescLe _).map Prod.fst).nodup_iff).mpr
      (pqAvgEntries_fst_nodup bs)
  · intro s v
    rw [(List.perm_insertionSort volDescLe _).mem_iff]
    exact pqAvgEntries_mem bs s v

/-- C2 counterexample: the zero-first-open guard exists only on the
columnar backend.  With ticker A rising from open 100 to close 110 and
ticker Z whose first open is 0, both backends report (A, 10.00), but the
relational query KEEPS Z as a row with a NULL return (SQLite division by
zero yields NULL, and there is no exclusion filter) while the columnar
query excludes Z — so the claimed exclusion fails on the relational
backend, and with it the two backends disagree. -/
theorem C2_counterexample_sqlite_keeps_zero_open :
    get_top_tickers_by_return
        [⟨1, "A", "A Inc", "N"⟩, ⟨2, "Z", "Z Inc", "N"⟩]
        [⟨⟨1, 1⟩, 1, 100, 100, 100, 100, 10⟩, ⟨⟨1, 2⟩, 1, 100, 110, 100, 110, 10⟩,
         ⟨⟨1, 1⟩, 2, 0, 0, 0, 5, 10⟩]
        ⟨1, 0⟩ ⟨2, 0⟩ 10 = [("A", some 10), ("Z", none)] ∧
    get_top_tickers_by_return_parquet
        (some [⟨"A", ⟨1, 1⟩, 100, 100, 100, 100, 10⟩,
          ⟨"A", ⟨1, 2⟩, 100, 110, 100, 110, 10⟩, ⟨"Z", ⟨1, 1⟩, 0, 0, 0, 5, 10⟩])
        ⟨1, 0⟩ ⟨2, 0⟩ 10 = Except.ok [("A", some 10)] :=
  ⟨by decide, by rfl⟩

/-- C2 (amended): whenever no two in-period rows of one ticker share a
timestamp, each backend computes, per ticker with in-period rows, the
return `(lastClose − firstOpen) / firstOpen × 100` of the earliest open
and latest close, rounds it to 2 decimals, sorts descending and truncates
to the top n — but they treat a non-positive first open differently: the
relational backend keeps every such ticker as a row (NULL return on a
zero first open, computed return on a negative one; NULLs sort last),
while the columnar backend excludes a ticker exactly when its first open
is ≤ 0. -/
theorem C2_top_returns_amended (tickers : List TickerRow) (prices : List PriceRow)
    (bs : List Bar) (s e : Ts) (n : ℕ)
    (hN : ((periodPrices prices s e).map (fun p => (p.tid, p.ts))).Nodup)
    (hK : ((bs.filter (barRange s e)).map (fun b => (b.ticker, b.ts))).Nodup) :
    (get_top_tickers_by_return tickers prices s e n =
      (List.insertionSort retDescLe
        (sqliteTopSpecRows tickers (periodPrices prices s e))).take n) ∧
    (∀ ep : ℚ, sqliteRet 0 ep = none) ∧
    (∀ sp ep : ℚ, sp ≠ 0 → sqliteRet sp ep = some (round2_sqlite (retValue sp ep))) ∧
    List.Sorted retDescLe (get_top_tickers_by_return tickers prices s e n) ∧
    (get_top_tickers_by_return_parquet (some bs) s e n =
      Except.ok ((List.insertionSort retDescLe
        (pqTopSpecRows (bs.filter (barRange s e)))).take n)) ∧
    (∀ out, get_top_tickers_by_return_parquet (some bs) s e n = Except.ok out →
      List.Sorted retDescLe out) ∧
    (∀ t fb lb, earliestBar (barsOf (bs.filter (barRange s e)) t) = some fb →
      latestBar (barsOf (bs.filter (barRange s e)) t) = some lb →
      0 < fb.open_ →
      (t, some (round2_py (retValue fb.open_ lb.close))) ∈
        pqTopSpecRows (bs.filter (barRange s e))) ∧
    (∀ t fb, earliestBar (barsOf (bs.filter (barRange s e)) t) = some fb →
      fb.open_ ≤ 0 →
      ∀ v, (t, v) ∉ pqTopSpecRows (bs.filter (barRange s e))) := by
  refine ⟨get_top_sqlite_spec tickers prices s e n hN,
    fun ep => by rw [sqliteRet, if_pos rfl],
    fun sp ep hsp => by rw [sqliteRet, if_neg hsp, retValue],
    ?_, get_top_parquet_spec bs s e n hK, ?_, ?_, ?_⟩
  · rw [get_top_sqlite_spec tickers prices s e n hN]
    exact List.Pairwise.sublist (List.take_sublist n _)
      (List.sorted_insertionSort retDescLe _)
  · intro out hout
    rw [get_top_parquet_spec bs s e n hK] at hout
    have hq := Except.ok.inj hout
    rw [← hq]
    exact List.Pairwise.sublist (List.take_sublist n _)
      (List.sorted_insertionSort retDescLe _)
  · intro t fb lb hfb hlb hpos
    have hne : barsOf (bs.filter (barRange s e)) t ≠ [] := by
      intro h
      rw [earliestBar_eq_none_iff.mpr h] at hfb
      exact Option.noConfusion hfb
    obtain ⟨b, hb⟩ := List.exists_mem_of_ne_nil _ hne
    have hbt : b.ticker = t := by
      simpa using (List.mem_filter.mp hb).2
    have ht : t ∈ uniqueFirst ((bs.filter (barRange s e)).map (fun b => b.ticker)) :=
      uniqueFirst_mem.mpr (List.mem_map.mpr ⟨b, (List.mem_filter.mp hb).1, hbt⟩)
    rw [pqTopSpecRows, List.mem_filterMap]
    refine ⟨t, ht, ?_⟩
    simp only [hfb, hlb]
    rw [if_pos hpos]
  · intro t fb hfb hle v hv
    rw [pqTopSpecRows, List.mem_filterMap] at hv
    obtain ⟨k, hk, hfk⟩ := hv
    rcases he : earliestBar (barsOf (bs.filter (barRange s e)) k) with _ | fb'
    · simp only [he] at hfk
      exact Option.noConfusion hfk
    · rcases hl : latestBar (barsOf (bs.filter (barRange s e)) k) with _ | lb'
      · simp only [he, hl] at hfk
        exact Option.noConfusion hfk
      · simp only [he, hl] at hfk
        by_cases hp : 0 < fb'.open_
        · rw [if_pos hp] at hfk
          simp only [Option.some.injEq, Prod.mk.injEq] at hfk
          obtain ⟨hkt, -⟩ := hfk
          subst hkt
          obtain rfl : fb' = fb := Option.some.inj (he.symm.trans hfb)
          exact absurd hp (not_lt.mpr hle)
        · rw [if_neg hp] at hfk
          exact Option.noConfusion hfk

/-- C2 witness: on the two-ticker store of the counterexample the
distinct-timestamp hypotheses hold and the relational query equals the
sorted-truncated spec-side row set. -/
theorem C2_top_returns_amended_witness :
    get_top_tickers_by_return
        [⟨1, "A", "A Inc", "N"⟩, ⟨2, "Z", "Z Inc", "N"⟩]
        [⟨⟨1, 1⟩, 1, 100, 100, 100, 100, 10⟩, ⟨⟨1, 2⟩, 1, 100, 110, 100, 110, 10⟩,
         ⟨⟨1, 1⟩, 2, 0, 0, 0, 5, 10⟩]
        ⟨1, 0⟩ ⟨2, 0⟩ 10 =
      (List.insertionSort retDescLe
        (sqliteTopSpecRows [⟨1, "A", "A Inc", "N"⟩, ⟨2, "Z", "Z Inc", "N"⟩]
          (periodPrices
            [⟨⟨1, 1⟩, 1, 100, 100, 100, 100, 10⟩, ⟨⟨1, 2⟩, 1, 100, 110, 100, 110, 10⟩,
             ⟨⟨1, 1⟩, 2, 0, 0, 0, 5, 10⟩] ⟨1, 0⟩ ⟨2, 0⟩))).take 10 :=
  (C2_top_returns_amended
    [⟨1, "A", "A Inc", "N"⟩, ⟨2, "Z", "Z Inc", "N"⟩]
    [⟨⟨1, 1⟩, 1, 100, 100, 100, 100, 10⟩, ⟨⟨1, 2⟩, 1, 100, 110, 100, 110, 10⟩,
     ⟨⟨1, 1⟩, 2, 0, 0, 0, 5, 10⟩]
    [⟨"A", ⟨1, 1⟩, 100, 100, 100, 100, 10⟩, ⟨"A", ⟨1, 2⟩, 100, 110, 100, 110, 10⟩,
     ⟨"Z", ⟨1, 1⟩, 0, 0, 0, 5, 10⟩]
    ⟨1, 0⟩ ⟨2, 0⟩ 10 (by decide) (by decide)).1

theorem find?_congr_mem {α : Type} {p q : α → Bool} :
    ∀ {l : List α}, (∀ a ∈ l, p a = q a) → l.find? p = l.find? q := by
  intro l
  induction l with
  | nil => intro _; rfl
  | cons a t ih =>
    intro h
    rw [List.find?_cons, List.find?_cons, h a (List.mem_cons_self a t)]
    cases q a with
    | true => rfl
    | false => exact ih (fun x hx => h x (List.mem_cons_of_mem a hx))

theorem earliestP_map_barToPrice (tid : ℕ) (l : List Bar) :
    earliestP (l.map (fun b => barToPrice tid b)) =
      (earliestBar l).map (fun b => barToPrice tid b) := by
  rw [earliestP, earliestBar, List.find?_map]
  congr 1
  apply find?_congr_mem
  intro b _
  simp only [Function.comp_apply]
  rw [Bool.eq_iff_iff]
  simp only [List.all_eq_true, List.forall_mem_map, decide_eq_true_eq]
  exact Iff.rfl

theorem latestP_map_barToPrice (tid : ℕ) (l : List Bar) :
    latestP (l.map (fun b => barToPrice tid b)) =
      (latestBar l).map (fun b => barToPrice tid b) := by
  rw [latestP, latestBar, List.find?_map]
  congr 1
  apply find?_congr_mem
  intro b _
  simp only [Function.comp_apply]
  rw [Bool.eq_iff_iff]
  simp only [List.all_eq_true, List.forall_mem_map, decide_eq_true_eq]
  exact Iff.rfl

theorem earliestBar_perm {l l' : List Bar} (hp : List.Perm l l')
    (hts : (l.map (fun b => b.ts)).Nodup) :
    earliestBar l = earliestBar l' := by
  cases he : earliestBar l with
  | none =>
    rw [earliestBar_eq_none_iff.mp he] at hp
    rw [earliestBar_eq_none_iff.mpr (List.Perm.eq_nil hp.symm)]
  | some fb =>
    obtain ⟨hmem, hmin⟩ := earliestBar_spec he
    cases he' : earliestBar l' with
    | none =>
      rw [earliestBar_eq_none_iff.mp he'] at hp
      rw [List.Perm.eq_nil hp] at hmem
      exact absurd hmem (List.not_mem_nil fb)
    | some fb' =>
      obtain ⟨hmem', hmin'⟩ := earliestBar_spec he'
      have h1 : fb.ts ≤ fb'.ts := hmin fb' (hp.mem_iff.mpr hmem')
      have h2 : fb'.ts ≤ fb.ts := hmin' fb (hp.mem_iff.mp hmem)
      rw [List.inj_on_of_nodup_map hts hmem (hp.mem_iff.mpr hmem') (le_antisymm h1 h2)]

theorem latestBar_perm {l l' : List Bar} (hp : List.Perm l l')
    (hts : (l.map (fun b => b.ts)).Nodup) :
    latestBar l = latestBar l' := by
  cases he : latestBar l with
  | none =>
    rw [latestBar_eq_none_iff.mp he] at hp
    rw [latestBar_eq_none_iff.mpr (List.Perm.eq_nil hp.symm)]
  | some lb =>
    obtain ⟨hmem, hmax⟩ := latestBar_spec he
    cases he' : latestBar l' with
    | none =>
      rw [latestBar_eq_none_iff.mp he'] at hp
      rw [List.Perm.eq_nil hp] at hmem
      exact absurd hmem (List.not_mem_nil lb)
    | some lb' =>
      obtain ⟨hmem', hmax'⟩ := latestBar_spec he'
      have h1 : lb'.ts ≤ lb.ts := hmax lb' (hp.mem_iff.mpr hmem')
      have h2 : lb.ts ≤ lb'.ts := hmax' lb (hp.mem_iff.mp hmem)
      rw [List.inj_on_of_nodup_map hts hmem (hp.mem_iff.mpr hmem') (le_antisymm h2 h1)]

theorem import_filter_tid_q (tickers : List TickerRow) (q : Ts → Bool)
    (hTid : (tickers.map (fun tk => tk.tid)).Nodup)
    (hSym : (tickers.map (fun tk => tk.symbol)).Nodup)
    {tk : TickerRow} (htk : tk ∈ tickers) :
    ∀ (bars : List Bar), (∀ b ∈ bars, ∃ t ∈ tickers, t.symbol = b.ticker) →
      ((import_prices_clean tickers bars).1).filter
          (fun p => p.tid == tk.tid && q p.ts) =
        (bars.filter (fun b => b.ticker == tk.symbol && q b.ts)).map
          (fun b => barToPrice tk.tid b) := by
  intro bars
  induction bars with
  | nil => intro _; rfl
  | cons b bs ih =>
    intro hOrph
    obtain ⟨t', ht'_mem, ht'_sym, ht'_map⟩ :=
      symbolMap_spec (hOrph b (List.mem_cons_self b bs))
    have hrows : (import_prices_clean tickers (b :: bs)).1 =
        barToPrice t'.tid b :: (import_prices_clean tickers bs).1 := by
      show List.filterMap (fun p => Option.map (fun i => barToPrice i p.1) p.2)
          ((b, symbolMap tickers b.ticker) ::
            bs.map (fun x => (x, symbolMap tickers x.ticker))) =
        barToPrice t'.tid b ::
          List.filterMap (fun p => Option.map (fun i => barToPrice i p.1) p.2)
            (bs.map (fun x => (x, symbolMap tickers x.ticker)))
      rw [List.filterMap_cons, ht'_map]
      rfl
    have hih := ih (fun x hx => hOrph x (List.mem_cons_of_mem b hx))
    rw [hrows, List.filter_cons, List.filter_cons]
    by_cases hbt : b.ticker = tk.symbol
    · have ht'tk : t' = tk :=
        List.inj_on_of_nodup_map hSym ht'_mem htk (by rw [ht'_sym, hbt])
      subst ht'tk
      by_cases hq : q b.ts = true
      · rw [if_pos (by simp [barToPrice, hq]), if_pos (by simp [hbt, hq]),
          List.map_cons, hih]
      · rw [if_neg (by simp [barToPrice, hq]), if_neg (by simp [hbt, hq]), hih]
    · have ht'ne : t' ≠ tk := fun h => hbt (by rw [← ht'_sym, h])
      have htid_ne : t'.tid ≠ tk.tid := fun h =>
        ht'ne (List.inj_on_of_nodup_map hTid ht'_mem htk h)
      rw [if_neg (by simp [barToPrice, htid_ne]), if_neg (by simp [hbt]), hih]

theorem rowsOfTid_period_import (tickers : List TickerRow) (bars : List Bar) (s e : Ts)
    (hTid : (tickers.map (fun tk => tk.tid)).Nodup)
    (hSym : (tickers.map (fun tk => tk.symbol)).Nodup)
    (hOrph : ∀ b ∈ bars, ∃ t ∈ tickers, t.symbol = b.ticker)
    {tk : TickerRow} (htk : tk ∈ tickers) :
    rowsOfTid (periodPrices (import_prices_clean tickers bars).1 s e) tk.tid =
      ((bars.filter (barRange s e)).filter (fun b => b.ticker == tk.symbol)).map
        (fun b => barToPrice tk.tid b) := by
  have h1 : rowsOfTid (periodPrices (import_prices_clean tickers bars).1 s e) tk.tid =
      ((import_prices_clean tickers bars).1).filter
        (fun p => p.tid == tk.tid && inRangeP s e p) := by
    rw [rowsOfTid, periodPrices, List.filter_filter]
  have h2 : ((import_prices_clean tickers bars).1).filter
      (fun p => p.tid == tk.tid && inRangeP s e p) =
        (bars.filter (fun b => b.ticker == tk.symbol && barRange s e b)).map
          (fun b => barToPrice tk.tid b) :=
    import_filter_tid_q tickers (fun ts => decide (s ≤ ts) && decide (ts ≤ e))
      hTid hSym htk bars hOrph
  have h3 : (bars.filter (barRange s e)).filter (fun b => b.ticker == tk.symbol) =
      bars.filter (fun b => b.ticker == tk.symbol && barRange s e b) := by
    rw [List.filter_filter]
  rw [h1, h2, h3]

theorem rowsOfTidDay_import (tickers : List TickerRow) (bars : List Bar)
    (hTid : (tickers.map (fun tk => tk.tid)).Nodup)
    (hSym : (tickers.map (fun tk => tk.symbol)).Nodup)
    (hOrph : ∀ b ∈ bars, ∃ t ∈ tickers, t.symbol = b.ticker)
    {tk : TickerRow} (htk : tk ∈ tickers) (day : ℕ) :
    rowsOfTidDay (import_prices_clean tickers bars).1 tk.tid day =
      (bars.filter (fun b => b.ticker == tk.symbol && b.ts.day == day)).map
        (fun b => barToPrice tk.tid b) :=
  import_filter_tid_q tickers (fun ts => ts.day == day) hTid hSym htk bars hOrph

theorem sublist_ts_nodup {bars l : List Bar}
    (hKey : (bars.map (fun b => (b.ticker, b.ts))).Nodup)
    (hsub : l.Sublist bars) {sym : String}
    (hconst : ∀ b ∈ l, b.ticker = sym) :
    (l.map (fun b => b.ts)).Nodup := by
  have hN : (l.map (fun b => (b.ticker, b.ts))).Nodup :=
    List.Nodup.sublist (List.Sublist.map _ hsub) hKey
  exact map_ts_nodup_of_const_ticker hN hconst

theorem import_mem {tickers : List TickerRow} {bars : List Bar} {p : PriceRow}
    (hp : p ∈ (import_prices_clean tickers bars).1) :
    ∃ b ∈ bars, ∃ i, symbolMap tickers b.ticker = some i ∧ p = barToPrice i b := by
  have hp' : p ∈ List.filterMap (fun q => Option.map (fun i => barToPrice i q.1) q.2)
      (bars.map (fun b => (b, symbolMap tickers b.ticker))) := hp
  obtain ⟨q, hq, hfq⟩ := List.mem_filterMap.mp hp'
  obtain ⟨b, hb, rfl⟩ := List.mem_map.mp hq
  cases hi : symbolMap tickers b.ticker with
  | none =>
    rw [show (b, symbolMap tickers b.ticker).2 = symbolMap tickers b.ticker from rfl,
      hi] at hfq
    exact Option.noConfusion hfq
  | some i =>
    rw [show (b, symbolMap tickers b.ticker).2 = symbolMap tickers b.ticker from rfl,
      hi, Option.map_some'] at hfq
    exact ⟨b, hb, i, hi, (Option.some.inj hfq).symm⟩

theorem import_keys_nodup (tickers : List TickerRow)
    (hTid : (tickers.map (fun tk => tk.tid)).Nodup) :
    ∀ (bars : List Bar), (∀ b ∈ bars, ∃ t ∈ tickers, t.symbol = b.ticker) →
      (bars.map (fun b => (b.ticker, b.ts))).Nodup →
      ((import_prices_clean tickers bars).1.map (fun p => (p.tid, p.ts))).Nodup := by
  intro bars
  induction bars with
  | nil =>
    intro _ _
    exact List.nodup_nil
  | cons b bs ih =>
    intro hOrph hKey
    obtain ⟨t', ht'_mem, ht'_sym, ht'_map⟩ :=
      symbolMap_spec (hOrph b (List.mem_cons_self b bs))
    have hrows : (import_prices_clean tickers (b :: bs)).1 =
        barToPrice t'.tid b :: (import_prices_clean tickers bs).1 := by
      show List.filterMap (fun p => Option.map (fun i => barToPrice i p.1) p.2)
          ((b, symbolMap tickers b.ticker) ::
            bs.map (fun x => (x, symbolMap tickers x.ticker))) =
        barToPrice t'.tid b ::
          List.filterMap (fun p => Option.map (fun i => barToPrice i p.1) p.2)
            (bs.map (fun x => (x, symbolMap tickers x.ticker)))
      rw [List.filterMap_cons, ht'_map]
      rfl
    rw [hrows, List.map_cons, List.nodup_cons]
    have hKeyHead := (List.nodup_cons.mp hKey).1
    have hKeyTail := (List.nodup_cons.mp hKey).2
    refine ⟨?_, ih (fun x hx => hOrph x (List.mem_cons_of_mem b hx)) hKeyTail⟩
    intro hmem
    obtain ⟨q, hq, hqk⟩ := List.mem_map.mp hmem
    obtain ⟨x, hx, i', hi', rfl⟩ := import_mem hq
    have hii : i' = t'.tid := congrArg Prod.fst hqk
    have hts : x.ts = b.ts := congrArg Prod.snd hqk
    obtain ⟨t₂, ht₂_mem, ht₂_sym, ht₂_tid⟩ := symbolMap_eq_some_spec hi'
    have ht₂t' : t₂ = t' :=
      List.inj_on_of_nodup_map hTid ht₂_mem ht'_mem (by rw [ht₂_tid, hii])
    have htick : x.ticker = b.ticker := by rw [← ht₂_sym, ht₂t', ht'_sym]
    exact hKeyHead (List.mem_map.mpr ⟨x, hx, by rw [htick, hts]⟩)

theorem filterMap_fst_nodup {α β γ : Type} (f : α → Option (γ × β)) (key : α → γ) :
    ∀ (l : List α), (l.map key).Nodup →
      (∀ a ∈ l, ∀ p, f a = some p → p.1 = key a) →
      ((l.filterMap f).map Prod.fst).Nodup := by
  intro l
  induction l with
  | nil =>
    intro _ _
    exact List.nodup_nil
  | cons a t ih =>
    intro hkey hf
    rw [List.filterMap_cons]
    have hka := (List.nodup_cons.mp hkey).1
    have hkt := (List.nodup_cons.mp hkey).2
    cases hfa : f a with
    | none => exact ih hkt (fun x hx => hf x (List.mem_cons_of_mem a hx))
    | some p =>
      rw [List.map_cons, List.nodup_cons]
      refine ⟨?_, ih hkt (fun x hx => hf x (List.mem_cons_of_mem a hx))⟩
      intro hmem
      obtain ⟨q, hq, hq1⟩ := List.mem_map.mp hmem
      obtain ⟨x, hx, hfx⟩ := List.mem_filterMap.mp hq
      have h1 : q.1 = key x := hf x (List.mem_cons_of_mem a hx) q hfx
      have h2 : p.1 = key a := hf a (List.mem_cons_self a t) p hfa
      apply hka
      rw [← h2, ← hq1, h1]
      exact List.mem_map.mpr ⟨x, hx, rfl⟩

theorem sqliteTopSpecRows_import_mem (tickers : List TickerRow) (bars : List Bar)
    (s e : Ts)
    (hTid : (tickers.map (fun tk => tk.tid)).Nodup)
    (hSym : (tickers.map (fun tk => tk.symbol)).Nodup)
    (hOrph : ∀ b ∈ bars, ∃ t ∈ tickers, t.symbol = b.ticker)
    (sym : String) (v : Option ℚ) :
    (sym, v) ∈ sqliteTopSpecRows tickers
        (periodPrices (import_prices_clean tickers bars).1 s e) ↔
      ((∃ tk ∈ tickers, tk.symbol = sym) ∧
        ∃ fb lb,
          earliestBar ((bars.filter (barRange s e)).filter
            (fun b => b.ticker == sym)) = some fb ∧
          latestBar ((bars.filter (barRange s e)).filter
            (fun b => b.ticker == sym)) = some lb ∧
          v = sqliteRet fb.open_ lb.close) := by
  rw [sqliteTopSpecRows, List.mem_filterMap]
  constructor
  · rintro ⟨tk, htk, hf⟩
    have he1 : earliestP (rowsOfTid
        (periodPrices (import_prices_clean tickers bars).1 s e) tk.tid) =
        (earliestBar ((bars.filter (barRange s e)).filter
          (fun b => b.ticker == tk.symbol))).map (fun b => barToPrice tk.tid b) := by
      rw [rowsOfTid_period_import tickers bars s e hTid hSym hOrph htk,
        earliestP_map_barToPrice]
    have he2 : latestP (rowsOfTid
        (periodPrices (import_prices_clean tickers bars).1 s e) tk.tid) =
        (latestBar ((bars.filter (barRange s e)).filter
          (fun b => b.ticker == tk.symbol))).map (fun b => barToPrice tk.tid b) := by
      rw [rowsOfTid_period_import tickers bars s e hTid hSym hOrph htk,
        latestP_map_barToPrice]
    rcases hfb : earliestBar ((bars.filter (barRange s e)).filter
        (fun b => b.ticker == tk.symbol)) with _ | fb
    · simp only [he1, hfb, Option.map_none'] at hf
      exact Option.noConfusion hf
    · rcases hlb : latestBar ((bars.filter (barRange s e)).filter
          (fun b => b.ticker == tk.symbol)) with _ | lb
      · simp only [he1, he2, hfb, hlb, Option.map_none', Option.map_some'] at hf
        exact Option.noConfusion hf
      · simp only [he1, he2, hfb, hlb, Option.map_some'] at hf
        simp only [Option.some.injEq, Prod.mk.injEq] at hf
        obtain ⟨hsym, hv⟩ := hf
        subst hsym
        exact ⟨⟨tk, htk, rfl⟩, fb, lb, hfb, hlb, hv.symm⟩
  · rintro ⟨⟨tk, htk, hsym⟩, fb, lb, hfb, hlb, hv⟩
    subst hsym
    refine ⟨tk, htk, ?_⟩
    have he1 : earliestP (rowsOfTid
        (periodPrices (import_prices_clean tickers bars).1 s e) tk.tid) =
        (earliestBar ((bars.filter (barRange s e)).filter
          (fun b => b.ticker == tk.symbol))).map (fun b => barToPrice tk.tid b) := by
      rw [rowsOfTid_period_import tickers bars s e hTid hSym hOrph htk,
        earliestP_map_barToPrice]
    have he2 : latestP (rowsOfTid
        (periodPrices (import_prices_clean tickers bars).1 s e) tk.tid) =
        (latestBar ((bars.filter (barRange s e)).filter
          (fun b => b.ticker == tk.symbol))).map (fun b => barToPrice tk.tid b) := by
      rw [rowsOfTid_period_import tickers bars s e hTid hSym hOrph htk,
        latestP_map_barToPrice]
    simp only [he1, he2, hfb, hlb, Option.map_some']
    exact congrArg (fun w => some (tk.symbol, w)) hv.symm

theorem pqTopSpecRows_init_mem (bars : List Bar) (s e : Ts)
    (hKey : (bars.map (fun b => (b.ticker, b.ts))).Nodup)
    (sym : String) (v : Option ℚ) :
    (sym, v) ∈ pqTopSpecRows ((init_parquet_bars bars).filter (barRange s e)) ↔
      ∃ fb lb,
        earliestBar ((bars.filter (barRange s e)).filter
          (fun b => b.ticker == sym)) = some fb ∧
        latestBar ((bars.filter (barRange s e)).filter
          (fun b => b.ticker == sym)) = some lb ∧
        0 < fb.open_ ∧ v = some (round2_py (retValue fb.open_ lb.close)) := by
  have hpq : List.Perm (init_parquet_bars bars) bars :=
    List.perm_insertionSort barLoadLe bars
  have hKeyP : ((init_parquet_bars bars).map (fun b => (b.ticker, b.ts))).Nodup :=
    ((hpq.map _).nodup_iff).mpr hKey
  have hgp : ∀ t : String, List.Perm
      (barsOf ((init_parquet_bars bars).filter (barRange s e)) t)
      ((bars.filter (barRange s e)).filter (fun b => b.ticker == t)) := by
    intro t
    exact List.Perm.filter (fun b => b.ticker == t)
      (List.Perm.filter (barRange s e) hpq)
  have hgts : ∀ t : String,
      ((barsOf ((init_parquet_bars bars).filter (barRange s e)) t).map
        (fun b => b.ts)).Nodup := by
    intro t
    refine @sublist_ts_nodup (init_parquet_bars bars) _ hKeyP
      ((List.filter_sublist _).trans (List.filter_sublist _)) t ?_
    intro b hb
    simpa using (List.mem_filter.mp hb).2
  have hE : ∀ t : String,
      earliestBar (barsOf ((init_parquet_bars bars).filter (barRange s e)) t) =
        earliestBar ((bars.filter (barRange s e)).filter (fun b => b.ticker == t)) :=
    fun t => earliestBar_perm (hgp t) (hgts t)
  have hL : ∀ t : String,
      latestBar (barsOf ((init_parquet_bars bars).filter (barRange s e)) t) =
        latestBar ((bars.filter (barRange s e)).filter (fun b => b.ticker == t)) :=
    fun t => latestBar_perm (hgp t) (hgts t)
  rw [pqTopSpecRows, List.mem_filterMap]
  constructor
  · rintro ⟨t, ht, hf⟩
    rcases hfb : earliestBar ((bars.filter (barRange s e)).filter
        (fun b => b.ticker == t)) with _ | fb
    · simp only [hE t, hfb] at hf
      exact Option.noConfusion hf
    · rcases hlb : latestBar ((bars.filter (barRange s e)).filter
          (fun b => b.ticker == t)) with _ | lb
      · simp only [hE t, hL t, hfb, hlb] at hf
        exact Option.noConfusion hf
      · simp only [hE t, hL t, hfb, hlb] at hf
        by_cases hp : 0 < fb.open_
        · rw [if_pos hp] at hf
          simp only [Option.some.injEq, Prod.mk.injEq] at hf
          obtain ⟨hts, hv⟩ := hf
          subst hts
          exact ⟨fb, lb, hfb, hlb, hp, hv.symm⟩
        · rw [if_neg hp] at hf
          exact Option.noConfusion hf
  · rintro ⟨fb, lb, hfb, hlb, hp, hv⟩
    have hfmem : fb ∈ (bars.filter (barRange s e)).filter (fun b => b.ticker == sym) :=
      (earliestBar_spec hfb).1
    have hsymmem : sym ∈ uniqueFirst
        (((init_parquet_bars bars).filter (barRange s e)).map (fun b => b.ticker)) := by
      rw [uniqueFirst_mem]
      refine List.mem_map.mpr ⟨fb, ?_, by simpa using (List.mem_filter.mp hfmem).2⟩
      exact (List.mem_filter.mp (((hgp sym).mem_iff).mpr hfmem)).1
    refine ⟨sym, hsymmem, ?_⟩
    simp only [hE sym, hL sym, hfb, hlb]
    rw [if_pos hp, hv]

theorem topSpecRows_sort_eq (tickers : List TickerRow) (bars : List Bar) (s e : Ts)
    (hTid : (tickers.map (fun tk => tk.tid)).Nodup)
    (hSym : (tickers.map (fun tk => tk.symbol)).Nodup)
    (hOrph : ∀ b ∈ bars, ∃ t ∈ tickers, t.symbol = b.ticker)
    (hKey : (bars.map (fun b => (b.ticker, b.ts))).Nodup)
    (hPos : ∀ b ∈ bars, 0 < b.open_)
    (hRound : ∀ fb ∈ bars, ∀ lb ∈ bars,
      round2_sqlite (retValue fb.open_ lb.close) = round2_py (retValue fb.open_ lb.close))
    (hVals : ((sqliteTopSpecRows tickers
      (periodPrices (import_prices_clean tickers bars).1 s e)).map Prod.snd).Nodup) :
    List.insertionSort retDescLe (sqliteTopSpecRows tickers
        (periodPrices (import_prices_clean tickers bars).1 s e)) =
      List.insertionSort retDescLe
        (pqTopSpecRows ((init_parquet_bars bars).filter (barRange s e))) := by
  have hmemeq : ∀ a : String × Option ℚ,
      a ∈ sqliteTopSpecRows tickers
        (periodPrices (import_prices_clean tickers bars).1 s e) ↔
      a ∈ pqTopSpecRows ((init_parquet_bars bars).filter (barRange s e)) := by
    rintro ⟨sym, v⟩
    rw [sqliteTopSpecRows_import_mem tickers bars s e hTid hSym hOrph sym v,
      pqTopSpecRows_init_mem bars s e hKey sym v]
    constructor
    · rintro ⟨-, fb, lb, hfb, hlb, hv⟩
      have hfbbars : fb ∈ bars :=
        (List.mem_filter.mp (List.mem_filter.mp (earliestBar_spec hfb).1).1).1
      have hp : 0 < fb.open_ := hPos fb hfbbars
      have hlbbars : lb ∈ bars :=
        (List.mem_filter.mp (List.mem_filter.mp (latestBar_spec hlb).1).1).1
      refine ⟨fb, lb, hfb, hlb, hp, ?_⟩
      rw [hv, sqliteRet, if_neg (ne_of_gt hp)]
      show some (round2_sqlite (retValue fb.open_ lb.close)) = _
      rw [hRound fb hfbbars lb hlbbars]
    · rintro ⟨fb, lb, hfb, hlb, hp, hv⟩
      have hfbbars : fb ∈ bars :=
        (List.mem_filter.mp (List.mem_filter.mp (earliestBar_spec hfb).1).1).1
      have hlbbars : lb ∈ bars :=
        (List.mem_filter.mp (List.mem_filter.mp (latestBar_spec hlb).1).1).1
      have hfsym : fb.ticker = sym := by
        simpa using (List.mem_filter.mp (earliestBar_spec hfb).1).2
      obtain ⟨tk, htk, hs⟩ := hOrph fb hfbbars
      refine ⟨⟨tk, htk, by rw [hs, hfsym]⟩, fb, lb, hfb, hlb, ?_⟩
      rw [hv, sqliteRet, if_neg (ne_of_gt hp),
        show round2_sqlite ((lb.close - fb.open_) / fb.open_ * 100) =
          round2_sqlite (retValue fb.open_ lb.close) from rfl,
        hRound fb hfbbars lb hlbbars]
  have hSnodup : (sqliteTopSpecRows tickers
      (periodPrices (import_prices_clean tickers bars).1 s e)).Nodup :=
    List.Nodup.of_map _ hVals
  have hPfst : ((pqTopSpecRows
      ((init_parquet_bars bars).filter (barRange s e))).map Prod.fst).Nodup := by
    rw [pqTopSpecRows]
    refine filterMap_fst_nodup _ (fun t => t) _ ?_ ?_
    · rw [List.map_id']
      exact uniqueFirst_nodup _
    · intro t _ p hp
      rcases he : earliestBar (barsOf
          ((init_parquet_bars bars).filter (barRange s e)) t) with _ | fb
      · simp only [he] at hp
        exact Option.noConfusion hp
      · rcases hl : latestBar (barsOf
            ((init_parquet_bars bars).filter (barRange s e)) t) with _ | lb
        · simp only [he, hl] at hp
          exact Option.noConfusion hp
        · simp only [he, hl] at hp
          by_cases hpos : 0 < fb.open_
          · rw [if_pos hpos] at hp
            exact (congrArg Prod.fst (Option.some.inj hp)).symm
          · rw [if_neg hpos] at hp
            exact Option.noConfusion hp
  have hPnodup : (pqTopSpecRows
      ((init_parquet_bars bars).filter (barRange s e))).Nodup :=
    List.Nodup.of_map _ hPfst
  have hperm := (List.perm_ext_iff_of_nodup hSnodup hPnodup).mpr hmemeq
  refine eq_of_perm_of_sorted_antisymmOn ?_
    ((List.perm_insertionSort _ _).trans
      (hperm.trans (List.perm_insertionSort _ _).symm))
    (List.sorted_insertionSort _ _) (List.sorted_insertionSort _ _)
  intro a ha b hb hab hba
  have ha' : a ∈ sqliteTopSpecRows tickers
      (periodPrices (import_prices_clean tickers bars).1 s e) :=
    (List.perm_insertionSort _ _).subset ha
  have hb' : b ∈ sqliteTopSpecRows tickers
      (periodPrices (import_prices_clean tickers bars).1 s e) :=
    (List.perm_insertionSort _ _).subset hb
  have hsnd : a.2 = b.2 := by
    rcases a with ⟨sa, va⟩
    rcases b with ⟨sb, vb⟩
    show va = vb
    rcases va with _ | qa <;> rcases vb with _ | qb
    · rfl
    · exact (hab : optDescLe none (some qb)).elim
    · exact (hba : optDescLe none (some qa)).elim
    · have h1 : qb ≤ qa := hab
      have h2 : qa ≤ qb := hba
      rw [le_antisymm h2 h1]
  exact List.inj_on_of_nodup_map hVals ha' hb' hsnd

theorem truncMean_perm {l l' : List ℕ} (h : List.Perm l l') :
    truncMean l = truncMean l' := by
  rw [truncMean, truncMean, h.sum_eq, h.length_eq]

theorem range_query_eq (tickers : List TickerRow) (bars : List Bar) (t : String)
    (s e : Ts)
    (hTid : (tickers.map (fun tk => tk.tid)).Nodup)
    (hOrph : ∀ b ∈ bars, ∃ tk ∈ tickers, tk.symbol = b.ticker)
    (hKey : (bars.map (fun b => (b.ticker, b.ts))).Nodup)
    (hQ : ∃ b ∈ bars, b.ticker = t) :
    get_ticker_data_parquet (some (init_parquet_bars bars)) t s e =
      Except.ok (get_ticker_data tickers (import_prices_clean tickers bars).1 t s e) := by
  have hpq : List.Perm (init_parquet_bars bars) bars :=
    List.perm_insertionSort barLoadLe bars
  have hKeyP : ((init_parquet_bars bars).map (fun b => (b.ticker, b.ts))).Nodup :=
    ((hpq.map _).nodup_iff).mpr hKey
  have hpart : hasPartition (init_parquet_bars bars) t = true := by
    obtain ⟨b, hb, hbt⟩ := hQ
    rw [hasPartition, List.any_eq_true]
    exact ⟨b, hpq.mem_iff.mpr hb, by simpa using hbt⟩
  show Except.ok ((List.insertionSort barTsLe
      ((if hasPartition (init_parquet_bars bars) t then
          (init_parquet_bars bars).filter (fun b => b.ticker == t)
        else init_parquet_bars bars).filter (barRange s e))).map barToRangeRow) =
    Except.ok (get_ticker_data tickers (import_prices_clean tickers bars).1 t s e)
  rw [if_pos hpart]
  congr 1
  have hjoin := sqJoin_import tickers bars hTid hOrph
  have heq23 : ((bars.filter (fun b => b.ticker == t)).filter (barRange s e)) =
      bars.filter (fun b =>
        b.ticker == t && decide (s ≤ b.ts) && decide (b.ts ≤ e)) := by
    rw [List.filter_filter]
    refine List.filter_congr (fun b _ => ?_)
    rw [Bool.eq_iff_iff,
      show barRange s e b = (decide (s ≤ b.ts) && decide (b.ts ≤ e)) from rfl]
    simp only [Bool.and_eq_true, decide_eq_true_eq, beq_iff_eq]
    tauto
  have hB : get_ticker_data tickers (import_prices_clean tickers bars).1 t s e =
      List.insertionSort rowTsLe ((bars.filter (fun b =>
        b.ticker == t && decide (s ≤ b.ts) && decide (b.ts ≤ e))).map
          barToRangeRow) := by
    rw [get_ticker_data, hjoin, List.filter_map]
    rfl
  rw [hB]
  have p1 : List.Perm ((List.insertionSort barTsLe
      (((init_parquet_bars bars).filter (fun b => b.ticker == t)).filter
        (barRange s e))).map barToRangeRow)
      ((((init_parquet_bars bars).filter (fun b => b.ticker == t)).filter
        (barRange s e)).map barToRangeRow) :=
    List.Perm.map barToRangeRow (List.perm_insertionSort barTsLe _)
  have p2 : List.Perm ((((init_parquet_bars bars).filter (fun b => b.ticker == t)).filter
      (barRange s e)).map barToRangeRow)
      (((bars.filter (fun b => b.ticker == t)).filter (barRange s e)).map
        barToRangeRow) :=
    List.Perm.map barToRangeRow
      (List.Perm.filter (barRange s e) (List.Perm.filter (fun b => b.ticker == t) hpq))
  have p4 : List.Perm (List.insertionSort rowTsLe ((bars.filter (fun b =>
      b.ticker == t && decide (s ≤ b.ts) && decide (b.ts ≤ e))).map barToRangeRow))
      ((bars.filter (fun b =>
        b.ticker == t && decide (s ≤ b.ts) && decide (b.ts ≤ e))).map
          barToRangeRow) :=
    List.perm_insertionSort rowTsLe _
  have hAB := (p1.trans (heq23 ▸ p2)).trans p4.symm
  refine eq_of_perm_of_sorted_antisymmOn ?_ hAB
    (List.Pairwise.map barToRangeRow (fun a b (h : barTsLe a b) => h)
      (List.sorted_insertionSort barTsLe _))
    (List.sorted_insertionSort rowTsLe _)
  intro a ha b hb hab hba
  obtain ⟨ba, hba_mem, rfl⟩ := List.mem_map.mp (p1.subset ha)
  obtain ⟨bb, hbb_mem, rfl⟩ := List.mem_map.mp (p1.subset hb)
  have hbap : ba ∈ init_parquet_bars bars :=
    (List.mem_filter.mp (List.mem_filter.mp hba_mem).1).1
  have hbbp : bb ∈ init_parquet_bars bars :=
    (List.mem_filter.mp (List.mem_filter.mp hbb_mem).1).1
  have hta : ba.ticker = t := by
    simpa using (List.mem_filter.mp (List.mem_filter.mp hba_mem).1).2
  have htb : bb.ticker = t := by
    simpa using (List.mem_filter.mp (List.mem_filter.mp hbb_mem).1).2
  have htseq : ba.ts = bb.ts := le_antisymm hab hba
  have : ba = bb := List.inj_on_of_nodup_map hKeyP hbap hbbp
    (by rw [hta, htb, htseq])
  rw [this]

theorem avg_query_eq (tickers : List TickerRow) (bars : List Bar)
    (hTid : (tickers.map (fun tk => tk.tid)).Nodup)
    (hOrph : ∀ b ∈ bars, ∃ tk ∈ tickers, tk.symbol = b.ticker) :
    get_avg_daily_volume_parquet (some (init_parquet_bars bars)) =
      Except.ok (get_avg_daily_volume tickers (import_prices_clean tickers bars).1) := by
  have hpq : List.Perm (init_parquet_bars bars) bars :=
    List.perm_insertionSort barLoadLe bars
  show Except.ok (List.insertionSort volDescLe (pqAvgEntries (init_parquet_bars bars))) =
    Except.ok (get_avg_daily_volume tickers (import_prices_clean tickers bars).1)
  congr 1
  have hjoin := sqJoin_import tickers bars hTid hOrph
  rw [get_avg_daily_volume, hjoin]
  congr 1
  have hkeys : List.insertionSort symLe
      (uniqueFirst ((init_parquet_bars bars).map (fun b => b.ticker))) =
      List.insertionSort symLe
        (uniqueFirst ((bars.map barToRangeRow).map (fun r => r.symbol))) := by
    have hmem : ∀ x : String,
        x ∈ uniqueFirst ((init_parquet_bars bars).map (fun b => b.ticker)) ↔
        x ∈ uniqueFirst ((bars.map barToRangeRow).map (fun r => r.symbol)) := by
      intro x
      rw [uniqueFirst_mem, uniqueFirst_mem, List.map_map,
        (hpq.map (fun b => b.ticker)).mem_iff]
      rfl
    have hperm := (List.perm_ext_iff_of_nodup
      (uniqueFirst_nodup _) (uniqueFirst_nodup _)).mpr hmem
    refine eq_of_perm_of_sorted_antisymmOn ?_
      ((List.perm_insertionSort _ _).trans
        (hperm.trans (List.perm_insertionSort _ _).symm))
      (List.sorted_insertionSort _ _) (List.sorted_insertionSort _ _)
    intro a _ b _ hab hba
    exact strLe_antisymm hab hba
  rw [pqAvgEntries, avgEntries, groupSyms, hkeys]
  refine List.map_congr_left (fun x _ => ?_)
  have hvols : List.Perm (((init_parquet_bars bars).filter
      (fun b => b.ticker == x)).map (fun b => b.volume))
      (((bars.map barToRangeRow).filter (fun r => r.symbol == x)).map
        (fun r => r.volume)) := by
    rw [List.filter_map, List.map_map]
    exact List.Perm.map (fun b => b.volume)
      (List.Perm.filter (fun b => b.ticker == x) hpq)
  rw [truncMean_perm hvols]

theorem filterMap_map_nodup {α β γ : Type} (f : α → Option β) (key : β → γ) :
    ∀ (l : List α), l.Nodup →
      (∀ a₁ ∈ l, ∀ a₂ ∈ l, ∀ b₁ b₂, f a₁ = some b₁ → f a₂ = some b₂ →
        key b₁ = key b₂ → a₁ = a₂) →
      ((l.filterMap f).map key).Nodup := by
  intro l
  induction l with
  | nil =>
    intro _ _
    exact List.nodup_nil
  | cons a t ih =>
    intro hnd hinj
    have hat := (List.nodup_cons.mp hnd).1
    have hnt := (List.nodup_cons.mp hnd).2
    rw [List.filterMap_cons]
    cases hfa : f a with
    | none =>
      exact ih hnt (fun x hx y hy => hinj x (List.mem_cons_of_mem a hx)
        y (List.mem_cons_of_mem a hy))
    | some b =>
      rw [List.map_cons, List.nodup_cons]
      refine ⟨?_, ih hnt (fun x hx y hy => hinj x (List.mem_cons_of_mem a hx)
        y (List.mem_cons_of_mem a hy))⟩
      intro hmem
      obtain ⟨q, hq, hqk⟩ := List.mem_map.mp hmem
      obtain ⟨x, hx, hfx⟩ := List.mem_filterMap.mp hq
      have : x = a := hinj x (List.mem_cons_of_mem a hx) a (List.mem_cons_self a t)
        q b hfx hfa hqk
      rw [this] at hx
      exact hat hx

theorem length_filter_key_le_one {α β : Type} [DecidableEq β] (key : α → β) (v : β) :
    ∀ (l : List α), (l.map key).Nodup →
      (l.filter (fun a => key a == v)).length ≤ 1 := by
  intro l
  induction l with
  | nil =>
    intro _
    simp
  | cons a t ih =>
    intro hnd
    have hat := (List.nodup_cons.mp hnd).1
    have hnt := (List.nodup_cons.mp hnd).2
    rw [List.filter_cons]
    by_cases hka : key a == v
    · rw [if_pos hka]
      have hte : t.filter (fun x => key x == v) = [] := by
        rw [List.filter_eq_nil_iff]
        intro x hx hkx
        apply hat
        have hkxv : key x = v := by simpa using hkx
        have hkav : key a = v := by simpa using hka
        rw [show key a = key x from hkav.trans hkxv.symm]
        exact List.mem_map.mpr ⟨x, hx, rfl⟩
      rw [hte]
      simp
    · rw [if_neg hka]
      exact ih hnt

theorem eq_head?_toList_of_length_le_one {α : Type} {l : List α}
    (h : l.length ≤ 1) : l = l.head?.toList := by
  cases l with
  | nil => rfl
  | cons a t =>
    cases t with
    | nil => rfl
    | cons b t' => simp at h

theorem symbolMap_self {tickers : List TickerRow}
    (hSym : (tickers.map (fun tk => tk.symbol)).Nodup)
    {tk : TickerRow} (htk : tk ∈ tickers) :
    symbolMap tickers tk.symbol = some tk.tid := by
  obtain ⟨t', ht'_mem, ht'_sym, ht'_map⟩ := symbolMap_spec ⟨tk, htk, rfl⟩
  have : t' = tk := List.inj_on_of_nodup_map hSym ht'_mem htk ht'_sym
  rw [ht'_map, this]

theorem import_mem_of_bar {tickers : List TickerRow} {bars : List Bar} {b : Bar}
    {i : ℕ} (hb : b ∈ bars) (hi : symbolMap tickers b.ticker = some i) :
    barToPrice i b ∈ (import_prices_clean tickers bars).1 := by
  show barToPrice i b ∈ List.filterMap
    (fun q => Option.map (fun j => barToPrice j q.1) q.2)
    (bars.map (fun x => (x, symbolMap tickers x.ticker)))
  refine List.mem_filterMap.mpr ⟨(b, symbolMap tickers b.ticker),
    List.mem_map.mpr ⟨b, hb, rfl⟩, ?_⟩
  rw [show (b, symbolMap tickers b.ticker).2 = symbolMap tickers b.ticker from rfl, hi,
    Option.map_some']

theorem sqliteDailySpecRows_import_mem (tickers : List TickerRow) (bars : List Bar)
    (hTid : (tickers.map (fun tk => tk.tid)).Nodup)
    (hSym : (tickers.map (fun tk => tk.symbol)).Nodup)
    (hOrph : ∀ b ∈ bars, ∃ t ∈ tickers, t.symbol = b.ticker)
    (d : DailyRow) :
    d ∈ sqliteDailySpecRows tickers (import_prices_clean tickers bars).1 ↔
      ∃ tk ∈ tickers, ∃ day : ℕ, ∃ fb lb : Bar,
        earliestBar (bars.filter
          (fun b => b.ticker == tk.symbol && b.ts.day == day)) = some fb ∧
        latestBar (bars.filter
          (fun b => b.ticker == tk.symbol && b.ts.day == day)) = some lb ∧
        d = DailyRow.mk tk.symbol day fb.open_ lb.close := by
  rw [sqliteDailySpecRows, List.mem_flatMap]
  constructor
  · rintro ⟨k, hk, hd⟩
    obtain ⟨tk, htkf, hg⟩ := List.mem_filterMap.mp hd
    have htk : tk ∈ tickers := (List.mem_filter.mp htkf).1
    have htid : tk.tid = k.1 := by simpa using (List.mem_filter.mp htkf).2
    have he1 : earliestP (rowsOfTidDay (import_prices_clean tickers bars).1 k.1 k.2) =
        (earliestBar (bars.filter
          (fun b => b.ticker == tk.symbol && b.ts.day == k.2))).map
          (fun b => barToPrice tk.tid b) := by
      rw [← htid, rowsOfTidDay_import tickers bars hTid hSym hOrph htk k.2,
        earliestP_map_barToPrice]
    have he2 : latestP (rowsOfTidDay (import_prices_clean tickers bars).1 k.1 k.2) =
        (latestBar (bars.filter
          (fun b => b.ticker == tk.symbol && b.ts.day == k.2))).map
          (fun b => barToPrice tk.tid b) := by
      rw [← htid, rowsOfTidDay_import tickers bars hTid hSym hOrph htk k.2,
        latestP_map_barToPrice]
    rcases hfb : earliestBar (bars.filter
        (fun b => b.ticker == tk.symbol && b.ts.day == k.2)) with _ | fb
    · simp only [he1, hfb, Option.map_none'] at hg
      exact Option.noConfusion hg
    · rcases hlb : latestBar (bars.filter
          (fun b => b.ticker == tk.symbol && b.ts.day == k.2)) with _ | lb
      · simp only [he1, he2, hfb, hlb, Option.map_none', Option.map_some'] at hg
        exact Option.noConfusion hg
      · simp only [he1, he2, hfb, hlb, Option.map_some'] at hg
        exact ⟨tk, htk, k.2, fb, lb, hfb, hlb, (Option.some.inj hg).symm⟩
  · rintro ⟨tk, htk, day, fb, lb, hfb, hlb, hd⟩
    have hfbgrp := (earliestBar_spec hfb).1
    have hfbbars : fb ∈ bars := (List.mem_filter.mp hfbgrp).1
    have hprops := (List.mem_filter.mp hfbgrp).2
    simp only [Bool.and_eq_true, beq_iff_eq] at hprops
    have hsm : symbolMap tickers fb.ticker = some tk.tid := by
      rw [hprops.1]
      exact symbolMap_self hSym htk
    have hpmem : barToPrice tk.tid fb ∈ (import_prices_clean tickers bars).1 :=
      import_mem_of_bar hfbbars hsm
    have hkmem : (tk.tid, day) ∈ dbKeys (import_prices_clean tickers bars).1 := by
      rw [dbKeys, (List.perm_insertionSort idDayLe _).mem_iff, uniqueFirst_mem]
      refine List.mem_map.mpr ⟨barToPrice tk.tid fb, hpmem, ?_⟩
      show ((barToPrice tk.tid fb).tid, (barToPrice tk.tid fb).ts.day) = (tk.tid, day)
      rw [show (barToPrice tk.tid fb).tid = tk.tid from rfl,
        show (barToPrice tk.tid fb).ts = fb.ts from rfl, hprops.2]
    refine ⟨(tk.tid, day), hkmem, ?_⟩
    refine List.mem_filterMap.mpr ⟨tk, List.mem_filter.mpr ⟨htk, by simp⟩, ?_⟩
    have he1 : earliestP (rowsOfTidDay (import_prices_clean tickers bars).1
        (tk.tid, day).1 (tk.tid, day).2) =
        (earliestBar (bars.filter
          (fun b => b.ticker == tk.symbol && b.ts.day == day))).map
          (fun b => barToPrice tk.tid b) := by
      show earliestP (rowsOfTidDay (import_prices_clean tickers bars).1 tk.tid day) = _
      rw [rowsOfTidDay_import tickers bars hTid hSym hOrph htk day,
        earliestP_map_barToPrice]
    have he2 : latestP (rowsOfTidDay (import_prices_clean tickers bars).1
        (tk.tid, day).1 (tk.tid, day).2) =
        (latestBar (bars.filter
          (fun b => b.ticker == tk.symbol && b.ts.day == day))).map
          (fun b => barToPrice tk.tid b) := by
      show latestP (rowsOfTidDay (import_prices_clean tickers bars).1 tk.tid day) = _
      rw [rowsOfTidDay_import tickers bars hTid hSym hOrph htk day,
        latestP_map_barToPrice]
    simp only [he1, he2, hfb, hlb, Option.map_some']
    show some (DailyRow.mk tk.symbol day fb.open_ lb.close) = some d
    rw [hd]

theorem pqDailySpecRows_init_mem (bars : List Bar)
    (hKey : (bars.map (fun b => (b.ticker, b.ts))).Nodup) (d : DailyRow) :
    d ∈ pqDailySpecRows (init_parquet_bars bars) ↔
      ∃ (sym : String) (day : ℕ) (fb lb : Bar),
        earliestBar (bars.filter
          (fun b => b.ticker == sym && b.ts.day == day)) = some fb ∧
        latestBar (bars.filter
          (fun b => b.ticker == sym && b.ts.day == day)) = some lb ∧
        d = DailyRow.mk sym day fb.open_ lb.close := by
  have hpq : List.Perm (init_parquet_bars bars) bars :=
    List.perm_insertionSort barLoadLe bars
  have hKeyP : ((init_parquet_bars bars).map (fun b => (b.ticker, b.ts))).Nodup :=
    ((hpq.map _).nodup_iff).mpr hKey
  have hE : ∀ k : String × ℕ, earliestBar ((init_parquet_bars bars).filter
      (fun b => b.ticker == k.1 && b.ts.day == k.2)) =
      earliestBar (bars.filter (fun b => b.ticker == k.1 && b.ts.day == k.2)) := by
    intro k
    refine earliestBar_perm (List.Perm.filter _ hpq) ?_
    refine @sublist_ts_nodup (init_parquet_bars bars) _ hKeyP
      (List.filter_sublist _) k.1 ?_
    intro b hb
    have := (List.mem_filter.mp hb).2
    simp only [Bool.and_eq_true, beq_iff_eq] at this
    exact this.1
  have hL : ∀ k : String × ℕ, latestBar ((init_parquet_bars bars).filter
      (fun b => b.ticker == k.1 && b.ts.day == k.2)) =
      latestBar (bars.filter (fun b => b.ticker == k.1 && b.ts.day == k.2)) := by
    intro k
    refine latestBar_perm (List.Perm.filter _ hpq) ?_
    refine @sublist_ts_nodup (init_parquet_bars bars) _ hKeyP
      (List.filter_sublist _) k.1 ?_
    intro b hb
    have := (List.mem_filter.mp hb).2
    simp only [Bool.and_eq_true, beq_iff_eq] at this
    exact this.1
  rw [pqDailySpecRows, List.mem_filterMap]
  constructor
  · rintro ⟨k, hkmem, hg⟩
    rcases hfb : earliestBar (bars.filter
        (fun b => b.ticker == k.1 && b.ts.day == k.2)) with _ | fb
    · simp only [hE k, hfb] at hg
      exact Option.noConfusion hg
    · rcases hlb : latestBar (bars.filter
          (fun b => b.ticker == k.1 && b.ts.day == k.2)) with _ | lb
      · simp only [hE k, hL k, hfb, hlb] at hg
        exact Option.noConfusion hg
      · simp only [hE k, hL k, hfb, hlb] at hg
        exact ⟨k.1, k.2, fb, lb, hfb, hlb, (Option.some.inj hg).symm⟩
  · rintro ⟨sym, day, fb, lb, hfb, hlb, hd⟩
    have hfbgrp := (earliestBar_spec hfb).1
    have hfbbars : fb ∈ bars := (List.mem_filter.mp hfbgrp).1
    have hprops := (List.mem_filter.mp hfbgrp).2
    simp only [Bool.and_eq_true, beq_iff_eq] at hprops
    have hfb2 : earliestBar (bars.filter
        (fun b => b.ticker == (sym, day).1 && b.ts.day == (sym, day).2)) = some fb := hfb
    have hlb2 : latestBar (bars.filter
        (fun b => b.ticker == (sym, day).1 && b.ts.day == (sym, day).2)) = some lb := hlb
    refine ⟨(sym, day), ?_, ?_⟩
    · rw [(List.perm_insertionSort keyLe _).mem_iff, uniqueFirst_mem]
      refine List.mem_map.mpr ⟨fb, hpq.mem_iff.mpr hfbbars, ?_⟩
      show (fb.ticker, fb.ts.day) = (sym, day)
      rw [hprops.1, hprops.2]
    · simp only [hE (sym, day), hL (sym, day), hfb2, hlb2]
      show some (DailyRow.mk sym day fb.open_ lb.close) = some d
      rw [hd]

theorem head?_eq_some_mem {α : Type} {l : List α} {a : α} (h : l.head? = some a) :
    a ∈ l := by
  cases l with
  | nil => exact Option.noConfusion h
  | cons x t =>
    rw [List.head?_cons] at h
    rw [← Option.some.inj h]
    exact List.mem_cons_self x t

theorem sqliteDailySpecRows_key_nodup (tickers : List TickerRow) (bars : List Bar)
    (hTid : (tickers.map (fun tk => tk.tid)).Nodup)
    (hSym : (tickers.map (fun tk => tk.symbol)).Nodup) :
    ((sqliteDailySpecRows tickers (import_prices_clean tickers bars).1).map
      (fun d => (d.symbol, d.day))).Nodup := by
  have hsing : ∀ k : ℕ × ℕ,
      ((tickers.filter (fun t => t.tid == k.1)).filterMap (fun t =>
        match earliestP (rowsOfTidDay (import_prices_clean tickers bars).1 k.1 k.2),
            latestP (rowsOfTidDay (import_prices_clean tickers bars).1 k.1 k.2) with
        | some fp, some lp => some (DailyRow.mk t.symbol k.2 fp.open_ lp.close)
        | _, _ => none)).length ≤ 1 := by
    intro k
    exact le_trans (List.length_filterMap_le _ _)
      (length_filter_key_le_one (fun t => t.tid) k.1 tickers hTid)
  have hconv : sqliteDailySpecRows tickers (import_prices_clean tickers bars).1 =
      (dbKeys (import_prices_clean tickers bars).1).filterMap (fun k =>
        ((tickers.filter (fun t => t.tid == k.1)).filterMap (fun t =>
          match earliestP (rowsOfTidDay (import_prices_clean tickers bars).1 k.1 k.2),
              latestP (rowsOfTidDay (import_prices_clean tickers bars).1 k.1 k.2) with
          | some fp, some lp => some (DailyRow.mk t.symbol k.2 fp.open_ lp.close)
          | _, _ => none)).head?) := by
    refine flatMap_eq_filterMap _ _ _ (fun k _ => ?_)
    exact eq_head?_toList_of_length_le_one (hsing k)
  have hFspec : ∀ (k : ℕ × ℕ) (d : DailyRow),
      ((tickers.filter (fun t => t.tid == k.1)).filterMap (fun t =>
        match earliestP (rowsOfTidDay (import_prices_clean tickers bars).1 k.1 k.2),
            latestP (rowsOfTidDay (import_prices_clean tickers bars).1 k.1 k.2) with
        | some fp, some lp => some (DailyRow.mk t.symbol k.2 fp.open_ lp.close)
        | _, _ => none)).head? = some d →
      ∃ tk ∈ tickers, tk.tid = k.1 ∧ d.symbol = tk.symbol ∧ d.day = k.2 := by
    intro k d hF
    obtain ⟨tk, htkf, hg⟩ := List.mem_filterMap.mp (head?_eq_some_mem hF)
    have htk : tk ∈ tickers := (List.mem_filter.mp htkf).1
    have htid : tk.tid = k.1 := by simpa using (List.mem_filter.mp htkf).2
    rcases he : earliestP (rowsOfTidDay (import_prices_clean tickers bars).1 k.1 k.2)
      with _ | fp
    · simp only [he] at hg
      exact Option.noConfusion hg
    · rcases hl : latestP (rowsOfTidDay (import_prices_clean tickers bars).1 k.1 k.2)
        with _ | lp
      · simp only [he, hl] at hg
        exact Option.noConfusion hg
      · simp only [he, hl] at hg
        have hd := Option.some.inj hg
        refine ⟨tk, htk, htid, ?_, ?_⟩
        · rw [← hd]
        · rw [← hd]
  rw [hconv]
  have hdbN : (dbKeys (import_prices_clean tickers bars).1).Nodup := by
    rw [dbKeys]
    exact ((List.perm_insertionSort idDayLe _).nodup_iff).mpr (uniqueFirst_nodup _)
  refine filterMap_map_nodup _ (fun (d : DailyRow) => (d.symbol, d.day)) _ hdbN ?_
  intro k₁ hk₁ k₂ hk₂ d₁ d₂ hF₁ hF₂ hkey
  obtain ⟨tk₁, htk₁, htid₁, hsym₁, hday₁⟩ := hFspec k₁ d₁ hF₁
  obtain ⟨tk₂, htk₂, htid₂, hsym₂, hday₂⟩ := hFspec k₂ d₂ hF₂
  have hs : d₁.symbol = d₂.symbol := congrArg Prod.fst hkey
  have hdy : d₁.day = d₂.day := congrArg Prod.snd hkey
  have htkeq : tk₁ = tk₂ := List.inj_on_of_nodup_map hSym htk₁ htk₂
    (by rw [← hsym₁, ← hsym₂, hs])
  refine Prod.ext ?_ ?_
  · rw [← htid₁, ← htid₂, htkeq]
  · rw [← hday₁, ← hday₂, hdy]

theorem pqDailySpecRows_key_nodup (bars : List Bar) :
    ((pqDailySpecRows (init_parquet_bars bars)).map
      (fun d => (d.symbol, d.day))).Nodup := by
  rw [pqDailySpecRows]
  refine filterMap_map_nodup _ (fun (d : DailyRow) => (d.symbol, d.day)) _
    (((List.perm_insertionSort keyLe _).nodup_iff).mpr (uniqueFirst_nodup _)) ?_
  intro k₁ hk₁ k₂ hk₂ d₁ d₂ hF₁ hF₂ hkey
  have hspec : ∀ (k : String × ℕ) (d : DailyRow),
      (match earliestBar ((init_parquet_bars bars).filter
            (fun b => b.ticker == k.1 && b.ts.day == k.2)),
          latestBar ((init_parquet_bars bars).filter
            (fun b => b.ticker == k.1 && b.ts.day == k.2)) with
        | some fb, some lb => some (DailyRow.mk k.1 k.2 fb.open_ lb.close)
        | _, _ => none) = some d → d.symbol = k.1 ∧ d.day = k.2 := by
    intro k d hg
    rcases he : earliestBar ((init_parquet_bars bars).filter
        (fun b => b.ticker == k.1 && b.ts.day == k.2)) with _ | fb
    · simp only [he] at hg
      exact Option.noConfusion hg
    · rcases hl : latestBar ((init_parquet_bars bars).filter
          (fun b => b.ticker == k.1 && b.ts.day == k.2)) with _ | lb
      · simp only [he, hl] at hg
        exact Option.noConfusion hg
      · simp only [he, hl] at hg
        have hd := Option.some.inj hg
        exact ⟨by rw [← hd], by rw [← hd]⟩
  obtain ⟨hs₁, hd₁⟩ := hspec k₁ d₁ hF₁
  obtain ⟨hs₂, hd₂⟩ := hspec k₂ d₂ hF₂
  refine Prod.ext ?_ ?_
  · rw [← hs₁, ← hs₂]
    exact congrArg Prod.fst hkey
  · rw [← hd₁, ← hd₂]
    exact congrArg Prod.snd hkey

theorem dailySpecRows_sort_eq (tickers : List TickerRow) (bars : List Bar)
    (hTid : (tickers.map (fun tk => tk.tid)).Nodup)
    (hSym : (tickers.map (fun tk => tk.symbol)).Nodup)
    (hOrph : ∀ b ∈ bars, ∃ t ∈ tickers, t.symbol = b.ticker)
    (hKey : (bars.map (fun b => (b.ticker, b.ts))).Nodup) :
    List.insertionSort dailyLe
        (sqliteDailySpecRows tickers (import_prices_clean tickers bars).1) =
      List.insertionSort dailyLe (pqDailySpecRows (init_parquet_bars bars)) := by
  have hmemeq : ∀ d : DailyRow,
      d ∈ sqliteDailySpecRows tickers (import_prices_clean tickers bars).1 ↔
      d ∈ pqDailySpecRows (init_parquet_bars bars) := by
    intro d
    rw [sqliteDailySpecRows_import_mem tickers bars hTid hSym hOrph d,
      pqDailySpecRows_init_mem bars hKey d]
    constructor
    · rintro ⟨tk, htk, day, fb, lb, hfb, hlb, hd⟩
      exact ⟨tk.symbol, day, fb, lb, hfb, hlb, hd⟩
    · rintro ⟨sym, day, fb, lb, hfb, hlb, hd⟩
      have hfbgrp := (earliestBar_spec hfb).1
      have hfbbars : fb ∈ bars := (List.mem_filter.mp hfbgrp).1
      have hprops := (List.mem_filter.mp hfbgrp).2
      simp only [Bool.and_eq_true, beq_iff_eq] at hprops
      obtain ⟨tk, htk, htks⟩ := hOrph fb hfbbars
      have hsymeq : tk.symbol = sym := by rw [htks, hprops.1]
      refine ⟨tk, htk, day, fb, lb, ?_, ?_, ?_⟩
      · rw [hsymeq]
        exact hfb
      · rw [hsymeq]
        exact hlb
      · rw [hsymeq]
        exact hd
  have hSnodup : (sqliteDailySpecRows tickers
      (import_prices_clean tickers bars).1).Nodup :=
    List.Nodup.of_map _ (sqliteDailySpecRows_key_nodup tickers bars hTid hSym)
  have hPnodup : (pqDailySpecRows (init_parquet_bars bars)).Nodup :=
    List.Nodup.of_map _ (pqDailySpecRows_key_nodup bars)
  have hperm := (List.perm_ext_iff_of_nodup hSnodup hPnodup).mpr hmemeq
  refine eq_of_perm_of_sorted_antisymmOn ?_
    ((List.perm_insertionSort _ _).trans
      (hperm.trans (List.perm_insertionSort _ _).symm))
    (List.sorted_insertionSort _ _) (List.sorted_insertionSort _ _)
  intro a ha b hb hab hba
  have ha' : a ∈ sqliteDailySpecRows tickers (import_prices_clean tickers bars).1 :=
    (List.perm_insertionSort _ _).subset ha
  have hb' : b ∈ sqliteDailySpecRows tickers (import_prices_clean tickers bars).1 :=
    (List.perm_insertionSort _ _).subset hb
  have hkeyeq : (a.symbol, a.day) = (b.symbol, b.day) := by
    rcases hab with h1 | ⟨hd1, hs1⟩
    · rcases hba with h2 | ⟨hd2, hs2⟩
      · exact absurd h2 (by omega)
      · exact absurd hd2 (by omega)
    · rcases hba with h2 | ⟨hd2, hs2⟩
      · exact absurd h2 (by omega)
      · rw [strLe_antisymm hs1 hs2, hd1]
  exact List.inj_on_of_nodup_map
    (sqliteDailySpecRows_key_nodup tickers bars hTid hSym) ha' hb' hkeyeq

theorem daily_query_eq (tickers : List TickerRow) (bars : List Bar) (lim : Option ℕ)
    (hTid : (tickers.map (fun tk => tk.tid)).Nodup)
    (hSym : (tickers.map (fun tk => tk.symbol)).Nodup)
    (hOrph : ∀ b ∈ bars, ∃ t ∈ tickers, t.symbol = b.ticker)
    (hKey : (bars.map (fun b => (b.ticker, b.ts))).Nodup) :
    get_daily_trade_summary_parquet (some (init_parquet_bars bars)) lim =
      Except.ok (get_daily_trade_summary tickers
        (import_prices_clean tickers bars).1 lim) := by
  have hpq : List.Perm (init_parquet_bars bars) bars :=
    List.perm_insertionSort barLoadLe bars
  have hKeyP : ((init_parquet_bars bars).map (fun b => (b.ticker, b.ts))).Nodup :=
    ((hpq.map _).nodup_iff).mpr hKey
  have hN : ((import_prices_clean tickers bars).1.map (fun p => (p.tid, p.ts))).Nodup :=
    import_keys_nodup tickers hTid bars hOrph hKey
  rw [get_daily_parquet_spec _ lim hKeyP, get_daily_sqlite_spec tickers _ lim hN,
    dailySpecRows_sort_eq tickers bars hTid hSym hOrph hKey]

theorem top_query_eq (tickers : List TickerRow) (bars : List Bar) (s e : Ts) (n : ℕ)
    (hTid : (tickers.map (fun tk => tk.tid)).Nodup)
    (hSym : (tickers.map (fun tk => tk.symbol)).Nodup)
    (hOrph : ∀ b ∈ bars, ∃ tk ∈ tickers, tk.symbol = b.ticker)
    (hKey : (bars.map (fun b => (b.ticker, b.ts))).Nodup)
    (hPos : ∀ b ∈ bars, 0 < b.open_)
    (hRound : ∀ fb ∈ bars, ∀ lb ∈ bars,
      round2_sqlite (retValue fb.open_ lb.close) = round2_py (retValue fb.open_ lb.close))
    (hVals : ((sqliteTopSpecRows tickers
      (periodPrices (import_prices_clean tickers bars).1 s e)).map Prod.snd).Nodup) :
    get_top_tickers_by_return_parquet (some (init_parquet_bars bars)) s e n =
      Except.ok (get_top_tickers_by_return tickers
        (import_prices_clean tickers bars).1 s e n) := by
  have hpq : List.Perm (init_parquet_bars bars) bars :=
    List.perm_insertionSort barLoadLe bars
  have hKeyP : ((init_parquet_bars bars).map (fun b => (b.ticker, b.ts))).Nodup :=
    ((hpq.map _).nodup_iff).mpr hKey
  have hNperiod : ((periodPrices (import_prices_clean tickers bars).1 s e).map
      (fun p => (p.tid, p.ts))).Nodup :=
    List.Nodup.sublist (List.Sublist.map _ (List.filter_sublist _))
      (import_keys_nodup tickers hTid bars hOrph hKey)
  have hKfilter : (((init_parquet_bars bars).filter (barRange s e)).map
      (fun b => (b.ticker, b.ts))).Nodup :=
    List.Nodup.sublist (List.Sublist.map _ (List.filter_sublist _)) hKeyP
  rw [get_top_parquet_spec _ s e n hKfilter,
    get_top_sqlite_spec tickers _ s e n hNperiod,
    topSpecRows_sort_eq tickers bars s e hTid hSym hOrph hKey hPos hRound hVals]

/-- C1 counterexample: the backends do NOT agree on every input and
query parameters.  Load the single AAPL bar into both backends and run
the range query for the unknown ticker MSFT: the relational backend
returns the empty row set, while the columnar backend's fallback path
(no `ticker=MSFT` partition) scans the full dataset with only the
timestamp mask and returns the AAPL bar — a non-empty result. -/
theorem C1_counterexample_backends_diverge :
    get_ticker_data [⟨1, "AAPL", "Apple", "NASDAQ"⟩]
        (import_prices_clean [⟨1, "AAPL", "Apple", "NASDAQ"⟩]
          [⟨"AAPL", ⟨17, 30⟩, 271, 272, 270, 271, 1416⟩]).1
        "MSFT" ⟨17, 0⟩ ⟨18, 0⟩ = [] ∧
    get_ticker_data_parquet
        (some (init_parquet_bars [⟨"AAPL", ⟨17, 30⟩, 271, 272, 270, 271, 1416⟩]))
        "MSFT" ⟨17, 0⟩ ⟨18, 0⟩ =
      Except.ok [⟨"AAPL", ⟨17, 30⟩, 271, 272, 270, 271, 1416⟩] ∧
    ([(⟨"AAPL", ⟨17, 30⟩, 271, 272, 270, 271, 1416⟩ : RangeRow)] : List RangeRow) ≠ [] :=
  ⟨by decide, by rfl, by decide⟩

/-- C1 (amended): load one bar set into both backends — the relational
store holds the reference `tickers` table and the imported `prices` rows,
the columnar store holds the (ticker, timestamp)-sorted partitioned
dataset.  When the reference table has distinct ids and distinct symbols,
every bar's ticker is in the reference set, no two bars of one ticker
share a timestamp, the queried range ticker has at least one bar (so its
partition exists), every bar's open is positive, the two 2-decimal
roundings (SQLite half-away-from-zero, Python half-to-even) agree on the
computed period returns, and the period returns are pairwise distinct
(no sort ties), then all four queries — range, averageDailyVolume,
topReturns, dailySummary — return identical results from both
backends. -/
theorem C1_cross_backend_equivalence_amended (tickers : List TickerRow) (bars : List Bar)
    (t : String) (s e : Ts) (n : ℕ) (lim : Option ℕ)
    (hTid : (tickers.map (fun tk => tk.tid)).Nodup)
    (hSym : (tickers.map (fun tk => tk.symbol)).Nodup)
    (hOrph : ∀ b ∈ bars, ∃ tk ∈ tickers, tk.symbol = b.ticker)
    (hKey : (bars.map (fun b => (b.ticker, b.ts))).Nodup)
    (hQ : ∃ b ∈ bars, b.ticker = t)
    (hPos : ∀ b ∈ bars, 0 < b.open_)
    (hRound : ∀ fb ∈ bars, ∀ lb ∈ bars,
      round2_sqlite (retValue fb.open_ lb.close) = round2_py (retValue fb.open_ lb.close))
    (hVals : ((sqliteTopSpecRows tickers
      (periodPrices (import_prices_clean tickers bars).1 s e)).map Prod.snd).Nodup) :
    (get_ticker_data_parquet (some (init_parquet_bars bars)) t s e =
      Except.ok (get_ticker_data tickers (import_prices_clean tickers bars).1 t s e)) ∧
    (get_avg_daily_volume_parquet (some (init_parquet_bars bars)) =
      Except.ok (get_avg_daily_volume tickers (import_prices_clean tickers bars).1)) ∧
    (get_top_tickers_by_return_parquet (some (init_parquet_bars bars)) s e n =
      Except.ok (get_top_tickers_by_return tickers
        (import_prices_clean tickers bars).1 s e n)) ∧
    (get_daily_trade_summary_parquet (some (init_parquet_bars bars)) lim =
      Except.ok (get_daily_trade_summary tickers
        (import_prices_clean tickers bars).1 lim)) :=
  ⟨range_query_eq tickers bars t s e hTid hOrph hKey hQ,
   avg_query_eq tickers bars hTid hOrph,
   top_query_eq tickers bars s e n hTid hSym hOrph hKey hPos hRound hVals,
   daily_query_eq tickers bars lim hTid hSym hOrph hKey⟩

/-- C1 witness: a two-ticker store (A rising 100→110, B rising 50→51)
satisfies every hypothesis, and the topReturns query returns the same
rows from both backends. -/
theorem C1_cross_backend_equivalence_amended_witness :
    get_top_tickers_by_return_parquet
        (some (init_parquet_bars [⟨"A", ⟨1, 1⟩, 100, 100, 100, 100, 10⟩,
          ⟨"A", ⟨1, 2⟩, 100, 110, 100, 110, 10⟩, ⟨"B", ⟨1, 1⟩, 50, 51, 50, 51, 5⟩]))
        ⟨1, 0⟩ ⟨2, 0⟩ 10 =
      Except.ok (get_top_tickers_by_return
        [⟨1, "A", "A Inc", "N"⟩, ⟨2, "B", "B Inc", "N"⟩]
        (import_prices_clean [⟨1, "A", "A Inc", "N"⟩, ⟨2, "B", "B Inc", "N"⟩]
          [⟨"A", ⟨1, 1⟩, 100, 100, 100, 100, 10⟩,
           ⟨"A", ⟨1, 2⟩, 100, 110, 100, 110, 10⟩,
           ⟨"B", ⟨1, 1⟩, 50, 51, 50, 51, 5⟩]).1 ⟨1, 0⟩ ⟨2, 0⟩ 10) :=
  (C1_cross_backend_equivalence_amended
    [⟨1, "A", "A Inc", "N"⟩, ⟨2, "B", "B Inc", "N"⟩]
    [⟨"A", ⟨1, 1⟩, 100, 100, 100, 100, 10⟩, ⟨"A", ⟨1, 2⟩, 100, 110, 100, 110, 10⟩,
     ⟨"B", ⟨1, 1⟩, 50, 51, 50, 51, 5⟩]
    "A" ⟨1, 0⟩ ⟨2, 0⟩ 10 none
    (by decide) (by decide) (by decide) (by decide) (by decide) (by decide)
    (by decide) (by decide)).2.2.1

end MarketData
